import Mathlib

/-!
# grpc_suma_vec: the vector-sum verification protocol

A shallow embedding of `client/main.go` (`calculateCorrectSum`, `compareVectors`) and of
`server/main.go` (`NewVectorServer`, `SumVectors`, `GetStats`).

Go's `float32` and `float64` are modelled bit-exactly as IEEE 754 binary32 and binary64
values with round-to-nearest-even arithmetic (every NaN result is the canonical quiet NaN;
payloads are not tracked).  Go's `int32` counters are integers wrapped to 32 bits.  The
calls to `math/rand` are inputs of the model: one record of raw draws per invocation.
-/

namespace VecSum

/-! ## IEEE 754 binary floating point -/

/-- An IEEE 754 binary interchange value: the sign bit, the biased exponent (`eb` bits)
and the fraction (`mb` bits).  Every inhabitant is a bit pattern of the format. -/
structure FP (eb mb : Nat) where
  sign : Bool
  ex : Fin (2 ^ eb)
  man : Fin (2 ^ mb)
deriving DecidableEq

/-- Go `float32`: IEEE 754 binary32. -/
abbrev Float32 := FP 8 23

/-- Go `float64`: IEEE 754 binary64. -/
abbrev Float64 := FP 11 52

namespace FP

variable {eb mb : Nat}

/-- Assembles a value from a sign, a biased exponent and a fraction (both reduced to
their field width; the callers pass values that fit). -/
def pack (eb mb : Nat) (sign : Bool) (e m : Nat) : FP eb mb :=
  ⟨sign, ⟨e % 2 ^ eb, Nat.mod_lt _ (Nat.two_pow_pos eb)⟩,
    ⟨m % 2 ^ mb, Nat.mod_lt _ (Nat.two_pow_pos mb)⟩⟩

/-- Signed zero. -/
def zero (eb mb : Nat) (sign : Bool) : FP eb mb := pack eb mb sign 0 0

/-- Signed infinity: exponent all ones, fraction zero. -/
def inf (eb mb : Nat) (sign : Bool) : FP eb mb := pack eb mb sign (2 ^ eb - 1) 0

/-- The canonical quiet NaN: exponent all ones, top fraction bit set. -/
def nan (eb mb : Nat) : FP eb mb := pack eb mb false (2 ^ eb - 1) (2 ^ (mb - 1))

/-- Exponent all ones and a non-zero fraction. -/
def isNaN (x : FP eb mb) : Bool := x.ex.val == 2 ^ eb - 1 && x.man.val != 0

/-- Exponent all ones and a zero fraction. -/
def isInf (x : FP eb mb) : Bool := x.ex.val == 2 ^ eb - 1 && x.man.val == 0

/-- The magnitude in units of the least subnormal, `2 ^ -(bias + mb - 1)`.  For an
infinity the same formula gives a number above every finite magnitude. -/
def mag (x : FP eb mb) : Nat :=
  if x.ex.val = 0 then x.man.val else (2 ^ mb + x.man.val) <<< (x.ex.val - 1)

/-- The signed value in units of the least subnormal. -/
def toInt (x : FP eb mb) : Int := if x.sign then -(x.mag : Int) else (x.mag : Int)

/-- The exponent of the unit: the least subnormal is `2 ^ -(unitExp eb mb)`. -/
def unitExp (eb mb : Nat) : Nat := 2 ^ (eb - 1) - 2 + mb

/-- Binary search for the position of the top bit: with `b` bits still to decide and
`2 ^ acc ≤ n` known, the greatest `r < acc + 2 ^ b` with `2 ^ r ≤ n`. -/
def ilog2Aux : Nat → Nat → Nat → Nat
  | 0, acc, _ => acc
  | b + 1, acc, n =>
    if n >>> (acc + 1 <<< b) = 0 then ilog2Aux b acc n else ilog2Aux b (acc + 1 <<< b) n

/-- The floor of the binary logarithm (`0` at `0`), capped at `2 ^ 16 - 1`, which is beyond
the exponent range of both formats. -/
def ilog2 (n : Nat) : Nat := ilog2Aux 16 0 n

/-- Rounds the rational `n / d` to a significand of at most `mb + 1` bits, to nearest
with ties to even: the result `(q, s)` stands for `q * 2 ^ s`. -/
def roundNE (mb n d : Nat) : Nat × Nat :=
  let s := ilog2 (n / d) - mb
  let q := n / (d <<< s)
  let r := n % (d <<< s)
  (if d <<< s < 2 * r ∨ (2 * r = d <<< s ∧ q % 2 = 1) then q + 1 else q, s)

/-- The value nearest to `n / d` units of the least subnormal, with the given sign;
overflows to infinity. -/
def ofRatio (eb mb : Nat) (sign : Bool) (n d : Nat) : FP eb mb :=
  let q := (roundNE mb n d).1
  let s := (roundNE mb n d).2
  if q < 2 ^ mb then pack eb mb sign 0 q
  else
    let e := if q < 2 ^ (mb + 1) then s + 1 else s + 2
    if e < 2 ^ eb - 1 then pack eb mb sign e (if q < 2 ^ (mb + 1) then q - 2 ^ mb else 0)
    else inf eb mb sign

/-- Conversion of a natural number (Go `float64(n)` for a non-negative `int`). -/
def ofNat (eb mb : Nat) (k : Nat) : FP eb mb := ofRatio eb mb false (k <<< unitExp eb mb) 1

/-- Conversion of the decimal constant `n / d`. -/
def ofFrac (eb mb : Nat) (n d : Nat) : FP eb mb := ofRatio eb mb false (n <<< unitExp eb mb) d

/-- Negation flips the sign bit. -/
def neg (x : FP eb mb) : FP eb mb := { x with sign := !x.sign }

/-- Addition, rounded to nearest even. -/
def add (x y : FP eb mb) : FP eb mb :=
  if x.isNaN || y.isNaN then nan eb mb
  else if x.isInf then (if y.isInf && x.sign != y.sign then nan eb mb else x)
  else if y.isInf then y
  else if x.toInt + y.toInt = 0 then zero eb mb (x.sign && y.sign)
  else ofRatio eb mb (decide (x.toInt + y.toInt < 0)) (x.toInt + y.toInt).natAbs 1

/-- Subtraction `x - y` is `x + (-y)`. -/
def sub (x y : FP eb mb) : FP eb mb := add x (neg y)

/-- Multiplication, rounded to nearest even. -/
def mul (x y : FP eb mb) : FP eb mb :=
  if x.isNaN || y.isNaN then nan eb mb
  else if x.isInf || y.isInf then
    (if x.mag = 0 ∨ y.mag = 0 then nan eb mb else inf eb mb (x.sign != y.sign))
  else ofRatio eb mb (x.sign != y.sign) (x.mag * y.mag) (1 <<< unitExp eb mb)

/-- The comparison `x < y`; false when either side is NaN, and `-0 < +0` is false. -/
def lt (x y : FP eb mb) : Bool := !x.isNaN && !y.isNaN && decide (x.toInt < y.toInt)

/-- The comparison `x ≤ y`; false when either side is NaN. -/
def le (x y : FP eb mb) : Bool := !x.isNaN && !y.isNaN && decide (x.toInt ≤ y.toInt)

/-- Conversion between formats (Go `float32(x)`, `float64(x)`), rounded to nearest even. -/
def convert (eb2 mb2 : Nat) (x : FP eb mb) : FP eb2 mb2 :=
  if x.isNaN then nan eb2 mb2
  else if x.isInf then inf eb2 mb2 x.sign
  else ofRatio eb2 mb2 x.sign (x.mag <<< unitExp eb2 mb2) (1 <<< unitExp eb mb)

end FP

/-! ## Data model (`pb` messages and the server state) -/

/-- The message `pb.Vector`: a sequence of `float32` values. -/
structure Vector where
  Values : List Float32
deriving DecidableEq

/-- The message `pb.VectorRequest`: the batch of vectors to add. -/
structure VectorRequest where
  Vectors : List Vector
deriving DecidableEq

/-- The message `pb.VectorResponse`: the result vector and the id of the answering node. -/
structure VectorResponse where
  Result : Vector
  NodeId : Int
deriving DecidableEq

/-- The message `pb.StatsResponse`. -/
structure StatsResponse where
  NodeId : Int
  Reputation : Float32
  CorrectSums : Int
  IncorrectSums : Int
  Crashes : Int
deriving DecidableEq

/-- The error value `fmt.Errorf("nodo %d no disponible", s.nodeID)`. -/
inductive RpcError where
  | unavailable (nodeID : Int)
deriving DecidableEq

/-- The state of `VectorServer` (the embedded gRPC stub and the mutex carry no data). -/
structure VectorServer where
  nodeID : Int
  failProb : Float64
  crashProb : Float64
  reputation : Float64
  correctSums : Int
  incorrectSums : Int
  crashes : Int
deriving DecidableEq

/-- The values the `math/rand` calls of one `SumVectors` invocation return, in program
order; a call that the taken branch does not make leaves its field unused. -/
structure Draws where
  /-- the first `rand.Float64()` -/
  crash : Float64
  /-- the second `rand.Float64()` -/
  fail : Float64
  /-- the generator output behind `rand.Intn(len(result))` -/
  index : Nat
  /-- the value of `rand.Float32()` -/
  noise : Float32
  /-- the generator output behind `rand.Intn(101)` -/
  penalty : Nat
  /-- the generator output behind `rand.Intn(81)` -/
  reward : Nat

/-- Go `int32` arithmetic wraps modulo `2 ^ 32` into `[-2 ^ 31, 2 ^ 31)`. -/
def wrap32 (x : Int) : Int := (x + 2147483648) % 4294967296 - 2147483648

/-- The call `rand.Intn(n)` for `0 < n`: a value in `[0, n)` fixed by the generator output. -/
def Intn (raw n : Nat) : Nat := raw % n

/-- The `float32` constant `0`, the initial content of `make([]float32, size)`. -/
def zero32 : Float32 := FP.zero 8 23 false

/-! ## `client/main.go` -/

/-- The inner loop of `calculateCorrectSum`:
`for i, val := range vector.Values { if i < size { result[i] += val } }`. -/
def addInto (size : Nat) (result : List Float32) (vector : Vector) : List Float32 :=
  vector.Values.enum.foldl
    (fun res p => if p.1 < size then res.set p.1 (FP.add (res.getD p.1 zero32) p.2) else res)
    result

/-- The function `calculateCorrectSum` of the client. -/
def calculateCorrectSum (vectors : List Vector) : List Float32 :=
  match vectors with
  | [] => []
  | first :: _ =>
    if first.Values.length = 0 then []
    else
      let size := first.Values.length
      vectors.foldl (addInto size) (List.replicate size zero32)

/-- The constant `tolerance := float32(0.001)`. -/
def tolerance : Float32 := FP.ofFrac 8 23 1 1000

/-- The absolute difference computed in the loop body of `compareVectors`:
`diff := a - b; if diff < 0 { diff = -diff }`. -/
def absDiff (a b : Float32) : Float32 :=
  if FP.lt (FP.sub a b) zero32 then FP.neg (FP.sub a b) else FP.sub a b

/-- The loop `for i := range v1` of `compareVectors` over the indices still to visit. -/
def compareLoop (v1 v2 : List Float32) : List Nat → Bool
  | [] => true
  | i :: rest =>
    if FP.lt tolerance (absDiff (v1.getD i zero32) (v2.getD i zero32)) then false
    else compareLoop v1 v2 rest

/-- The function `compareVectors` of the client. -/
def compareVectors (v1 v2 : List Float32) : Bool :=
  if v1.length ≠ v2.length then false
  else compareLoop v1 v2 (List.range v1.length)

/-! ## `server/main.go` -/

/-- The constructor `NewVectorServer`: the counters start at zero. -/
def NewVectorServer (nodeID : Int) (failProb crashProb initialRep : Float64) : VectorServer :=
  { nodeID := nodeID, failProb := failProb, crashProb := crashProb, reputation := initialRep,
    correctSums := 0, incorrectSums := 0, crashes := 0 }

/-- The inner loop of `SumVectors`:
`for i, val := range vector.Values { if i < len(result) { result[i] += val } }`. -/
def serverAddInto (result : List Float32) (vector : Vector) : List Float32 :=
  vector.Values.enum.foldl
    (fun res p =>
      if p.1 < res.length then res.set p.1 (FP.add (res.getD p.1 zero32) p.2) else res)
    result

/-- The aggregate `SumVectors` computes before the failure draw (lines 51 to 64). -/
def serverSum (req : VectorRequest) : List Float32 :=
  let resultSize :=
    match req.Vectors with
    | [] => 0
    | first :: _ => if 0 < first.Values.length then first.Values.length else 0
  req.Vectors.foldl serverAddInto (List.replicate resultSize zero32)

/-- The random error `rand.Float32() * 10 - 5`, evaluated in `float32`: the product and
the difference are each rounded (no fused multiply-add). -/
def noiseOffset (noise : Float32) : Float32 :=
  FP.sub (FP.mul noise (FP.ofNat 8 23 10)) (FP.ofNat 8 23 5)

/-- The statement `if len(result) > 0 { errorIndex := rand.Intn(len(result));
result[errorIndex] += rand.Float32() * 10 - 5 }`. -/
def perturb (d : Draws) (result : List Float32) : List Float32 :=
  if 0 < result.length then
    result.set (Intn d.index result.length)
      (FP.add (result.getD (Intn d.index result.length) zero32) (noiseOffset d.noise))
  else result

/-- The method `SumVectors`: the new server state and the returned `(response, error)`. -/
def SumVectors (s : VectorServer) (d : Draws) (req : VectorRequest) :
    VectorServer × Except RpcError VectorResponse :=
  if FP.lt d.crash s.crashProb then
    ({ s with crashes := wrap32 (s.crashes + 1),
              reputation := FP.sub s.reputation (FP.ofNat 11 52 300) },
      Except.error (RpcError.unavailable s.nodeID))
  else if FP.lt d.fail s.failProb then
    ({ s with incorrectSums := wrap32 (s.incorrectSums + 1),
              reputation := FP.sub s.reputation (FP.ofNat 11 52 (150 + Intn d.penalty 101)) },
      Except.ok { Result := { Values := perturb d (serverSum req) }, NodeId := s.nodeID })
  else
    ({ s with correctSums := wrap32 (s.correctSums + 1),
              reputation := FP.add s.reputation (FP.ofNat 11 52 (100 + Intn d.reward 81)) },
      Except.ok { Result := { Values := serverSum req }, NodeId := s.nodeID })

/-- The method `GetStats`: it reads the state under the read lock and returns a snapshot. -/
def GetStats (s : VectorServer) : VectorServer × StatsResponse :=
  (s, { NodeId := s.nodeID, Reputation := FP.convert 8 23 s.reputation,
        CorrectSums := s.correctSums, IncorrectSums := s.incorrectSums,
        Crashes := s.crashes })

/-- A sequence of `SumVectors` invocations on one node, each with its draws and request:
the final state and the outcomes in order. -/
def runTasks (s : VectorServer) :
    List (Draws × VectorRequest) → VectorServer × List (Except RpcError VectorResponse)
  | [] => (s, [])
  | t :: rest =>
    let r := SumVectors s t.1 t.2
    let rs := runTasks r.1 rest
    (rs.1, r.2 :: rs.2)

/-! ## Auxiliary definitions for the statements -/

/-- One iteration of the inner loop of `calculateCorrectSum`. -/
def addStep (size : Nat) (res : List Float32) (p : Nat × Float32) : List Float32 :=
  if p.1 < size then res.set p.1 (FP.add (res.getD p.1 zero32) p.2) else res

/-- The sum the specification prescribes at position `i`: every vector of the batch
contributes its value at `i`, a vector too short for `i` contributing `0`; the additions
are `float32` additions in batch order, starting from `0`. -/
def colSum (vectors : List Vector) (i : Nat) : Float32 :=
  vectors.foldl (fun acc v => FP.add acc (v.Values.getD i zero32)) zero32

/-- The accumulation the loop performs at position `i`: a vector too short for `i` is
skipped. -/
def colAcc (i : Nat) (acc : Float32) (v : Vector) : Float32 :=
  if i < v.Values.length then FP.add acc (v.Values.getD i zero32) else acc

/-- The values an accumulator of the summation loop takes: never `-0`, and no NaN other
than the canonical one. -/
def Tidy (x : Float32) : Prop :=
  x ≠ FP.zero 8 23 true ∧ (x.isNaN = true → x = FP.nan 8 23)

/-- The vector of the natural numbers `ks`, each converted to `float32`. -/
def natVector (ks : List Nat) : Vector := { Values := ks.map (FP.ofNat 8 23) }

/-- The sum of the three counters of a node. -/
def counterSum (s : VectorServer) : Int := s.correctSums + s.incorrectSums + s.crashes

/-- A draw of `rand.Float64()` lies in `[0, 1)`. -/
def InUnit (d : Float64) : Prop :=
  FP.le (FP.ofNat 11 52 0) d = true ∧ FP.lt d (FP.ofNat 11 52 1) = true

/-- The `float64` constant `1.0`. -/
def one64 : Float64 := FP.ofNat 11 52 1

/-- The draws of an invocation whose first draw is `0` (all the others `0` as well). -/
def zeroDraws : Draws :=
  { crash := FP.ofNat 11 52 0, fail := FP.ofNat 11 52 0, index := 0,
    noise := FP.ofNat 8 23 0, penalty := 0, reward := 0 }

/-- The invariant of the counters after `k` invocations without overflow: none is
negative and they add up to `k`. -/
def CountInv (s : VectorServer) (k : Nat) : Prop :=
  0 ≤ s.correctSums ∧ 0 ≤ s.incorrectSums ∧ 0 ≤ s.crashes ∧ counterSum s = k

/-- One invocation incremented exactly one counter by one and left the other two
unchanged. -/
def OneIncrement (s s2 : VectorServer) : Prop :=
  (s2.correctSums = s.correctSums + 1 ∧ s2.incorrectSums = s.incorrectSums ∧
      s2.crashes = s.crashes) ∨
  (s2.correctSums = s.correctSums ∧ s2.incorrectSums = s.incorrectSums + 1 ∧
      s2.crashes = s.crashes) ∨
  (s2.correctSums = s.correctSums ∧ s2.incorrectSums = s.incorrectSums ∧
      s2.crashes = s.crashes + 1)

/-- A node that always crashes: crash probability `1.0`. -/
def crashingNode : VectorServer :=
  NewVectorServer 1 (FP.ofNat 11 52 0) one64 (FP.ofNat 11 52 1000)

/-- A draw of `rand.Float32()` lies in `[0, 1)`. -/
def InUnit32 (x : Float32) : Prop :=
  FP.le (FP.ofNat 8 23 0) x = true ∧ FP.lt x (FP.ofNat 8 23 1) = true

/-- A node that never crashes and always answers incorrectly: crash probability `0`,
failure probability `1.0`. -/
def failingNode : VectorServer :=
  NewVectorServer 1 one64 (FP.ofNat 11 52 0) (FP.ofNat 11 52 1000)

/-- Draws with first and second draw `0` and `rand.Float32()` returning `0.5`. -/
def halfDraws : Draws := { zeroDraws with noise := FP.ofFrac 8 23 1 2 }

/-- The total of column `i` of a matrix of natural numbers (a missing entry counts `0`). -/
def colTotal (K : List (List Nat)) (i : Nat) : Nat := (K.map (fun ks => ks.getD i 0)).sum

/-- The integer `z`, in units of the least subnormal, is the value of a finite bit pattern
of the format. -/
def FP.Exact (eb mb : Nat) (z : Int) : Prop :=
  ∃ f : FP eb mb, f.ex.val < 2 ^ eb - 1 ∧ f.toInt = z

/-- A `float32` that is a number: neither NaN nor infinite. -/
abbrev Finite32 (x : Float32) : Prop := x.ex.val < 2 ^ 8 - 1

/-- The criterion of the specification at one position, on exact values: the `float32`
difference `a - b` is a number whose magnitude is at most `float32(0.001)`. -/
def DiffWithin (a b : Float32) : Prop :=
  (FP.sub a b).isNaN = false ∧ (FP.sub a b).mag ≤ tolerance.mag

/-- The `float32` difference `a - b` is a number whose magnitude exceeds
`float32(0.001)`. -/
def DiffExceeds (a b : Float32) : Prop :=
  (FP.sub a b).isNaN = false ∧ tolerance.mag < (FP.sub a b).mag

/-- The `float32` difference `a - b` is NaN. -/
def DiffIsNaN (a b : Float32) : Prop := (FP.sub a b).isNaN = true

/-- The magnitude of the exact (unrounded) difference of two numbers, in units of the
least subnormal `2 ^ -149`. -/
def exactDiff (a b : Float32) : Nat := (a.toInt - b.toInt).natAbs

/-- The `float32` next above the tolerance, `0.00100000016…`. -/
def toleranceUp : Float32 := FP.pack 8 23 false 117 201328

/-- The values of the batch at position `i`, in batch order; a vector too short for `i`
contributes `0`. -/
def column (vectors : List Vector) (i : Nat) : List Float32 :=
  vectors.map (fun v => v.Values.getD i zero32)

/-- The exact (unrounded) sum of a list of numbers, in units of the least subnormal
`2 ^ -149`. -/
def exactSum (xs : List Float32) : Int := (xs.map FP.toInt).sum

/-- A running sum that never rounds: from the exact value `acc`, every value added is a
number and every partial sum is the value of a finite `float32`. -/
def ExactRun : Int → List Float32 → Prop
  | _, [] => True
  | acc, x :: xs => Finite32 x ∧ FP.Exact 8 23 (acc + x.toInt) ∧ ExactRun (acc + x.toInt) xs

/-- A `float64` that is a number: neither NaN nor infinite. -/
abbrev Finite64 (x : Float64) : Prop := x.ex.val < 2 ^ 11 - 1

/-- The value `1.0` in units of the least `float64` subnormal, `2 ^ 1074`. -/
def unit64 : Nat := 1 <<< FP.unitExp 11 52

/-- A draw of `rand.Float32()` away from the centre of `[0, 1)`: at most `0.4998` or at
least `0.5002`, so that the offset `rand.Float32() * 10 - 5` is at least `2 ^ -9` in
magnitude. -/
abbrev OffCentre (noise : Float32) : Prop :=
  FP.le noise (FP.ofFrac 8 23 4998 10000) = true ∨
    FP.le (FP.ofFrac 8 23 5002 10000) noise = true

/-- A value in `[0, 100]`, as are the values `rand.Float32() * 100` of the batches the
coordinator generates. -/
abbrev InHundred (x : Float32) : Prop :=
  FP.le (FP.ofNat 8 23 0) x = true ∧ FP.le x (FP.ofNat 8 23 100) = true

/-! ## Lemmas on the floating-point model -/

namespace FP
variable {eb mb : Nat}

theorem ilog2Aux_spec (b : Nat) : ∀ acc n : Nat, 2 ^ acc ≤ n →
    2 ^ ilog2Aux b acc n ≤ n ∧ (n < 2 ^ (acc + 2 ^ b) → n < 2 ^ (ilog2Aux b acc n + 1)) := by
  induction b with
  | zero =>
    intro acc n h
    simpa [ilog2Aux] using h
  | succ b ih =>
    intro acc n h
    unfold ilog2Aux
    rw [Nat.one_shiftLeft, Nat.shiftRight_eq_div_pow]
    by_cases hlt : n < 2 ^ (acc + 2 ^ b)
    · rw [if_pos (Nat.div_eq_of_lt hlt)]
      exact ⟨(ih acc n h).1, fun _ => (ih acc n h).2 hlt⟩
    · have hge : 2 ^ (acc + 2 ^ b) ≤ n := Nat.le_of_not_lt hlt
      have hne : ¬ n / 2 ^ (acc + 2 ^ b) = 0 := by
        intro h0
        have := (Nat.div_eq_zero_iff (Nat.two_pow_pos _)).1 h0
        omega
      rw [if_neg hne]
      refine ⟨(ih _ n hge).1, fun hub => (ih _ n hge).2 ?_⟩
      have : acc + 2 ^ b + 2 ^ b = acc + 2 ^ (b + 1) := by rw [pow_succ]; omega
      rw [this]; exact hub

theorem ilog2Aux_zero (b acc : Nat) : ilog2Aux b acc 0 = acc := by
  induction b generalizing acc with
  | zero => rfl
  | succ b ih => simp [ilog2Aux, ih]

theorem ilog2_zero : ilog2 0 = 0 := ilog2Aux_zero 16 0

theorem ilog2_le {n : Nat} (h : n ≠ 0) : 2 ^ ilog2 n ≤ n :=
  (ilog2Aux_spec 16 0 n (by simpa using Nat.pos_of_ne_zero h)).1

theorem ilog2_lt {n : Nat} (h : n < 2 ^ (2 ^ 16)) : n < 2 ^ (ilog2 n + 1) := by
  by_cases h0 : n = 0
  · subst h0; exact Nat.two_pow_pos _
  · exact (ilog2Aux_spec 16 0 n (by simpa using Nat.pos_of_ne_zero h0)).2
      (by rw [Nat.zero_add]; exact h)

theorem ilog2_eq {n k : Nat} (hk : k < 2 ^ 16) (h1 : 2 ^ k ≤ n) (h2 : n < 2 ^ (k + 1)) :
    ilog2 n = k := by
  have hn : n ≠ 0 := by have := Nat.two_pow_pos k; omega
  have hcap : n < 2 ^ (2 ^ 16) :=
    lt_of_lt_of_le h2 (Nat.pow_le_pow_right (by decide) (by omega))
  have a := ilog2_le hn
  have b := ilog2_lt hcap
  have c : ilog2 n < k + 1 := by
    by_contra hc
    have : 2 ^ (k + 1) ≤ 2 ^ ilog2 n := Nat.pow_le_pow_right (by decide) (by omega)
    omega
  have d : k < ilog2 n + 1 := by
    by_contra hc
    have : 2 ^ (ilog2 n + 1) ≤ 2 ^ k := Nat.pow_le_pow_right (by decide) (by omega)
    omega
  omega


theorem roundNE_exact_aux (s Q d : Nat) (hd : 0 < d) :
    (let q := (Q * 2 ^ s * d) / (d <<< s)
     let r := (Q * 2 ^ s * d) % (d <<< s)
     (if d <<< s < 2 * r ∨ (2 * r = d <<< s ∧ q % 2 = 1) then q + 1 else q)) = Q := by
  have hpos : 0 < d * 2 ^ s := Nat.mul_pos hd (Nat.two_pow_pos _)
  have hBd : Q * 2 ^ s * d = Q * (d * 2 ^ s) := by ring
  simp only [Nat.shiftLeft_eq]
  rw [hBd, Nat.mul_div_cancel Q hpos, Nat.mul_mod_left]
  have h1 : ¬ (d * 2 ^ s < 2 * 0 ∨ (2 * 0 = d * 2 ^ s ∧ Q % 2 = 1)) := by omega
  rw [if_neg h1]

theorem roundNE_exact (mb B d : Nat) (hd : 0 < d) (hdiv : 2 ^ (ilog2 B - mb) ∣ B) :
    roundNE mb (B * d) d = (B / 2 ^ (ilog2 B - mb), ilog2 B - mb) := by
  unfold roundNE
  simp only [Nat.mul_div_cancel B hd]
  generalize ilog2 B - mb = s at *
  obtain ⟨Q, hQ⟩ := hdiv
  subst hQ
  have := roundNE_exact_aux s Q d hd
  simp only [Nat.mul_comm (2 ^ s) Q, Nat.mul_div_cancel Q (Nat.two_pow_pos s)]
  simp only at this
  rw [this]

theorem pack_sign (s : Bool) (e m : Nat) : (pack eb mb s e m).sign = s := rfl

theorem pack_ex (s : Bool) (e m : Nat) (h : e < 2 ^ eb) : (pack eb mb s e m).ex.val = e :=
  Nat.mod_eq_of_lt h

theorem pack_man (s : Bool) (e m : Nat) (h : m < 2 ^ mb) : (pack eb mb s e m).man.val = m :=
  Nat.mod_eq_of_lt h

/-- Rounding a value that the format represents returns it: for `B` units with
`B` a multiple of the spacing at its binade and within the finite range, the result
has the given sign, magnitude `B`, and is finite. -/
theorem ofRatio_exact (heb : 2 ≤ eb) (hcap : mb + 2 ^ eb ≤ 2 ^ 16) (sign : Bool) (B d : Nat)
    (hd : 0 < d) (hdiv : 2 ^ (ilog2 B - mb) ∣ B) (hB : B < 2 ^ (mb + (2 ^ eb - 2))) :
    (ofRatio eb mb sign (B * d) d).sign = sign ∧ (ofRatio eb mb sign (B * d) d).mag = B ∧
      (ofRatio eb mb sign (B * d) d).ex.val < 2 ^ eb - 1 := by
  have h4 : 4 ≤ 2 ^ eb := by
    calc 4 = 2 ^ 2 := by norm_num
      _ ≤ 2 ^ eb := Nat.pow_le_pow_right (by decide) heb
  have hBcap : B < 2 ^ (2 ^ 16) :=
    lt_of_lt_of_le hB (Nat.pow_le_pow_right (by decide) (by omega))
  have hr := roundNE_exact mb B d hd hdiv
  have hlo : B ≠ 0 → 2 ^ ilog2 B ≤ B := fun h => ilog2_le h
  have hhi := ilog2_lt hBcap
  have hz : B = 0 → ilog2 B = 0 := fun h => by rw [h, ilog2_zero]
  generalize ilog2 B = L at *
  generalize hsdef : L - mb = s at *
  obtain ⟨Q, hQ⟩ := hdiv
  have hq : B / 2 ^ s = Q := by
    rw [hQ]; exact Nat.mul_div_cancel_left Q (Nat.two_pow_pos _)
  rw [hq] at hr
  have hs : 0 < s → 2 ^ mb ≤ Q := by
    intro h
    have hB0 : B ≠ 0 := by
      intro h0; have := hz h0; omega
    have h1 := hlo hB0
    have h2 : L = mb + s := by omega
    rw [h2, pow_add, hQ, Nat.mul_comm] at h1
    exact Nat.le_of_mul_le_mul_left h1 (Nat.two_pow_pos _)
  have hQlt : Q < 2 ^ (mb + 1) := by
    have h2 : 2 ^ (L + 1) ≤ 2 ^ (s + (mb + 1)) :=
      Nat.pow_le_pow_right (by decide) (by omega)
    have h3 : 2 ^ s * Q < 2 ^ s * 2 ^ (mb + 1) := by
      rw [← hQ, ← pow_add]; omega
    exact Nat.lt_of_mul_lt_mul_left h3
  have hfin : B ≠ 0 → s + 1 < 2 ^ eb - 1 := by
    intro hB0
    have h1 := hlo hB0
    have h2 : L < mb + (2 ^ eb - 2) := by
      by_contra hc
      have : 2 ^ (mb + (2 ^ eb - 2)) ≤ 2 ^ L :=
        Nat.pow_le_pow_right (by decide) (by omega)
      omega
    omega
  unfold ofRatio
  simp only [hr]
  by_cases hsub : Q < 2 ^ mb
  · have hs0 : s = 0 := by
      by_contra hc
      have := hs (Nat.pos_of_ne_zero hc)
      omega
    rw [if_pos hsub]
    refine ⟨rfl, ?_, ?_⟩
    · unfold mag
      rw [pack_ex _ _ _ (by omega), if_pos rfl, pack_man _ _ _ hsub, hQ, hs0]
      simp
    · rw [pack_ex _ _ _ (by omega)]; omega
  · have hB0 : B ≠ 0 := by
      intro h0
      rw [h0] at hQ
      have := Nat.two_pow_pos s
      have hq0 : Q = 0 := by
        rcases Nat.mul_eq_zero.1 hQ.symm with h | h
        · omega
        · exact h
      have := Nat.two_pow_pos mb
      omega
    have he := hfin hB0
    rw [if_neg hsub]
    simp only [if_pos hQlt, if_pos he]
    have hm : Q - 2 ^ mb < 2 ^ mb := by rw [pow_succ] at hQlt; omega
    refine ⟨rfl, ?_, ?_⟩
    · unfold mag
      rw [pack_ex _ _ _ (by omega), if_neg (by omega), pack_man _ _ _ hm, Nat.shiftLeft_eq,
        hQ]
      have : 2 ^ mb + (Q - 2 ^ mb) = Q := by omega
      rw [this, Nat.add_sub_cancel, Nat.mul_comm]
    · rw [pack_ex _ _ _ (by omega)]; exact he


theorem mag_of_ex_zero (x : FP eb mb) (h : x.ex.val = 0) : x.mag = x.man.val := by
  unfold mag; rw [if_pos h]

theorem mag_of_ex_pos (x : FP eb mb) (h : x.ex.val ≠ 0) :
    x.mag = (2 ^ mb + x.man.val) * 2 ^ (x.ex.val - 1) := by
  unfold mag; rw [if_neg h, Nat.shiftLeft_eq]

theorem mag_lower (x : FP eb mb) (h : x.ex.val ≠ 0) : 2 ^ (mb + (x.ex.val - 1)) ≤ x.mag := by
  rw [mag_of_ex_pos x h, pow_add]
  exact Nat.mul_le_mul_right _ (Nat.le_add_right _ _)

theorem mag_upper (x : FP eb mb) (h : x.ex.val ≠ 0) :
    x.mag < 2 ^ (mb + 1 + (x.ex.val - 1)) := by
  rw [mag_of_ex_pos x h, pow_add (2 : Nat) (mb + 1)]
  apply Nat.mul_lt_mul_of_pos_right _ (Nat.two_pow_pos _)
  have := x.man.isLt
  rw [pow_succ]; omega

theorem mag_eq_zero_iff (x : FP eb mb) : x.mag = 0 ↔ x.ex.val = 0 ∧ x.man.val = 0 := by
  by_cases h : x.ex.val = 0
  · rw [mag_of_ex_zero x h]; simp [h]
  · have h1 := mag_lower x h
    have := Nat.two_pow_pos (mb + (x.ex.val - 1))
    constructor
    · intro h0; omega
    · intro h0; exact absurd h0.1 h

theorem ex_eq_of_mag_eq (x y : FP eb mb) (h : x.mag = y.mag) : x.ex.val = y.ex.val := by
  by_contra hne
  have key : ∀ a b : FP eb mb, a.mag = b.mag → a.ex.val < b.ex.val → False := by
    intro a b hab hlt
    have hb : b.ex.val ≠ 0 := by omega
    have h1 := mag_lower b hb
    by_cases ha : a.ex.val = 0
    · have h2 := mag_of_ex_zero a ha
      have h3 := a.man.isLt
      have h4 : 2 ^ mb ≤ 2 ^ (mb + (b.ex.val - 1)) := Nat.pow_le_pow_right (by decide) (by omega)
      omega
    · have h2 := mag_upper a ha
      have h4 : 2 ^ (mb + 1 + (a.ex.val - 1)) ≤ 2 ^ (mb + (b.ex.val - 1)) :=
        Nat.pow_le_pow_right (by decide) (by omega)
      omega
  rcases Nat.lt_or_gt_of_ne hne with h1 | h1
  · exact key x y h h1
  · exact key y x h.symm h1

/-- A bit pattern is determined by its sign and its magnitude. -/
theorem eq_of_sign_mag (x y : FP eb mb) (hs : x.sign = y.sign) (hm : x.mag = y.mag) :
    x = y := by
  have he := ex_eq_of_mag_eq x y hm
  have hman : x.man.val = y.man.val := by
    by_cases h0 : x.ex.val = 0
    · rw [mag_of_ex_zero x h0, mag_of_ex_zero y (he ▸ h0)] at hm; exact hm
    · rw [mag_of_ex_pos x h0, mag_of_ex_pos y (he ▸ h0), he] at hm
      have := Nat.eq_of_mul_eq_mul_right (Nat.two_pow_pos _) hm
      omega
  cases x with
  | mk s1 e1 m1 =>
    cases y with
    | mk s2 e2 m2 =>
      simp only at hs he hman
      have e12 : e1 = e2 := Fin.ext he
      have m12 : m1 = m2 := Fin.ext hman
      rw [hs, e12, m12]

/-- Rounding the exact value of a finite bit pattern gives the pattern back. -/
theorem ofRatio_mag (heb : 2 ≤ eb) (hcap : mb + 2 ^ eb ≤ 2 ^ 16) (x : FP eb mb)
    (hfin : x.ex.val < 2 ^ eb - 1) : ofRatio eb mb x.sign x.mag 1 = x := by
  have hdiv : 2 ^ (ilog2 x.mag - mb) ∣ x.mag := by
    by_cases h0 : x.ex.val = 0
    · have hm := mag_of_ex_zero x h0
      have hlt := x.man.isLt
      have hs : ilog2 x.mag - mb = 0 := by
        by_cases hz : x.mag = 0
        · rw [hz, ilog2_zero, Nat.zero_sub]
        · have h1 := ilog2_le hz
          have : ilog2 x.mag < mb := by
            by_contra hc
            have : 2 ^ mb ≤ 2 ^ ilog2 x.mag := Nat.pow_le_pow_right (by decide) (by omega)
            omega
          omega
      rw [hs]; simp
    · have hl : ilog2 x.mag = mb + (x.ex.val - 1) :=
        ilog2_eq (by omega) (mag_lower x h0) (by
          have := mag_upper x h0
          have e : mb + (x.ex.val - 1) + 1 = mb + 1 + (x.ex.val - 1) := by omega
          rw [e]; exact this)
      rw [hl, Nat.add_sub_cancel_left, mag_of_ex_pos x h0]
      exact Dvd.intro_left _ rfl
  have hB : x.mag < 2 ^ (mb + (2 ^ eb - 2)) := by
    by_cases h0 : x.ex.val = 0
    · rw [mag_of_ex_zero x h0]
      exact lt_of_lt_of_le x.man.isLt (Nat.pow_le_pow_right (by decide) (by omega))
    · exact lt_of_lt_of_le (mag_upper x h0) (Nat.pow_le_pow_right (by decide) (by omega))
  have h := ofRatio_exact heb hcap x.sign x.mag 1 (by decide) hdiv hB
  rw [Nat.mul_one] at h
  exact eq_of_sign_mag _ _ h.1 h.2.1


theorem roundNE_fst_pos (mb n d : Nat) (hd : 0 < d) (hn : d ≤ n) : 1 ≤ (roundNE mb n d).1 := by
  have h1 : n / d ≠ 0 := by
    intro h0
    have := (Nat.div_eq_zero_iff hd).1 h0
    omega
  have h2 := ilog2_le h1
  have h3 : 2 ^ (ilog2 (n / d) - mb) ≤ 2 ^ ilog2 (n / d) :=
    Nat.pow_le_pow_right (by decide) (Nat.sub_le _ _)
  have h4 : d * 2 ^ (ilog2 (n / d) - mb) ≤ n :=
    calc d * 2 ^ (ilog2 (n / d) - mb) ≤ d * (n / d) := Nat.mul_le_mul_left d (le_trans h3 h2)
      _ ≤ n := Nat.mul_div_le n d
  have h5 : 1 ≤ n / (d * 2 ^ (ilog2 (n / d) - mb)) :=
    (Nat.one_le_div_iff (Nat.mul_pos hd (Nat.two_pow_pos _))).2 h4
  unfold roundNE
  simp only [Nat.shiftLeft_eq]
  split <;> omega

/-- The three shapes of a rounded result. -/
theorem ofRatio_cases (eb mb : Nat) (sign : Bool) (n d : Nat) :
    (∃ q, q < 2 ^ mb ∧ q = (roundNE mb n d).1 ∧ ofRatio eb mb sign n d = pack eb mb sign 0 q) ∨
    (∃ e m, 1 ≤ e ∧ e < 2 ^ eb - 1 ∧ ofRatio eb mb sign n d = pack eb mb sign e m) ∨
    ofRatio eb mb sign n d = inf eb mb sign := by
  unfold ofRatio
  simp only
  by_cases h1 : (roundNE mb n d).1 < 2 ^ mb
  · exact Or.inl ⟨_, h1, rfl, by rw [if_pos h1]⟩
  · rw [if_neg h1]
    by_cases h2 : (if (roundNE mb n d).1 < 2 ^ (mb + 1) then (roundNE mb n d).2 + 1
        else (roundNE mb n d).2 + 2) < 2 ^ eb - 1
    · rw [if_pos h2]
      exact Or.inr (Or.inl ⟨_, _, by split <;> omega, h2, rfl⟩)
    · rw [if_neg h2]
      exact Or.inr (Or.inr rfl)

theorem ofRatio_not_nan (heb : 1 ≤ eb) (sign : Bool) (n d : Nat) :
    (ofRatio eb mb sign n d).isNaN = false := by
  have h2 : 2 ≤ 2 ^ eb := by
    calc 2 = 2 ^ 1 := by norm_num
      _ ≤ 2 ^ eb := Nat.pow_le_pow_right (by decide) heb
  rcases ofRatio_cases eb mb sign n d with ⟨q, _, _, h⟩ | ⟨e, m, h1, h2, h⟩ | h
  · rw [h]; unfold isNaN
    rw [pack_ex _ _ _ (by omega)]
    have : ¬ (0 = 2 ^ eb - 1) := by omega
    simp [this]
  · rw [h]; unfold isNaN
    rw [pack_ex _ _ _ (by omega)]
    have : ¬ (e = 2 ^ eb - 1) := by omega
    simp [this]
  · rw [h]; unfold isNaN inf
    rw [pack_man _ _ _ (Nat.two_pow_pos mb)]
    simp

theorem ofRatio_mag_ne_zero (heb : 1 ≤ eb) (sign : Bool) (n d : Nat) (hd : 0 < d)
    (hn : d ≤ n) : (ofRatio eb mb sign n d).mag ≠ 0 := by
  have h2 : 2 ≤ 2 ^ eb := by
    calc 2 = 2 ^ 1 := by norm_num
      _ ≤ 2 ^ eb := Nat.pow_le_pow_right (by decide) heb
  have hq := roundNE_fst_pos mb n d hd hn
  rw [Ne, mag_eq_zero_iff]
  rcases ofRatio_cases eb mb sign n d with ⟨q, hq1, hq2, h⟩ | ⟨e, m, h1, h2, h⟩ | h
  · rw [h, pack_man _ _ _ hq1]; omega
  · rw [h, pack_ex _ _ _ (by omega)]; omega
  · rw [h]; unfold inf; rw [pack_ex _ _ _ (by omega)]; omega


theorem isNaN_iff (x : FP eb mb) : x.isNaN = true ↔ x.ex.val = 2 ^ eb - 1 ∧ x.man.val ≠ 0 := by
  simp [isNaN]

theorem isInf_iff (x : FP eb mb) : x.isInf = true ↔ x.ex.val = 2 ^ eb - 1 ∧ x.man.val = 0 := by
  simp [isInf]

theorem two_le_two_pow (heb : 1 ≤ eb) : 2 ≤ 2 ^ eb := by
  calc 2 = 2 ^ 1 := by norm_num
    _ ≤ 2 ^ eb := Nat.pow_le_pow_right (by decide) heb

theorem zero_ex (s : Bool) : (zero eb mb s).ex.val = 0 := Nat.zero_mod _

theorem zero_man (s : Bool) : (zero eb mb s).man.val = 0 := Nat.zero_mod _

theorem zero_mag (s : Bool) : (zero eb mb s).mag = 0 :=
  (mag_eq_zero_iff _).2 ⟨zero_ex s, zero_man s⟩

theorem zero_toInt (s : Bool) : (zero eb mb s).toInt = 0 := by
  unfold toInt; rw [zero_mag]; simp

theorem zero_isNaN (s : Bool) : (zero eb mb s).isNaN = false := by
  rw [Bool.eq_false_iff, Ne, isNaN_iff, zero_man]; simp

theorem zero_isInf (heb : 1 ≤ eb) (s : Bool) : (zero eb mb s).isInf = false := by
  have := two_le_two_pow heb
  rw [Bool.eq_false_iff, Ne, isInf_iff, zero_ex]; omega

theorem nan_ex (heb : 1 ≤ eb) : (nan eb mb).ex.val = 2 ^ eb - 1 := by
  have := two_le_two_pow heb
  unfold nan; rw [pack_ex _ _ _ (by omega)]

theorem toInt_eq_zero_iff (x : FP eb mb) : x.toInt = 0 ↔ x.mag = 0 := by
  unfold toInt; split <;> omega

theorem toInt_natAbs (x : FP eb mb) : x.toInt.natAbs = x.mag := by
  unfold toInt; split <;> simp

theorem toInt_neg_iff (x : FP eb mb) (h : x.mag ≠ 0) : decide (x.toInt < 0) = x.sign := by
  unfold toInt
  cases hs : x.sign
  · simp
  · simp; omega

theorem finite_of_not (x : FP eb mb) (h1 : x.isNaN = false) (h2 : x.isInf = false) :
    x.ex.val < 2 ^ eb - 1 := by
  have hlt := x.ex.isLt
  by_contra hc
  have he : x.ex.val = 2 ^ eb - 1 := by omega
  by_cases hm : x.man.val = 0
  · have := (isInf_iff x).2 ⟨he, hm⟩; rw [h2] at this; exact Bool.noConfusion this
  · have := (isNaN_iff x).2 ⟨he, hm⟩; rw [h1] at this; exact Bool.noConfusion this

/-- Every NaN that `add` returns is the canonical one. -/
theorem add_isNaN (heb : 1 ≤ eb) (x y : FP eb mb) (h : (add x y).isNaN = true) :
    add x y = nan eb mb := by
  unfold add at h ⊢
  by_cases h1 : (x.isNaN || y.isNaN) = true
  · rw [if_pos h1]
  · rw [if_neg h1] at h ⊢
    have hx : x.isNaN = false := by
      cases hh : x.isNaN
      · rfl
      · simp [hh] at h1
    have hy : y.isNaN = false := by
      cases hh : y.isNaN
      · rfl
      · simp [hh] at h1
    by_cases h2 : x.isInf = true
    · rw [if_pos h2] at h ⊢
      by_cases h3 : (y.isInf && x.sign != y.sign) = true
      · rw [if_pos h3]
      · rw [if_neg h3] at h; rw [hx] at h; exact Bool.noConfusion h
    · rw [if_neg h2] at h ⊢
      by_cases h3 : y.isInf = true
      · rw [if_pos h3] at h; rw [hy] at h; exact Bool.noConfusion h
      · rw [if_neg h3] at h
        by_cases h4 : x.toInt + y.toInt = 0
        · rw [if_pos h4, zero_isNaN] at h; exact Bool.noConfusion h
        · rw [if_neg h4, ofRatio_not_nan heb] at h; exact Bool.noConfusion h

/-- The sum is the negative zero only when both operands are. -/
theorem add_ne_negzero (heb : 1 ≤ eb) (x y : FP eb mb) (hx : x ≠ zero eb mb true) :
    add x y ≠ zero eb mb true := by
  have h2 := two_le_two_pow heb
  have key : ∀ z : FP eb mb, z.ex.val = 2 ^ eb - 1 → z ≠ zero eb mb true := by
    intro z hz heq
    rw [heq, zero_ex] at hz; omega
  unfold add
  by_cases h1 : (x.isNaN || y.isNaN) = true
  · rw [if_pos h1]; exact key _ (nan_ex heb)
  · rw [if_neg h1]
    by_cases h2 : x.isInf = true
    · rw [if_pos h2]
      split
      · exact key _ (nan_ex heb)
      · exact hx
    · rw [if_neg h2]
      by_cases h3 : y.isInf = true
      · rw [if_pos h3]; exact key _ ((isInf_iff y).1 h3).1
      · rw [if_neg h3]
        by_cases h4 : x.toInt + y.toInt = 0
        · rw [if_pos h4]
          intro heq
          have hs : (x.sign && y.sign) = true := by
            have := congrArg FP.sign heq
            exact this
          have hsx : x.sign = true := by
            cases hh : x.sign
            · rw [hh] at hs; exact Bool.noConfusion hs
            · rfl
          have hsy : y.sign = true := by
            cases hh : y.sign
            · rw [hh, Bool.and_false] at hs; exact Bool.noConfusion hs
            · rfl
          have hm : x.mag = 0 := by
            unfold toInt at h4
            rw [hsx, hsy] at h4
            simp only [if_true] at h4
            omega
          exact hx (eq_of_sign_mag _ _ hsx (by rw [hm, zero_mag]))
        · rw [if_neg h4]
          intro heq
          have hd : (1 : Nat) ≤ (x.toInt + y.toInt).natAbs := by omega
          have := @ofRatio_mag_ne_zero eb mb heb (decide (x.toInt + y.toInt < 0))
            (x.toInt + y.toInt).natAbs 1 (by decide) hd
          rw [heq, zero_mag] at this
          exact this rfl

/-- Adding `+0` returns the other operand, unless that is `-0` or a NaN with a payload. -/
theorem add_posZero (heb : 2 ≤ eb) (hcap : mb + 2 ^ eb ≤ 2 ^ 16) (x : FP eb mb)
    (hx : x ≠ zero eb mb true) (hn : x.isNaN = true → x = nan eb mb) :
    add x (zero eb mb false) = x := by
  have heb1 : 1 ≤ eb := by omega
  unfold add
  by_cases h1 : x.isNaN = true
  · rw [h1, Bool.true_or, if_pos rfl]; exact (hn h1).symm
  · have h1f : x.isNaN = false := by simpa using h1
    rw [h1f, zero_isNaN, Bool.or_false, if_neg (by decide)]
    by_cases h2 : x.isInf = true
    · rw [if_pos h2, zero_isInf heb1, Bool.false_and, if_neg (by decide)]
    · have h2f : x.isInf = false := by simpa using h2
      rw [if_neg h2, zero_isInf heb1, if_neg (by decide), zero_toInt, Int.add_zero]
      by_cases h4 : x.toInt = 0
      · rw [if_pos h4]
        have hm := (toInt_eq_zero_iff x).1 h4
        have hs : x.sign = false := by
          cases hh : x.sign
          · rfl
          · exact absurd (eq_of_sign_mag x (zero eb mb true) hh (by rw [hm, zero_mag])) hx
        rw [hs, Bool.false_and]
        exact (eq_of_sign_mag x _ hs (by rw [hm, zero_mag])).symm
      · rw [if_neg h4, toInt_natAbs, toInt_neg_iff x (fun h => h4 ((toInt_eq_zero_iff x).2 h))]
        exact ofRatio_mag heb hcap x (finite_of_not x h1f h2f)

end FP

/-! ## The summation loops -/

theorem addInto_eq (size : Nat) (result : List Float32) (vector : Vector) :
    addInto size result vector = (vector.Values.enumFrom 0).foldl (addStep size) result := rfl

theorem addStep_length (size : Nat) (res : List Float32) (p : Nat × Float32) :
    (addStep size res p).length = res.length := by
  unfold addStep
  split <;> simp

theorem foldl_addStep_length (size : Nat) (vals : List Float32) (k : Nat)
    (res : List Float32) :
    ((vals.enumFrom k).foldl (addStep size) res).length = res.length := by
  induction vals generalizing k res with
  | nil => rfl
  | cons v vs ih => simp [List.enumFrom, ih, addStep_length]

theorem addStep_getD (size : Nat) (res : List Float32) (k : Nat) (v : Float32) (i : Nat) :
    (addStep size res (k, v)).getD i zero32 =
      if i = k ∧ k < size ∧ k < res.length then FP.add (res.getD k zero32) v
      else res.getD i zero32 := by
  unfold addStep
  by_cases hk : k < size
  · simp only [hk, if_true, true_and]
    by_cases hik : i = k
    · subst hik
      by_cases hl : i < res.length
      · simp [hl, List.getD_eq_getElem?_getD, List.getElem?_set]
      · simp [hl, List.getD_eq_getElem?_getD, List.getElem?_set,
          List.getElem?_eq_none (Nat.le_of_not_lt hl)]
    · have : ¬ k = i := fun h => hik h.symm
      simp [hik, this, List.getD_eq_getElem?_getD, List.getElem?_set]
  · simp [hk]

theorem foldl_addStep_getD (size : Nat) (vals : List Float32) (k : Nat)
    (res : List Float32) (i : Nat) :
    ((vals.enumFrom k).foldl (addStep size) res).getD i zero32 =
      if k ≤ i ∧ i < k + vals.length ∧ i < size ∧ i < res.length then
        FP.add (res.getD i zero32) (vals.getD (i - k) zero32)
      else res.getD i zero32 := by
  induction vals generalizing k res with
  | nil =>
    simp only [List.enumFrom, List.foldl_nil, List.length_nil]
    rw [if_neg (by omega)]
  | cons v vs ih =>
    simp only [List.enumFrom, List.foldl_cons, List.length_cons]
    rw [ih, addStep_getD, addStep_length]
    by_cases hik : i = k
    · subst hik
      have h1 : ¬ (i + 1 ≤ i) := by omega
      simp [h1]
    · by_cases hlt : k + 1 ≤ i
      · have h2 : k ≤ i := by omega
        have h3 : i - k = (i - (k + 1)) + 1 := by omega
        have h4 : (i < k + 1 + vs.length) = (i < k + (vs.length + 1)) := by
          apply propext; constructor <;> intro h <;> omega
        simp only [hlt, h2, hik, false_and, if_false, true_and, h4]
        rw [h3, List.getD_cons_succ]
      · have h2 : ¬ k ≤ i := by omega
        simp [hlt, h2, hik]

theorem addInto_length (size : Nat) (result : List Float32) (vector : Vector) :
    (addInto size result vector).length = result.length := by
  rw [addInto_eq]; exact foldl_addStep_length size _ 0 result

theorem addInto_getD (size : Nat) (result : List Float32) (vector : Vector) (i : Nat)
    (hlen : result.length = size) (hi : i < size) :
    (addInto size result vector).getD i zero32 = colAcc i (result.getD i zero32) vector := by
  rw [addInto_eq, foldl_addStep_getD]
  unfold colAcc
  by_cases h : i < vector.Values.length
  · rw [if_pos ⟨Nat.zero_le _, by omega, hi, by omega⟩, if_pos h, Nat.sub_zero]
  · rw [if_neg (by omega), if_neg h]

theorem foldl_addInto_length (size : Nat) (vectors : List Vector) (result : List Float32) :
    (vectors.foldl (addInto size) result).length = result.length := by
  induction vectors generalizing result with
  | nil => rfl
  | cons v vs ih => rw [List.foldl_cons, ih, addInto_length]

theorem foldl_addInto_getD (size : Nat) (vectors : List Vector) (result : List Float32)
    (i : Nat) (hlen : result.length = size) (hi : i < size) :
    (vectors.foldl (addInto size) result).getD i zero32 =
      vectors.foldl (colAcc i) (result.getD i zero32) := by
  induction vectors generalizing result with
  | nil => rfl
  | cons v vs ih =>
    rw [List.foldl_cons, List.foldl_cons, ih _ (by rw [addInto_length, hlen]),
      addInto_getD size result v i hlen hi]

/-- The server loop tests `i < len(result)`, and the length of `result` never changes. -/
theorem foldl_serverStep_eq (vals : List (Nat × Float32)) (res : List Float32) :
    vals.foldl (fun res p =>
      if p.1 < res.length then res.set p.1 (FP.add (res.getD p.1 zero32) p.2) else res) res =
    vals.foldl (addStep res.length) res := by
  induction vals generalizing res with
  | nil => rfl
  | cons p ps ih =>
    rw [List.foldl_cons, List.foldl_cons, ih]
    have h1 : (if p.1 < res.length then res.set p.1 (FP.add (res.getD p.1 zero32) p.2)
        else res) = addStep res.length res p := rfl
    rw [h1, addStep_length]

theorem serverAddInto_eq (result : List Float32) (vector : Vector) :
    serverAddInto result vector = addInto result.length result vector := by
  unfold serverAddInto
  rw [addInto_eq]
  exact foldl_serverStep_eq _ result

theorem foldl_serverAddInto_eq (vectors : List Vector) (result : List Float32) :
    vectors.foldl serverAddInto result = vectors.foldl (addInto result.length) result := by
  induction vectors generalizing result with
  | nil => rfl
  | cons v vs ih =>
    rw [List.foldl_cons, List.foldl_cons, ih, serverAddInto_eq, addInto_length]

theorem foldl_addInto_nil (size : Nat) (vectors : List Vector) :
    vectors.foldl (addInto size) [] = [] := by
  have := foldl_addInto_length size vectors []
  exact List.length_eq_zero.1 this

theorem serverSum_eq (req : VectorRequest) :
    serverSum req = calculateCorrectSum req.Vectors := by
  unfold serverSum calculateCorrectSum
  cases hv : req.Vectors with
  | nil => rfl
  | cons first rest =>
    simp only
    rw [foldl_serverAddInto_eq, List.length_replicate]
    by_cases h0 : first.Values.length = 0
    · rw [if_pos h0, if_neg (by omega)]
      exact foldl_addInto_nil 0 _
    · rw [if_neg h0, if_pos (by omega)]

theorem tidy_zero32 : Tidy zero32 := by
  constructor
  · decide
  · intro h; exact absurd h (by decide)

theorem tidy_add (x y : Float32) (hx : Tidy x) : Tidy (FP.add x y) :=
  ⟨FP.add_ne_negzero (by decide) x y hx.1, FP.add_isNaN (by decide) x y⟩

theorem add_zero32 (x : Float32) (hx : Tidy x) : FP.add x zero32 = x :=
  FP.add_posZero (by decide) (by decide) x hx.1 hx.2

theorem colAcc_eq (i : Nat) (acc : Float32) (v : Vector) (hacc : Tidy acc) :
    colAcc i acc v = FP.add acc (v.Values.getD i zero32) := by
  unfold colAcc
  by_cases h : i < v.Values.length
  · rw [if_pos h]
  · rw [if_neg h, List.getD_eq_default _ _ (Nat.le_of_not_lt h), add_zero32 acc hacc]

theorem foldl_colAcc_eq (i : Nat) (vectors : List Vector) (acc : Float32) (hacc : Tidy acc) :
    vectors.foldl (colAcc i) acc =
      vectors.foldl (fun acc v => FP.add acc (v.Values.getD i zero32)) acc := by
  induction vectors generalizing acc with
  | nil => rfl
  | cons v vs ih =>
    rw [List.foldl_cons, List.foldl_cons, colAcc_eq i acc v hacc]
    exact ih _ (tidy_add _ _ hacc)

theorem calculateCorrectSum_cons (first : Vector) (rest : List Vector)
    (h : first.Values ≠ []) :
    calculateCorrectSum (first :: rest) =
      (first :: rest).foldl (addInto first.Values.length)
        (List.replicate first.Values.length zero32) := by
  unfold calculateCorrectSum
  simp only
  rw [if_neg (fun h0 => h (List.length_eq_zero.1 h0))]

theorem calculateCorrectSum_length (first : Vector) (rest : List Vector) :
    (calculateCorrectSum (first :: rest)).length = first.Values.length := by
  by_cases h : first.Values = []
  · unfold calculateCorrectSum
    simp [h]
  · rw [calculateCorrectSum_cons first rest h, foldl_addInto_length, List.length_replicate]

theorem calculateCorrectSum_getD (first : Vector) (rest : List Vector) (i : Nat)
    (hi : i < first.Values.length) :
    (calculateCorrectSum (first :: rest)).getD i zero32 =
      (first :: rest).foldl (colAcc i) zero32 := by
  have h : first.Values ≠ [] := by
    intro h0; rw [h0] at hi; exact Nat.not_lt_zero _ hi
  rw [calculateCorrectSum_cons first rest h,
    foldl_addInto_getD _ _ _ i (List.length_replicate _ _) hi]
  congr 1
  rw [List.getD_eq_getElem?_getD, List.getElem?_replicate, if_pos hi]
  rfl

/-! ## `SumVectors`: the three branches -/

theorem SumVectors_crash (s : VectorServer) (d : Draws) (req : VectorRequest)
    (h : FP.lt d.crash s.crashProb = true) :
    SumVectors s d req =
      ({ s with crashes := wrap32 (s.crashes + 1),
                reputation := FP.sub s.reputation (FP.ofNat 11 52 300) },
        Except.error (RpcError.unavailable s.nodeID)) := by
  unfold SumVectors; rw [if_pos h]

theorem SumVectors_incorrect (s : VectorServer) (d : Draws) (req : VectorRequest)
    (h1 : FP.lt d.crash s.crashProb = false) (h2 : FP.lt d.fail s.failProb = true) :
    SumVectors s d req =
      ({ s with incorrectSums := wrap32 (s.incorrectSums + 1),
                reputation :=
                  FP.sub s.reputation (FP.ofNat 11 52 (150 + Intn d.penalty 101)) },
        Except.ok { Result := { Values := perturb d (serverSum req) }, NodeId := s.nodeID }) := by
  unfold SumVectors; rw [if_neg (by rw [h1]; decide), if_pos h2]

theorem SumVectors_correct (s : VectorServer) (d : Draws) (req : VectorRequest)
    (h1 : FP.lt d.crash s.crashProb = false) (h2 : FP.lt d.fail s.failProb = false) :
    SumVectors s d req =
      ({ s with correctSums := wrap32 (s.correctSums + 1),
                reputation :=
                  FP.add s.reputation (FP.ofNat 11 52 (100 + Intn d.reward 81)) },
        Except.ok { Result := { Values := serverSum req }, NodeId := s.nodeID }) := by
  unfold SumVectors; rw [if_neg (by rw [h1]; decide), if_neg (by rw [h2]; decide)]

theorem wrap32_of_range (x : Int) (h1 : -2147483648 ≤ x) (h2 : x < 2147483648) :
    wrap32 x = x := by
  unfold wrap32; omega

theorem wrap32_wrap32_add (a b : Int) : wrap32 (wrap32 a + b) = wrap32 (a + b) := by
  unfold wrap32; omega

theorem Intn_lt (raw n : Nat) (h : 0 < n) : Intn raw n < n := Nat.mod_lt _ h

/-- C9: the aggregate `SumVectors` computes before any perturbation is
`calculateCorrectSum` of the batch (same length, same values, same policy for short
vectors), and on the correct branch (neither draw below its probability, `correctSums`
incremented) this aggregate is returned unperturbed, tagged with the node's id. -/
theorem C9_server_aggregate_is_reference (s : VectorServer) (d : Draws) (req : VectorRequest) :
    serverSum req = calculateCorrectSum req.Vectors ∧
    (FP.lt d.crash s.crashProb = false → FP.lt d.fail s.failProb = false →
      (SumVectors s d req).1.correctSums = wrap32 (s.correctSums + 1) ∧
      (SumVectors s d req).2 =
        Except.ok { Result := { Values := calculateCorrectSum req.Vectors },
                    NodeId := s.nodeID }) := by
  refine ⟨serverSum_eq req, fun h1 h2 => ?_⟩
  rw [SumVectors_correct s d req h1 h2, serverSum_eq]
  exact ⟨rfl, rfl⟩

/-- C9, at node 7 with both probabilities `0` and the batch `[1,2,3]`, `[4,5,6]`. -/
theorem C9_server_aggregate_is_reference_witness :
    (SumVectors (NewVectorServer 7 (FP.ofNat 11 52 0) (FP.ofNat 11 52 0) (FP.ofNat 11 52 1000))
        zeroDraws { Vectors := [natVector [1, 2, 3], natVector [4, 5, 6]] }).2 =
      Except.ok
        { Result := { Values := calculateCorrectSum [natVector [1, 2, 3], natVector [4, 5, 6]] },
          NodeId := 7 } :=
  ((C9_server_aggregate_is_reference
      (NewVectorServer 7 (FP.ofNat 11 52 0) (FP.ofNat 11 52 0) (FP.ofNat 11 52 1000))
      zeroDraws { Vectors := [natVector [1, 2, 3], natVector [4, 5, 6]] }).2
    (by decide) (by decide)).2

/-! ## Sequences of invocations -/

theorem runTasks_cons (s : VectorServer) (t : Draws × VectorRequest)
    (rest : List (Draws × VectorRequest)) :
    runTasks s (t :: rest) =
      ((runTasks (SumVectors s t.1 t.2).1 rest).1,
        (SumVectors s t.1 t.2).2 :: (runTasks (SumVectors s t.1 t.2).1 rest).2) := rfl

/-- The counters after one invocation, with `int32` wrap-around: exactly one was
incremented. -/
theorem SumVectors_counters (s : VectorServer) (d : Draws) (req : VectorRequest) :
    ((SumVectors s d req).1.correctSums = wrap32 (s.correctSums + 1) ∧
      (SumVectors s d req).1.incorrectSums = s.incorrectSums ∧
      (SumVectors s d req).1.crashes = s.crashes) ∨
    ((SumVectors s d req).1.correctSums = s.correctSums ∧
      (SumVectors s d req).1.incorrectSums = wrap32 (s.incorrectSums + 1) ∧
      (SumVectors s d req).1.crashes = s.crashes) ∨
    ((SumVectors s d req).1.correctSums = s.correctSums ∧
      (SumVectors s d req).1.incorrectSums = s.incorrectSums ∧
      (SumVectors s d req).1.crashes = wrap32 (s.crashes + 1)) := by
  cases h1 : FP.lt d.crash s.crashProb
  · cases h2 : FP.lt d.fail s.failProb
    · rw [SumVectors_correct s d req h1 h2]; exact Or.inl ⟨rfl, rfl, rfl⟩
    · rw [SumVectors_incorrect s d req h1 h2]; exact Or.inr (Or.inl ⟨rfl, rfl, rfl⟩)
  · rw [SumVectors_crash s d req h1]; exact Or.inr (Or.inr ⟨rfl, rfl, rfl⟩)

theorem SumVectors_oneIncrement (s : VectorServer) (d : Draws) (req : VectorRequest) (k : Nat)
    (hinv : CountInv s k) (hk : k + 1 < 2147483648) :
    OneIncrement s (SumVectors s d req).1 := by
  obtain ⟨h1, h2, h3, h4⟩ := hinv
  unfold counterSum at h4
  rcases SumVectors_counters s d req with ⟨a, b, c⟩ | ⟨a, b, c⟩ | ⟨a, b, c⟩
  · rw [wrap32_of_range _ (by omega) (by omega)] at a; exact Or.inl ⟨a, b, c⟩
  · rw [wrap32_of_range _ (by omega) (by omega)] at b; exact Or.inr (Or.inl ⟨a, b, c⟩)
  · rw [wrap32_of_range _ (by omega) (by omega)] at c; exact Or.inr (Or.inr ⟨a, b, c⟩)

theorem CountInv_step (s s2 : VectorServer) (k : Nat) (hinv : CountInv s k)
    (h : OneIncrement s s2) : CountInv s2 (k + 1) := by
  obtain ⟨h1, h2, h3, h4⟩ := hinv
  unfold counterSum at h4
  unfold CountInv counterSum
  rcases h with ⟨a, b, c⟩ | ⟨a, b, c⟩ | ⟨a, b, c⟩ <;> rw [a, b, c] <;>
    refine ⟨by omega, by omega, by omega, ?_⟩ <;> push_cast <;> omega

theorem runTasks_CountInv (tasks : List (Draws × VectorRequest)) (s : VectorServer) (k : Nat)
    (hinv : CountInv s k) (hk : k + tasks.length < 2147483648) :
    CountInv (runTasks s tasks).1 (k + tasks.length) := by
  induction tasks generalizing s k with
  | nil => exact hinv
  | cons t ts ih =>
    rw [runTasks_cons, List.length_cons] at *
    have h1 := SumVectors_oneIncrement s t.1 t.2 k hinv (by omega)
    have h2 := CountInv_step s _ k hinv h1
    have h3 := ih (SumVectors s t.1 t.2).1 (k + 1) h2 (by omega)
    have e : k + 1 + ts.length = k + (ts.length + 1) := by omega
    rw [e] at h3
    exact h3

theorem CountInv_new (nodeID : Int) (failProb crashProb initialRep : Float64) :
    CountInv (NewVectorServer nodeID failProb crashProb initialRep) 0 :=
  ⟨le_refl _, le_refl _, le_refl _, rfl⟩

/-- A run of invocations that all crash: only `crashes` moves, by the length of the run
modulo `2 ^ 32`, and every outcome is the error. -/
theorem runTasks_all_crash (tasks : List (Draws × VectorRequest)) (s : VectorServer)
    (hr : wrap32 s.crashes = s.crashes)
    (h : ∀ t ∈ tasks, FP.lt t.1.crash s.crashProb = true) :
    (runTasks s tasks).1.correctSums = s.correctSums ∧
    (runTasks s tasks).1.incorrectSums = s.incorrectSums ∧
    (runTasks s tasks).1.crashes = wrap32 (s.crashes + tasks.length) ∧
    (∀ o ∈ (runTasks s tasks).2, o = Except.error (RpcError.unavailable s.nodeID)) := by
  induction tasks generalizing s with
  | nil =>
    refine ⟨rfl, rfl, ?_, ?_⟩
    · show s.crashes = wrap32 (s.crashes + ((0 : Nat) : Int))
      rw [Int.natCast_zero, Int.add_zero, hr]
    · intro o ho; exact absurd ho (List.not_mem_nil _)
  | cons t ts ih =>
    have ht := h t (List.mem_cons_self _ _)
    rw [runTasks_cons, SumVectors_crash s t.1 t.2 ht]
    have hih := ih { s with crashes := wrap32 (s.crashes + 1),
                            reputation := FP.sub s.reputation (FP.ofNat 11 52 300) }
      (by show wrap32 (wrap32 (s.crashes + 1)) = wrap32 (s.crashes + 1)
          unfold wrap32; omega)
      (fun u hu => h u (List.mem_cons_of_mem _ hu))
    obtain ⟨a, b, c, e⟩ := hih
    refine ⟨a, b, ?_, ?_⟩
    · rw [c]
      show wrap32 (wrap32 (s.crashes + 1) + (ts.length : Int)) =
        wrap32 (s.crashes + ((ts.length + 1 : Nat) : Int))
      rw [wrap32_wrap32_add]; push_cast; congr 1; omega
    · intro o ho
      rcases List.mem_cons.1 ho with h1 | h1
      · exact h1
      · exact e o h1

/-- Without a bound on the length of the run, the counters add up to the number of
invocations modulo `2 ^ 32`. -/
theorem runTasks_counterSum_wrap (tasks : List (Draws × VectorRequest)) (s : VectorServer) :
    wrap32 (counterSum (runTasks s tasks).1) = wrap32 (counterSum s + tasks.length) := by
  induction tasks generalizing s with
  | nil =>
    show wrap32 (counterSum s) = wrap32 (counterSum s + ((0 : Nat) : Int))
    rw [Int.natCast_zero, Int.add_zero]
  | cons t ts ih =>
    rw [runTasks_cons]
    show wrap32 (counterSum (runTasks (SumVectors s t.1 t.2).1 ts).1) = _
    rw [ih, List.length_cons]
    have h : wrap32 (counterSum (SumVectors s t.1 t.2).1) = wrap32 (counterSum s + 1) := by
      unfold counterSum
      rcases SumVectors_counters s t.1 t.2 with ⟨a, b, c⟩ | ⟨a, b, c⟩ | ⟨a, b, c⟩ <;>
        rw [a, b, c] <;> unfold wrap32 <;> omega
    rw [← wrap32_wrap32_add, h, wrap32_wrap32_add]
    push_cast
    congr 1
    omega

/-- C4 (amended): on a node created by `NewVectorServer`, after any sequence of `T`
invocations with `T < 2 ^ 31` the counters add up to `T`, and each invocation of the
sequence incremented exactly one of the three counters by one and left the other two
unchanged.  (The counters are `int32`: without the bound the sum equals `T` only modulo
`2 ^ 32`.) -/
theorem C4_counter_invariant_amended (nodeID : Int) (failProb crashProb initialRep : Float64)
    (tasks : List (Draws × VectorRequest)) (hT : tasks.length < 2147483648) :
    counterSum (runTasks (NewVectorServer nodeID failProb crashProb initialRep) tasks).1 =
      tasks.length ∧
    (∀ pre t post, tasks = pre ++ t :: post →
      OneIncrement (runTasks (NewVectorServer nodeID failProb crashProb initialRep) pre).1
        (SumVectors (runTasks (NewVectorServer nodeID failProb crashProb initialRep) pre).1
          t.1 t.2).1) := by
  constructor
  · have := runTasks_CountInv tasks _ 0 (CountInv_new nodeID failProb crashProb initialRep)
      (by omega)
    rw [Nat.zero_add] at this
    exact this.2.2.2
  · intro pre t post h
    have hlen : pre.length + 1 ≤ tasks.length := by
      rw [h, List.length_append, List.length_cons]; omega
    have := runTasks_CountInv pre _ 0 (CountInv_new nodeID failProb crashProb initialRep)
      (by omega)
    rw [Nat.zero_add] at this
    exact SumVectors_oneIncrement _ t.1 t.2 pre.length this (by omega)

/-- C4 (amended), at a run of two invocations on the node that always crashes. -/
theorem C4_counter_invariant_amended_witness :
    counterSum (runTasks (NewVectorServer 1 (FP.ofNat 11 52 0) one64 (FP.ofNat 11 52 1000))
      [(zeroDraws, { Vectors := [] }), (zeroDraws, { Vectors := [] })]).1 = (2 : Nat) :=
  (C4_counter_invariant_amended 1 (FP.ofNat 11 52 0) one64 (FP.ofNat 11 52 1000)
    [(zeroDraws, { Vectors := [] }), (zeroDraws, { Vectors := [] })] (by decide)).1

/-- C4 fails as stated: after `2 ^ 31` invocations that all crash, the `int32` counter
`crashes` has wrapped to `-2 ^ 31`, and the three counters add up to `-2 ^ 31`. -/
theorem C4_counterexample :
    counterSum (runTasks crashingNode
      (List.replicate 2147483648 (zeroDraws, { Vectors := [] }))).1 = -2147483648 ∧
    counterSum (runTasks crashingNode
      (List.replicate 2147483648 (zeroDraws, { Vectors := [] }))).1 ≠
        ((List.replicate 2147483648 (zeroDraws, ({ Vectors := [] } : VectorRequest))).length
          : Int) := by
  have h := runTasks_all_crash (List.replicate 2147483648 (zeroDraws, { Vectors := [] }))
    crashingNode (by decide)
    (fun t ht => by rw [List.eq_of_mem_replicate ht]; decide)
  obtain ⟨a, b, c, _⟩ := h
  have hs : counterSum (runTasks crashingNode
      (List.replicate 2147483648 (zeroDraws, { Vectors := [] }))).1 = -2147483648 := by
    unfold counterSum
    rw [a, b, c, List.length_replicate]
    decide
  refine ⟨hs, ?_⟩
  rw [hs, List.length_replicate]
  decide

/-- C6: `SumVectors` signals "unavailable" (an error, no response) exactly when the first
draw is below `crashProb`, and then it increments `crashes` only; hence a node with
`crashProb = 1.0` answers every task whose first draw lies in `[0, 1)` with the error and
never moves `correctSums` or `incorrectSums`, over any sequence of tasks. -/
theorem C6_crash_draw (s : VectorServer) (d : Draws) (req : VectorRequest) :
    ((SumVectors s d req).2 = Except.error (RpcError.unavailable s.nodeID) ↔
      FP.lt d.crash s.crashProb = true) ∧
    ((∃ resp, (SumVectors s d req).2 = Except.ok resp) ↔ FP.lt d.crash s.crashProb = false) ∧
    (FP.lt d.crash s.crashProb = true →
      (SumVectors s d req).1.crashes = wrap32 (s.crashes + 1) ∧
      (SumVectors s d req).1.correctSums = s.correctSums ∧
      (SumVectors s d req).1.incorrectSums = s.incorrectSums) ∧
    (s.crashProb = one64 → InUnit d.crash →
      (SumVectors s d req).2 = Except.error (RpcError.unavailable s.nodeID) ∧
      (SumVectors s d req).1.correctSums = s.correctSums ∧
      (SumVectors s d req).1.incorrectSums = s.incorrectSums) ∧
    (∀ tasks : List (Draws × VectorRequest), s.crashProb = one64 →
      (∀ t ∈ tasks, InUnit t.1.crash) → wrap32 s.crashes = s.crashes →
      (∀ o ∈ (runTasks s tasks).2, o = Except.error (RpcError.unavailable s.nodeID)) ∧
      (runTasks s tasks).1.correctSums = s.correctSums ∧
      (runTasks s tasks).1.incorrectSums = s.incorrectSums ∧
      (runTasks s tasks).1.crashes = wrap32 (s.crashes + tasks.length)) := by
  have hcrash : FP.lt d.crash s.crashProb = true →
      (SumVectors s d req).2 = Except.error (RpcError.unavailable s.nodeID) ∧
      (SumVectors s d req).1.crashes = wrap32 (s.crashes + 1) ∧
      (SumVectors s d req).1.correctSums = s.correctSums ∧
      (SumVectors s d req).1.incorrectSums = s.incorrectSums := by
    intro h; rw [SumVectors_crash s d req h]; exact ⟨rfl, rfl, rfl, rfl⟩
  have hok : FP.lt d.crash s.crashProb = false →
      ∃ resp, (SumVectors s d req).2 = Except.ok resp := by
    intro h1
    cases h2 : FP.lt d.fail s.failProb
    · rw [SumVectors_correct s d req h1 h2]; exact ⟨_, rfl⟩
    · rw [SumVectors_incorrect s d req h1 h2]; exact ⟨_, rfl⟩
  refine ⟨⟨fun h => ?_, fun h => (hcrash h).1⟩, ⟨fun h => ?_, hok⟩,
    fun h => (hcrash h).2, fun h1 h2 => ?_, fun tasks h1 h2 h3 => ?_⟩
  · cases hc : FP.lt d.crash s.crashProb
    · obtain ⟨resp, hr⟩ := hok hc
      rw [hr] at h; exact Except.noConfusion h
    · rfl
  · cases hc : FP.lt d.crash s.crashProb
    · rfl
    · obtain ⟨resp, hr⟩ := h
      rw [(hcrash hc).1] at hr; exact Except.noConfusion hr
  · have hc : FP.lt d.crash s.crashProb = true := by rw [h1]; exact h2.2
    exact ⟨(hcrash hc).1, (hcrash hc).2.2⟩
  · have h := runTasks_all_crash tasks s h3 (fun t ht => by rw [h1]; exact (h2 t ht).2)
    exact ⟨h.2.2.2, h.1, h.2.1, h.2.2.1⟩

/-- C6, at a fresh node with `crashProb = 1.0` and first draw `0`. -/
theorem C6_crash_draw_witness :
    (SumVectors crashingNode zeroDraws { Vectors := [] }).2 =
        Except.error (RpcError.unavailable 1) ∧
    (SumVectors crashingNode zeroDraws { Vectors := [] }).1.correctSums = 0 ∧
    (SumVectors crashingNode zeroDraws { Vectors := [] }).1.incorrectSums = 0 :=
  (C6_crash_draw crashingNode zeroDraws { Vectors := [] }).2.2.2.1 rfl
    ⟨by decide, by decide⟩

/-! ## `compareVectors` -/

theorem compareLoop_eq_true (v1 v2 : List Float32) (is : List Nat) :
    compareLoop v1 v2 is = true ↔
      ∀ i ∈ is, FP.lt tolerance (absDiff (v1.getD i zero32) (v2.getD i zero32)) = false := by
  induction is with
  | nil => simp [compareLoop]
  | cons i rest ih =>
    unfold compareLoop
    cases h : FP.lt tolerance (absDiff (v1.getD i zero32) (v2.getD i zero32))
    · rw [if_neg (by decide), ih]
      constructor
      · intro h1 j hj
        rcases List.mem_cons.1 hj with e | e
        · rw [e]; exact h
        · exact h1 j e
      · intro h1 j hj
        exact h1 j (List.mem_cons_of_mem _ hj)
    · rw [if_pos rfl]
      constructor
      · intro h1; exact Bool.noConfusion h1
      · intro h1
        have := h1 i (List.mem_cons_self _ _)
        rw [h] at this; exact Bool.noConfusion this

theorem compareVectors_eq_true (v1 v2 : List Float32) :
    compareVectors v1 v2 = true ↔
      v1.length = v2.length ∧
      ∀ i, i < v1.length →
        FP.lt tolerance (absDiff (v1.getD i zero32) (v2.getD i zero32)) = false := by
  unfold compareVectors
  by_cases h : v1.length = v2.length
  · rw [if_neg (fun hne => hne h), compareLoop_eq_true]
    constructor
    · intro h1
      exact ⟨h, fun i hi => h1 i (List.mem_range.2 hi)⟩
    · intro h1 i hi
      exact h1.2 i (List.mem_range.1 hi)
  · rw [if_pos h]
    constructor
    · intro h1; exact Bool.noConfusion h1
    · intro h1; exact absurd h1.1 h

namespace FP

variable {eb mb : Nat}

theorem roundNE_snd (mb n d : Nat) : (roundNE mb n d).2 = ilog2 (n / d) - mb := rfl

theorem roundNE_fst (mb n d : Nat) :
    (roundNE mb n d).1 =
      if d * 2 ^ (ilog2 (n / d) - mb) < 2 * (n % (d * 2 ^ (ilog2 (n / d) - mb))) ∨
          (2 * (n % (d * 2 ^ (ilog2 (n / d) - mb))) = d * 2 ^ (ilog2 (n / d) - mb) ∧
            n / (d * 2 ^ (ilog2 (n / d) - mb)) % 2 = 1)
      then n / (d * 2 ^ (ilog2 (n / d) - mb)) + 1
      else n / (d * 2 ^ (ilog2 (n / d) - mb)) := by
  unfold roundNE
  simp only [Nat.shiftLeft_eq]

theorem round_step_le (q B D r n : Nat) (hD : 0 < D) (hnD : n ≤ B * D) (hq : q ≤ B)
    (hdm : D * q + r = n) :
    (if D < 2 * r ∨ (2 * r = D ∧ q % 2 = 1) then q + 1 else q) ≤ B := by
  by_cases hlt : q < B
  · split <;> omega
  · have hqB : q = B := by omega
    have hr : r = 0 := by
      subst hqB
      have : D * q = q * D := Nat.mul_comm _ _
      omega
    rw [if_neg (by omega)]
    exact hq

theorem pow_split (S s c B : Nat) (hs : s ≤ S) (hc : B = 2 ^ S * c) :
    B = 2 ^ (S - s) * c * 2 ^ s := by
  rw [hc]
  have : 2 ^ S = 2 ^ (S - s) * 2 ^ s := by rw [← pow_add]; congr 1; omega
  rw [this]; ring

theorem roundNE_shift_le (mb n d B S : Nat) (hn : n ≤ B * d) (hB : B < 2 ^ (mb + 1 + S)) :
    ilog2 (n / d) - mb ≤ S := by
  have hm : n / d ≤ B := Nat.div_le_of_le_mul (by rw [Nat.mul_comm]; exact hn)
  by_contra hc
  have h0 : n / d ≠ 0 := by
    intro h0; rw [h0, ilog2_zero] at hc; omega
  have h1 := ilog2_le h0
  have h2 : 2 ^ (mb + 1 + S) ≤ 2 ^ ilog2 (n / d) :=
    Nat.pow_le_pow_right (by decide) (by omega)
  omega

/-- Rounding never exceeds a representable bound: if `n / d ≤ B` and `B` is a multiple of
`2 ^ S` below `2 ^ (mb + 1 + S)`, the rounded significand and shift satisfy
`q * 2 ^ s ≤ B` with `s ≤ S`. -/
theorem roundNE_le (mb n d B S : Nat) (hd : 0 < d) (hn : n ≤ B * d) (hdiv : 2 ^ S ∣ B)
    (hB : B < 2 ^ (mb + 1 + S)) :
    (roundNE mb n d).1 * 2 ^ (roundNE mb n d).2 ≤ B ∧ (roundNE mb n d).2 ≤ S := by
  have hs := roundNE_shift_le mb n d B S hn hB
  refine ⟨?_, hs⟩
  rw [roundNE_fst, roundNE_snd]
  obtain ⟨c, hc⟩ := hdiv
  have hBs := pow_split S _ c B hs hc
  have hD : 0 < d * 2 ^ (ilog2 (n / d) - mb) := Nat.mul_pos hd (Nat.two_pow_pos _)
  have hnD : n ≤ 2 ^ (S - (ilog2 (n / d) - mb)) * c * (d * 2 ^ (ilog2 (n / d) - mb)) := by
    calc n ≤ B * d := hn
      _ = 2 ^ (S - (ilog2 (n / d) - mb)) * c * 2 ^ (ilog2 (n / d) - mb) * d := by rw [← hBs]
      _ = _ := by ring
  have hq : n / (d * 2 ^ (ilog2 (n / d) - mb)) ≤ 2 ^ (S - (ilog2 (n / d) - mb)) * c :=
    Nat.div_le_of_le_mul (by rw [Nat.mul_comm]; exact hnD)
  have hdm := Nat.div_add_mod n (d * 2 ^ (ilog2 (n / d) - mb))
  have key := round_step_le _ _ _ _ n hD hnD hq hdm
  calc _ ≤ 2 ^ (S - (ilog2 (n / d) - mb)) * c * 2 ^ (ilog2 (n / d) - mb) :=
        Nat.mul_le_mul_right _ key
    _ = B := hBs.symm

theorem roundNE_snd_pos (mb n d : Nat) (hd : 0 < d) (h : 0 < (roundNE mb n d).2) :
    2 ^ mb ≤ (roundNE mb n d).1 := by
  have hs : 0 < ilog2 (n / d) - mb := h
  have h0 : n / d ≠ 0 := by
    intro h0; rw [h0, ilog2_zero] at hs; omega
  have h1 := ilog2_le h0
  have h2 : ilog2 (n / d) = mb + (ilog2 (n / d) - mb) := by omega
  have h3 : d * 2 ^ (ilog2 (n / d) - mb) * 2 ^ mb ≤ n := by
    calc d * 2 ^ (ilog2 (n / d) - mb) * 2 ^ mb = d * 2 ^ ilog2 (n / d) := by
          rw [Nat.mul_assoc, ← pow_add, Nat.add_comm, ← h2]
      _ ≤ d * (n / d) := Nat.mul_le_mul_left d h1
      _ ≤ n := Nat.mul_div_le n d
  have h4 : 2 ^ mb ≤ n / (d * 2 ^ (ilog2 (n / d) - mb)) :=
    (Nat.le_div_iff_mul_le (Nat.mul_pos hd (Nat.two_pow_pos _))).2
      (by rw [Nat.mul_comm]; exact h3)
  unfold roundNE
  simp only [Nat.shiftLeft_eq]
  split <;> omega

/-- A rounded result does not exceed a representable bound on the exact value, and is
finite when the bound is. -/
theorem ofRatio_mag_le (sign : Bool) (n d B S : Nat) (hd : 0 < d)
    (hn : n ≤ B * d) (hdiv : 2 ^ S ∣ B) (hB : B < 2 ^ (mb + 1 + S))
    (hS : S + 2 < 2 ^ eb - 1) :
    (ofRatio eb mb sign n d).mag ≤ B ∧ (ofRatio eb mb sign n d).ex.val < 2 ^ eb - 1 ∧
      (ofRatio eb mb sign n d).sign = sign := by
  obtain ⟨h1, h2⟩ := roundNE_le mb n d B S hd hn hdiv hB
  have h3 := roundNE_snd_pos mb n d hd
  unfold ofRatio
  simp only
  generalize (roundNE mb n d).1 = q at *
  generalize (roundNE mb n d).2 = s at *
  by_cases hq : q < 2 ^ mb
  · rw [if_pos hq]
    have hs0 : s = 0 := by
      by_contra hc
      have := h3 (Nat.pos_of_ne_zero hc); omega
    rw [hs0, pow_zero, Nat.mul_one] at h1
    refine ⟨?_, ?_, rfl⟩
    · unfold mag
      rw [pack_ex _ _ _ (by omega), if_pos rfl, pack_man _ _ _ hq]; exact h1
    · rw [pack_ex _ _ _ (by omega)]; omega
  · rw [if_neg hq]
    by_cases hq2 : q < 2 ^ (mb + 1)
    · simp only [if_pos hq2]
      rw [if_pos (by omega)]
      have hm : q - 2 ^ mb < 2 ^ mb := by rw [pow_succ] at hq2; omega
      refine ⟨?_, ?_, rfl⟩
      · unfold mag
        rw [pack_ex _ _ _ (by omega), if_neg (by omega), pack_man _ _ _ hm,
          Nat.shiftLeft_eq, Nat.add_sub_cancel]
        have : 2 ^ mb + (q - 2 ^ mb) = q := by omega
        rw [this]; exact h1
      · rw [pack_ex _ _ _ (by omega)]; omega
    · simp only [if_neg hq2]
      rw [if_pos (by omega)]
      refine ⟨?_, ?_, rfl⟩
      · unfold mag
        rw [pack_ex _ _ _ (by omega), if_neg (by omega), pack_man _ _ _ (Nat.two_pow_pos mb),
          Nat.shiftLeft_eq, Nat.add_zero]
        have e : s + 2 - 1 = s + 1 := by omega
        rw [e]
        calc 2 ^ mb * 2 ^ (s + 1) = 2 ^ (mb + 1) * 2 ^ s := by
              rw [pow_succ, pow_succ]; ring
          _ ≤ q * 2 ^ s := Nat.mul_le_mul_right _ (Nat.le_of_not_lt hq2)
          _ ≤ B := h1
      · rw [pack_ex _ _ _ (by omega)]; omega

theorem neg_mag (x : FP eb mb) : (neg x).mag = x.mag := rfl

theorem neg_isNaN (x : FP eb mb) : (neg x).isNaN = x.isNaN := rfl

theorem neg_isInf (x : FP eb mb) : (neg x).isInf = x.isInf := rfl

theorem neg_toInt (x : FP eb mb) : (neg x).toInt = -x.toInt := by
  unfold toInt
  rw [neg_mag]
  show (if (!x.sign) = true then _ else _) = _
  cases x.sign <;> simp

/-- The difference `x - x` is `+0`, or NaN when `x` is infinite or NaN. -/
theorem sub_self_cases (x : FP eb mb) :
    sub x x = nan eb mb ∨ sub x x = zero eb mb false := by
  unfold sub add
  rw [neg_isNaN, neg_isInf, neg_toInt]
  by_cases h1 : (x.isNaN || x.isNaN) = true
  · rw [if_pos h1]; exact Or.inl rfl
  · rw [if_neg h1]
    by_cases h2 : x.isInf = true
    · rw [if_pos h2]
      have : (x.isInf && x.sign != (neg x).sign) = true := by
        rw [h2]; show (true && x.sign != !x.sign) = true
        cases x.sign <;> rfl
      rw [if_pos this]; exact Or.inl rfl
    · rw [if_neg h2, if_neg h2, if_pos (by omega)]
      right
      show zero eb mb (x.sign && !x.sign) = _
      cases x.sign <;> rfl

end FP

namespace FP

variable {eb mb : Nat}

theorem toInt_of_pos (x : FP eb mb) (h : x.sign = false) : x.toInt = x.mag := by
  unfold toInt; rw [h]; rfl

theorem toInt_of_neg (x : FP eb mb) (h : x.sign = true) : x.toInt = -(x.mag : Int) := by
  unfold toInt; rw [h]; rfl

theorem toInt_bounds (x : FP eb mb) : -(x.mag : Int) ≤ x.toInt ∧ x.toInt ≤ x.mag := by
  unfold toInt; split <;> omega

theorem isInf_false_of_finite (x : FP eb mb) (h : x.ex.val < 2 ^ eb - 1) : x.isInf = false := by
  rw [Bool.eq_false_iff, Ne, isInf_iff]
  intro hh; omega

theorem isNaN_false_of_finite (x : FP eb mb) (h : x.ex.val < 2 ^ eb - 1) : x.isNaN = false := by
  rw [Bool.eq_false_iff, Ne, isNaN_iff]
  intro hh; omega

end FP

/-! ## The perturbation of the incorrect branch -/

theorem mag_lt_of_unit (x : Float32) (h : InUnit32 x) :
    x.isNaN = false ∧ x.isInf = false ∧ x.mag < 2 ^ 149 ∧ (x.sign = true → x.mag = 0) := by
  obtain ⟨h1, h2⟩ := h
  unfold FP.lt at h2
  unfold FP.le at h1
  have hn : x.isNaN = false := by
    cases hx : x.isNaN
    · rfl
    · rw [hx] at h2; simp at h2
  have e0 : (FP.ofNat 8 23 0).toInt = 0 := by
    rw [FP.toInt_of_pos _ (by decide)]
    have : (FP.ofNat 8 23 0).mag = 0 := by decide
    rw [this]; rfl
  have e1 : (FP.ofNat 8 23 1).toInt = ((2 ^ 149 : Nat) : Int) := by
    rw [FP.toInt_of_pos _ (by decide)]
    have : (FP.ofNat 8 23 1).mag = 2 ^ 149 := by decide
    rw [this]
  have n0 : (FP.ofNat 8 23 0).isNaN = false := by decide
  have n1 : (FP.ofNat 8 23 1).isNaN = false := by decide
  rw [hn, n0, e0] at h1
  rw [hn, n1, e1] at h2
  simp only [Bool.not_false, Bool.true_and, decide_eq_true_eq] at h1 h2
  have hm : x.mag < 2 ^ 149 ∧ (x.sign = true → x.mag = 0) := by
    cases hs : x.sign
    · rw [FP.toInt_of_pos x hs] at h2
      exact ⟨by exact_mod_cast h2, fun h => Bool.noConfusion h⟩
    · rw [FP.toInt_of_neg x hs] at h1
      have h0 : x.mag = 0 := by omega
      refine ⟨?_, fun _ => h0⟩
      rw [h0]; exact Nat.two_pow_pos _
  refine ⟨hn, ?_, hm.1, hm.2⟩
  rw [Bool.eq_false_iff, Ne, FP.isInf_iff]
  intro hi
  have hex : x.ex.val ≠ 0 := by rw [hi.1]; decide
  have := FP.mag_lower x hex
  rw [hi.1] at this
  have h3 : (2 : Nat) ^ 149 ≤ 2 ^ (23 + (2 ^ 8 - 1 - 1)) :=
    Nat.pow_le_pow_right (by decide) (by decide)
  omega

/-- The product `rand.Float32() * 10` lies in `[0, 10]`. -/
theorem mul_ten_bounds (x : Float32) (h : InUnit32 x) :
    (FP.mul x (FP.ofNat 8 23 10)).isNaN = false ∧
    (FP.mul x (FP.ofNat 8 23 10)).isInf = false ∧
    0 ≤ (FP.mul x (FP.ofNat 8 23 10)).toInt ∧
    (FP.mul x (FP.ofNat 8 23 10)).toInt ≤ ((10 * 2 ^ 149 : Nat) : Int) := by
  obtain ⟨hn, hi, hm, hs⟩ := mag_lt_of_unit x h
  have t1 : (FP.ofNat 8 23 10).isNaN = false := by decide
  have t2 : (FP.ofNat 8 23 10).isInf = false := by decide
  have t3 : (FP.ofNat 8 23 10).mag = 10 * 2 ^ 149 := by decide
  have t4 : (FP.ofNat 8 23 10).sign = false := by decide
  have t5 : 1 <<< FP.unitExp 8 23 = 2 ^ 149 := by decide
  have e : FP.mul x (FP.ofNat 8 23 10) =
      FP.ofRatio 8 23 x.sign (x.mag * (10 * 2 ^ 149)) (2 ^ 149) := by
    unfold FP.mul
    rw [hn, hi, t1, t2, t3, t4, t5]
    simp
  rw [e]
  cases hsx : x.sign
  · have hb := @FP.ofRatio_mag_le 8 23 false (x.mag * (10 * 2 ^ 149))
      (2 ^ 149) (10 * 2 ^ 149) 129 (by decide)
      (by rw [Nat.mul_comm]; exact Nat.mul_le_mul_left _ (Nat.le_of_lt hm))
      (by decide) (by decide) (by decide)
    refine ⟨FP.ofRatio_not_nan (by decide) _ _ _, FP.isInf_false_of_finite _ hb.2.1, ?_, ?_⟩
    · rw [FP.toInt_of_pos _ hb.2.2]; exact Int.natCast_nonneg _
    · rw [FP.toInt_of_pos _ hb.2.2]; exact_mod_cast hb.1
  · have hz := hs hsx
    have hb := @FP.ofRatio_mag_le 8 23 true (x.mag * (10 * 2 ^ 149))
      (2 ^ 149) 0 0 (by decide) (by rw [hz]; simp) (by decide) (by decide) (by decide)
    have hm0 : (FP.ofRatio 8 23 true (x.mag * (10 * 2 ^ 149)) (2 ^ 149)).mag = 0 := by
      have := hb.1; omega
    have ht : (FP.ofRatio 8 23 true (x.mag * (10 * 2 ^ 149)) (2 ^ 149)).toInt = 0 :=
      (FP.toInt_eq_zero_iff _).2 hm0
    refine ⟨FP.ofRatio_not_nan (by decide) _ _ _, FP.isInf_false_of_finite _ hb.2.1, ?_, ?_⟩
    · rw [ht]
    · rw [ht]; exact Int.natCast_nonneg _

theorem round_five_bounds (sign : Bool) (n : Nat) (hn : n ≤ 5 * 2 ^ 149) :
    (FP.ofRatio 8 23 sign n 1).isNaN = false ∧
    -((5 * 2 ^ 149 : Nat) : Int) ≤ (FP.ofRatio 8 23 sign n 1).toInt ∧
    (FP.ofRatio 8 23 sign n 1).toInt ≤ ((5 * 2 ^ 149 : Nat) : Int) := by
  have hb := @FP.ofRatio_mag_le 8 23 sign n 1 (5 * 2 ^ 149) 128 (by decide)
    (by rw [Nat.mul_one]; exact hn) (by decide) (by decide) (by decide)
  have ht := FP.toInt_bounds (FP.ofRatio 8 23 sign n 1)
  have h1 : ((FP.ofRatio 8 23 sign n 1).mag : Int) ≤ ((5 * 2 ^ 149 : Nat) : Int) := by
    exact_mod_cast hb.1
  exact ⟨FP.ofRatio_not_nan (by decide) _ _ _, by omega, by omega⟩

/-- Subtracting `5` from a value in `[0, 10]` gives a value in `[-5, 5]`. -/
theorem sub_five_bounds (y : Float32) (yn : y.isNaN = false) (yi : y.isInf = false)
    (y0 : 0 ≤ y.toInt) (y1 : y.toInt ≤ ((10 * 2 ^ 149 : Nat) : Int)) :
    (FP.sub y (FP.ofNat 8 23 5)).isNaN = false ∧
    -((5 * 2 ^ 149 : Nat) : Int) ≤ (FP.sub y (FP.ofNat 8 23 5)).toInt ∧
    (FP.sub y (FP.ofNat 8 23 5)).toInt ≤ ((5 * 2 ^ 149 : Nat) : Int) := by
  have f1 : (FP.neg (FP.ofNat 8 23 5)).isNaN = false := by decide
  have f2 : (FP.neg (FP.ofNat 8 23 5)).isInf = false := by decide
  have f3 : (FP.neg (FP.ofNat 8 23 5)).toInt = -((5 * 2 ^ 149 : Nat) : Int) := by
    rw [FP.toInt_of_neg _ (by decide)]
    have : (FP.neg (FP.ofNat 8 23 5)).mag = 5 * 2 ^ 149 := by decide
    rw [this]
  have e10 : ((10 * 2 ^ 149 : Nat) : Int) =
      ((5 * 2 ^ 149 : Nat) : Int) + ((5 * 2 ^ 149 : Nat) : Int) := by norm_num
  rw [e10] at y1
  unfold FP.sub FP.add
  rw [yn, yi, f1, f2, f3]
  simp only [Bool.or_self, Bool.false_eq_true, if_false]
  by_cases hz : y.toInt + -((5 * 2 ^ 149 : Nat) : Int) = 0
  · rw [if_pos hz, FP.zero_isNaN, FP.zero_toInt]
    exact ⟨rfl, by omega, by omega⟩
  · rw [if_neg hz]
    apply round_five_bounds
    have : ((y.toInt + -((5 * 2 ^ 149 : Nat) : Int)).natAbs : Int) ≤
        ((5 * 2 ^ 149 : Nat) : Int) := by omega
    exact_mod_cast this

/-- The random error `rand.Float32() * 10 - 5` lies in `[-5, 5]` for a draw in `[0, 1)`. -/
theorem noiseOffset_bounds (x : Float32) (h : InUnit32 x) :
    FP.le (FP.neg (FP.ofNat 8 23 5)) (noiseOffset x) = true ∧
    FP.le (noiseOffset x) (FP.ofNat 8 23 5) = true := by
  obtain ⟨yn, yi, y0, y1⟩ := mul_ten_bounds x h
  obtain ⟨k1, k2, k3⟩ := sub_five_bounds _ yn yi y0 y1
  have f1 : (FP.neg (FP.ofNat 8 23 5)).isNaN = false := by decide
  have f3 : (FP.neg (FP.ofNat 8 23 5)).toInt = -((5 * 2 ^ 149 : Nat) : Int) := by
    rw [FP.toInt_of_neg _ (by decide)]
    have : (FP.neg (FP.ofNat 8 23 5)).mag = 5 * 2 ^ 149 := by decide
    rw [this]
  have f4 : (FP.ofNat 8 23 5).toInt = ((5 * 2 ^ 149 : Nat) : Int) := by
    rw [FP.toInt_of_pos _ (by decide)]
    have : (FP.ofNat 8 23 5).mag = 5 * 2 ^ 149 := by decide
    rw [this]
  have f5 : (FP.ofNat 8 23 5).isNaN = false := by decide
  unfold noiseOffset FP.le
  rw [k1, f1, f3, f5, f4]
  simp only [Bool.not_false, Bool.true_and, decide_eq_true_eq]
  exact ⟨k2, k3⟩

theorem perturb_length (d : Draws) (result : List Float32) :
    (perturb d result).length = result.length := by
  unfold perturb
  split
  · exact List.length_set _ _ _
  · rfl

theorem perturb_of_pos (d : Draws) (result : List Float32) (h : 0 < result.length) :
    perturb d result =
      result.set (Intn d.index result.length)
        (FP.add (result.getD (Intn d.index result.length) zero32) (noiseOffset d.noise)) := by
  unfold perturb; rw [if_pos h]

theorem perturb_getElem?_ne (d : Draws) (result : List Float32) (h : 0 < result.length)
    (i : Nat) (hi : i ≠ Intn d.index result.length) :
    (perturb d result)[i]? = result[i]? := by
  rw [perturb_of_pos d result h]
  exact List.getElem?_set_ne (fun e => hi e.symm)

theorem perturb_getElem?_eq (d : Draws) (result : List Float32) (h : 0 < result.length) :
    (perturb d result)[Intn d.index result.length]? =
      some (FP.add (result.getD (Intn d.index result.length) zero32)
        (noiseOffset d.noise)) := by
  rw [perturb_of_pos d result h]
  exact List.getElem?_set_self (Intn_lt _ _ h)

/-- A value never differs from itself by more than the tolerance: `x - x` is `+0` or NaN. -/
theorem absDiff_self (x : Float32) : FP.lt tolerance (absDiff x x) = false := by
  unfold absDiff
  rcases FP.sub_self_cases x with h | h <;> rw [h] <;> decide

/-- C10 (amended): on the incorrect branch (first draw not below `crashProb`, second draw
below `failProb`) `incorrectSums` is incremented, the reputation penalty applied, and the
returned vector has the length of the true aggregate.  If the aggregate is non-empty,
every position other than the drawn index is unchanged and the drawn index holds the true
value plus (`float32` addition) the offset `rand.Float32() * 10 - 5`, which lies within
`[-5, +5]`; so the vector differs from the aggregate at one position at most.  If the
aggregate is empty the returned vector is empty too. -/
theorem C10_incorrect_branch_amended (s : VectorServer) (d : Draws) (req : VectorRequest)
    (h1 : FP.lt d.crash s.crashProb = false) (h2 : FP.lt d.fail s.failProb = true) :
    (SumVectors s d req).2 =
      Except.ok { Result := { Values := perturb d (calculateCorrectSum req.Vectors) },
                  NodeId := s.nodeID } ∧
    (SumVectors s d req).1.incorrectSums = wrap32 (s.incorrectSums + 1) ∧
    (∃ a : Nat, 150 ≤ a ∧ a ≤ 250 ∧
      (SumVectors s d req).1.reputation = FP.sub s.reputation (FP.ofNat 11 52 a)) ∧
    (perturb d (calculateCorrectSum req.Vectors)).length =
      (calculateCorrectSum req.Vectors).length ∧
    (0 < (calculateCorrectSum req.Vectors).length →
      Intn d.index (calculateCorrectSum req.Vectors).length <
        (calculateCorrectSum req.Vectors).length ∧
      (∀ i, i ≠ Intn d.index (calculateCorrectSum req.Vectors).length →
        (perturb d (calculateCorrectSum req.Vectors))[i]? =
          (calculateCorrectSum req.Vectors)[i]?) ∧
      (perturb d (calculateCorrectSum req.Vectors))[
          Intn d.index (calculateCorrectSum req.Vectors).length]? =
        some (FP.add ((calculateCorrectSum req.Vectors).getD
          (Intn d.index (calculateCorrectSum req.Vectors).length) zero32)
          (noiseOffset d.noise)) ∧
      (InUnit32 d.noise →
        FP.le (FP.neg (FP.ofNat 8 23 5)) (noiseOffset d.noise) = true ∧
        FP.le (noiseOffset d.noise) (FP.ofNat 8 23 5) = true)) ∧
    (calculateCorrectSum req.Vectors = [] →
      perturb d (calculateCorrectSum req.Vectors) = []) := by
  rw [SumVectors_incorrect s d req h1 h2, serverSum_eq]
  refine ⟨rfl, rfl, ⟨150 + Intn d.penalty 101, by omega, ?_, rfl⟩, perturb_length _ _,
    fun hpos => ⟨Intn_lt _ _ hpos, fun i hi => perturb_getElem?_ne d _ hpos i hi,
      perturb_getElem?_eq d _ hpos, noiseOffset_bounds d.noise⟩,
    fun h => by rw [h]; rfl⟩
  have := Intn_lt d.penalty 101 (by decide); omega

/-- C10 (amended), at the node that always answers incorrectly, the batch `[1,2,3]`,
`[4,5,6]` and `rand.Float32() = 0.5`. -/
theorem C10_incorrect_branch_amended_witness :
    (SumVectors failingNode halfDraws
      { Vectors := [natVector [1, 2, 3], natVector [4, 5, 6]] }).1.incorrectSums =
        wrap32 (failingNode.incorrectSums + 1) ∧
    (perturb halfDraws (calculateCorrectSum [natVector [1, 2, 3], natVector [4, 5, 6]])).length =
      (calculateCorrectSum [natVector [1, 2, 3], natVector [4, 5, 6]]).length :=
  ⟨(C10_incorrect_branch_amended failingNode halfDraws
      { Vectors := [natVector [1, 2, 3], natVector [4, 5, 6]] } (by decide) (by decide)).2.1,
    (C10_incorrect_branch_amended failingNode halfDraws
      { Vectors := [natVector [1, 2, 3], natVector [4, 5, 6]] }
      (by decide) (by decide)).2.2.2.1⟩

/-- C10 fails as stated: with `rand.Float32() = 0.5` the offset is `0`, so on the incorrect
branch (`incorrectSums` incremented) the returned vector for the batch `[1]` is the
non-empty true aggregate itself: it differs from it at no position. -/
theorem C10_counterexample :
    (SumVectors failingNode halfDraws { Vectors := [natVector [1]] }).1.incorrectSums =
      failingNode.incorrectSums + 1 ∧
    (SumVectors failingNode halfDraws { Vectors := [natVector [1]] }).2 =
      Except.ok { Result := { Values := calculateCorrectSum [natVector [1]] }, NodeId := 1 } ∧
    calculateCorrectSum [natVector [1]] ≠ [] := by
  refine ⟨by decide, ?_, by decide⟩
  rw [SumVectors_incorrect failingNode halfDraws _ (by decide) (by decide)]
  have : perturb halfDraws (serverSum { Vectors := [natVector [1]] }) =
      calculateCorrectSum [natVector [1]] := by decide
  rw [this]
  rfl

/-! ## Exact additions: batches of small natural numbers -/

theorem ofNat32_facts (a : Nat) (h : a < 2 ^ 24) :
    (FP.ofNat 8 23 a).sign = false ∧ (FP.ofNat 8 23 a).mag = a * 2 ^ 149 ∧
      (FP.ofNat 8 23 a).ex.val < 2 ^ 8 - 1 := by
  have e : FP.ofNat 8 23 a = FP.ofRatio 8 23 false (a * 2 ^ 149 * 1) 1 := by
    unfold FP.ofNat
    rw [Nat.shiftLeft_eq, Nat.mul_one]
    rfl
  have hB : a * 2 ^ 149 < 2 ^ 173 := by
    have : (2 : Nat) ^ 173 = 2 ^ 24 * 2 ^ 149 := by norm_num
    rw [this]
    exact Nat.mul_lt_mul_of_pos_right h (Nat.two_pow_pos _)
  have hs : FP.ilog2 (a * 2 ^ 149) - 23 ≤ 149 := by
    by_cases h0 : a * 2 ^ 149 = 0
    · rw [h0, FP.ilog2_zero]; omega
    · have h1 := FP.ilog2_le h0
      have : FP.ilog2 (a * 2 ^ 149) < 173 := by
        by_contra hc
        have : 2 ^ 173 ≤ 2 ^ FP.ilog2 (a * 2 ^ 149) :=
          Nat.pow_le_pow_right (by decide) (by omega)
        omega
      omega
  have hdiv : 2 ^ (FP.ilog2 (a * 2 ^ 149) - 23) ∣ a * 2 ^ 149 :=
    Dvd.dvd.mul_left (Nat.pow_dvd_pow 2 hs) a
  have hB2 : a * 2 ^ 149 < 2 ^ (23 + (2 ^ 8 - 2)) :=
    lt_of_lt_of_le hB (Nat.pow_le_pow_right (by decide) (by decide))
  rw [e]
  exact FP.ofRatio_exact (by decide) (by decide) false (a * 2 ^ 149) 1 (by decide) hdiv hB2

/-- Adding two small natural numbers in `float32` is exact. -/
theorem add_ofNat32 (a b : Nat) (h : a + b < 2 ^ 24) :
    FP.add (FP.ofNat 8 23 a) (FP.ofNat 8 23 b) = FP.ofNat 8 23 (a + b) := by
  obtain ⟨sa, ma, fa⟩ := ofNat32_facts a (by omega)
  obtain ⟨sb, mb, fb⟩ := ofNat32_facts b (by omega)
  unfold FP.add
  rw [FP.isNaN_false_of_finite _ fa, FP.isNaN_false_of_finite _ fb,
    FP.isInf_false_of_finite _ fa, FP.isInf_false_of_finite _ fb, FP.toInt_of_pos _ sa,
    FP.toInt_of_pos _ sb, ma, mb, sa, sb]
  simp only [Bool.or_self, Bool.false_eq_true, if_false, Bool.and_self]
  have hz : ((a * 2 ^ 149 : Nat) : Int) + ((b * 2 ^ 149 : Nat) : Int) =
      (((a + b) * 2 ^ 149 : Nat) : Int) := by push_cast; ring
  rw [hz]
  by_cases h0 : a + b = 0
  · have ha : a = 0 := by omega
    have hb : b = 0 := by omega
    subst ha; subst hb
    decide
  · have hne : (((a + b) * 2 ^ 149 : Nat) : Int) ≠ 0 := by
      have := Nat.two_pow_pos 149
      have : 0 < (a + b) * 2 ^ 149 := Nat.mul_pos (by omega) this
      omega
    rw [if_neg hne]
    have hd : decide ((((a + b) * 2 ^ 149 : Nat) : Int) < 0) = false := by
      rw [decide_eq_false_iff_not]; omega
    rw [hd, Int.natAbs_ofNat]
    unfold FP.ofNat
    rw [Nat.shiftLeft_eq]
    rfl

theorem natVector_length (ks : List Nat) : (natVector ks).Values.length = ks.length :=
  List.length_map _ _

theorem natVector_getD (ks : List Nat) (i : Nat) (h : i < ks.length) :
    (natVector ks).Values.getD i zero32 = FP.ofNat 8 23 (ks.getD i 0) := by
  unfold natVector
  rw [List.getD_eq_getElem?_getD, List.getD_eq_getElem?_getD, List.getElem?_map,
    List.getElem?_eq_getElem h]
  simp only [Option.map_some', Option.getD_some]

theorem colTotal_cons (ks : List Nat) (K : List (List Nat)) (i : Nat) :
    colTotal (ks :: K) i = ks.getD i 0 + colTotal K i := by
  unfold colTotal; rw [List.map_cons, List.sum_cons]

/-- Column `i` of a batch of small natural numbers accumulates to the exact total. -/
theorem foldl_colAcc_nat (K : List (List Nat)) (n i acc : Nat) (hi : i < n)
    (hlen : ∀ ks ∈ K, ks.length = n) (hsum : acc + colTotal K i < 2 ^ 24) :
    (K.map natVector).foldl (colAcc i) (FP.ofNat 8 23 acc) =
      FP.ofNat 8 23 (acc + colTotal K i) := by
  induction K generalizing acc with
  | nil =>
    have : colTotal [] i = 0 := rfl
    rw [this, Nat.add_zero, List.map_nil, List.foldl_nil]
  | cons ks K ih =>
    rw [colTotal_cons] at hsum
    have hk : ks.length = n := hlen ks (List.mem_cons_self _ _)
    rw [List.map_cons, List.foldl_cons]
    have h1 : colAcc i (FP.ofNat 8 23 acc) (natVector ks) =
        FP.ofNat 8 23 (acc + ks.getD i 0) := by
      unfold colAcc
      rw [natVector_length, if_pos (by omega), natVector_getD ks i (by omega),
        add_ofNat32 _ _ (by omega)]
    rw [h1, ih (acc + ks.getD i 0) (fun u hu => hlen u (List.mem_cons_of_mem _ hu))
      (by omega), colTotal_cons]
    congr 1; omega

/-- The reference aggregate of a non-empty batch of equally long vectors of small natural
numbers is the vector of the exact column totals. -/
theorem calculateCorrectSum_nat (K : List (List Nat)) (n : Nat) (hK : K ≠ [])
    (hlen : ∀ ks ∈ K, ks.length = n) (hsum : ∀ i, i < n → colTotal K i < 2 ^ 24) :
    calculateCorrectSum (K.map natVector) =
      (List.range n).map (fun i => FP.ofNat 8 23 (colTotal K i)) := by
  cases K with
  | nil => exact absurd rfl hK
  | cons k0 rest =>
    have hk0 : (natVector k0).Values.length = n := by
      rw [natVector_length]; exact hlen k0 (List.mem_cons_self _ _)
    rw [List.map_cons]
    apply List.ext_getElem?
    intro i
    by_cases hi : i < n
    · have hl : i < (calculateCorrectSum (natVector k0 :: rest.map natVector)).length := by
        rw [calculateCorrectSum_length, hk0]; exact hi
      have hg := calculateCorrectSum_getD (natVector k0) (rest.map natVector) i
        (by rw [hk0]; exact hi)
      have hf := foldl_colAcc_nat (k0 :: rest) n i 0 hi hlen
        (by rw [Nat.zero_add]; exact hsum i hi)
      rw [List.map_cons, Nat.zero_add] at hf
      have hz : FP.ofNat 8 23 0 = zero32 := by decide
      rw [hz] at hf
      rw [hf, List.getD_eq_getElem?_getD, List.getElem?_eq_getElem hl] at hg
      rw [List.getElem?_eq_getElem hl, List.getElem?_map,
        List.getElem?_range hi]
      exact congrArg some hg
    · rw [List.getElem?_eq_none (by rw [calculateCorrectSum_length, hk0]; omega),
        List.getElem?_eq_none (by rw [List.length_map, List.length_range]; omega)]

theorem colTotal_perm (K K2 : List (List Nat)) (h : K.Perm K2) (i : Nat) :
    colTotal K2 i = colTotal K i := by
  unfold colTotal
  exact ((h.map _).sum_eq).symm

/-! ## Widening to `float64` and narrowing back -/

namespace FP

variable {eb mb : Nat}

/-- The magnitude of a bit pattern is a multiple of the spacing at its binade. -/
theorem mag_dvd (hcap : mb + 2 ^ eb ≤ 2 ^ 16) (x : FP eb mb) :
    2 ^ (ilog2 x.mag - mb) ∣ x.mag := by
  by_cases h0 : x.ex.val = 0
  · have hm := mag_of_ex_zero x h0
    have hlt := x.man.isLt
    have hs : ilog2 x.mag - mb = 0 := by
      by_cases hz : x.mag = 0
      · rw [hz, ilog2_zero, Nat.zero_sub]
      · have h1 := ilog2_le hz
        have : ilog2 x.mag < mb := by
          by_contra hc
          have : 2 ^ mb ≤ 2 ^ ilog2 x.mag := Nat.pow_le_pow_right (by decide) (by omega)
          omega
        omega
    rw [hs]; simp
  · have hex := x.ex.isLt
    have hl : ilog2 x.mag = mb + (x.ex.val - 1) :=
      ilog2_eq (by omega) (mag_lower x h0) (by
        have := mag_upper x h0
        have e : mb + (x.ex.val - 1) + 1 = mb + 1 + (x.ex.val - 1) := by omega
        rw [e]; exact this)
    rw [hl, Nat.add_sub_cancel_left, mag_of_ex_pos x h0]
    exact Dvd.intro_left _ rfl

theorem mag_lt_pow (x : FP eb mb) : x.mag < 2 ^ (mb + 2 ^ eb) := by
  have hex := x.ex.isLt
  by_cases h0 : x.ex.val = 0
  · rw [mag_of_ex_zero x h0]
    exact lt_of_lt_of_le x.man.isLt (Nat.pow_le_pow_right (by decide) (by omega))
  · exact lt_of_lt_of_le (mag_upper x h0) (Nat.pow_le_pow_right (by decide) (by omega))

theorem ilog2_mul_pow (m k : Nat) (hm : m ≠ 0) (hm2 : m < 2 ^ (2 ^ 16))
    (hk : ilog2 m + k < 2 ^ 16) : ilog2 (m * 2 ^ k) = ilog2 m + k := by
  apply ilog2_eq hk
  · rw [pow_add]; exact Nat.mul_le_mul_right _ (ilog2_le hm)
  · have : ilog2 m + k + 1 = ilog2 m + 1 + k := by omega
    rw [this, pow_add]
    exact Nat.mul_lt_mul_of_pos_right (ilog2_lt hm2) (Nat.two_pow_pos k)

theorem convert_of_finite (eb2 mb2 : Nat) (x : FP eb mb) (h : x.ex.val < 2 ^ eb - 1) :
    convert eb2 mb2 x =
      ofRatio eb2 mb2 x.sign (x.mag * 2 ^ unitExp eb2 mb2) (2 ^ unitExp eb mb) := by
  unfold convert
  rw [isNaN_false_of_finite x h, isInf_false_of_finite x h, Nat.shiftLeft_eq, Nat.shiftLeft_eq,
    Nat.one_mul]
  rfl

end FP

/-- The conversion `float64(x)` of a finite `float32` is exact: same sign, and the
magnitude rescaled to the unit of `float64`. -/
theorem widen_facts (x : Float32) (hfin : x.ex.val < 2 ^ 8 - 1) :
    ∃ k, FP.unitExp 11 52 = k + FP.unitExp 8 23 ∧
      (FP.convert 11 52 x).sign = x.sign ∧ (FP.convert 11 52 x).mag = x.mag * 2 ^ k ∧
      (FP.convert 11 52 x).ex.val < 2 ^ 11 - 1 := by
  obtain ⟨k, hk, hk2⟩ : ∃ k, FP.unitExp 11 52 = k + FP.unitExp 8 23 ∧ k = 925 :=
    ⟨925, by decide, rfl⟩
  refine ⟨k, hk, ?_⟩
  have u2 : FP.unitExp 8 23 = 149 := by decide
  have hmag : x.mag < 2 ^ (23 + 2 ^ 8) := FP.mag_lt_pow x
  have hcap : x.mag < 2 ^ (2 ^ 16) :=
    lt_of_lt_of_le hmag (Nat.pow_le_pow_right (by decide) (by decide))
  have h256 : (2 : Nat) ^ 8 = 256 := by norm_num
  have h2048 : (2 : Nat) ^ 11 = 2048 := by norm_num
  have h65536 : (2 : Nat) ^ 16 = 65536 := by norm_num
  have hdiv : 2 ^ (FP.ilog2 (x.mag * 2 ^ k) - 52) ∣ x.mag * 2 ^ k := by
    by_cases h0 : x.mag = 0
    · rw [h0, Nat.zero_mul]; exact Nat.dvd_zero _
    · have hl : FP.ilog2 x.mag < 23 + 2 ^ 8 := by
        by_contra hc
        have h1 := FP.ilog2_le h0
        have : 2 ^ (23 + 2 ^ 8) ≤ 2 ^ FP.ilog2 x.mag :=
          Nat.pow_le_pow_right (by decide) (by omega)
        omega
      rw [FP.ilog2_mul_pow x.mag k h0 hcap (by omega)]
      have hd := FP.mag_dvd (by decide) x
      have h2 : 2 ^ (FP.ilog2 x.mag + k - 52) ∣ 2 ^ (FP.ilog2 x.mag - 23) * 2 ^ k := by
        rw [← pow_add]
        exact Nat.pow_dvd_pow 2 (by omega)
      exact Dvd.dvd.trans h2 (Nat.mul_dvd_mul_right hd _)
  have hB : x.mag * 2 ^ k < 2 ^ (52 + (2 ^ 11 - 2)) := by
    have h1 : x.mag * 2 ^ k < 2 ^ (23 + 2 ^ 8) * 2 ^ k :=
      Nat.mul_lt_mul_of_pos_right hmag (Nat.two_pow_pos _)
    rw [← pow_add] at h1
    exact lt_of_lt_of_le h1 (Nat.pow_le_pow_right (by decide) (by omega))
  rw [FP.convert_of_finite 11 52 x hfin, hk, pow_add, ← Nat.mul_assoc]
  exact FP.ofRatio_exact (by decide) (by decide) x.sign (x.mag * 2 ^ k) (2 ^ FP.unitExp 8 23)
    (Nat.two_pow_pos _) hdiv hB

/-- Converting a `float32` to `float64` and back gives the same value (NaN payloads
apart). -/
theorem narrow_widen (x : Float32) (hn : x.isNaN = false) :
    FP.convert 8 23 (FP.convert 11 52 x) = x := by
  by_cases hi : x.isInf = true
  · have e1 : FP.convert 11 52 x = FP.inf 11 52 x.sign := by
      unfold FP.convert; rw [hn, hi]; rfl
    have e2 : FP.convert 8 23 (FP.inf 11 52 x.sign) = FP.inf 8 23 x.sign := by
      cases x.sign <;> decide
    rw [e1, e2]
    obtain ⟨h1, h2⟩ := (FP.isInf_iff x).1 hi
    refine FP.eq_of_sign_mag (FP.inf 8 23 x.sign) x rfl ?_
    have h3 : (FP.inf 8 23 x.sign).mag = (FP.inf 8 23 true).mag := rfl
    have h4 : (FP.inf 8 23 true).mag = (2 ^ 23 + 0) <<< (2 ^ 8 - 1 - 1) := by decide
    rw [h3, h4]
    unfold FP.mag
    rw [h1, h2, if_neg (by decide)]
  · have hi2 : x.isInf = false := by simpa using hi
    have hfin := FP.finite_of_not x hn hi2
    obtain ⟨k, hk, ws, wm, wf⟩ := widen_facts x hfin
    have hB : x.mag < 2 ^ (23 + (2 ^ 8 - 2)) := by
      by_cases h0 : x.ex.val = 0
      · rw [FP.mag_of_ex_zero x h0]
        exact lt_of_lt_of_le x.man.isLt (Nat.pow_le_pow_right (by decide) (by decide))
      · exact lt_of_lt_of_le (FP.mag_upper x h0)
          (Nat.pow_le_pow_right (by decide) (by omega))
    have h := FP.ofRatio_exact (by decide) (by decide) x.sign x.mag (2 ^ FP.unitExp 11 52)
      (Nat.two_pow_pos _) (FP.mag_dvd (by decide) x) hB
    rw [FP.convert_of_finite 8 23 _ wf, ws, wm, Nat.mul_assoc, ← pow_add, ← hk]
    exact FP.eq_of_sign_mag _ _ h.1 h.2.1

/-- C8 (amended): `GetStats` leaves every field of the node's state unchanged, and the
response carries the node's id, the current values of the three counters, and the
reputation converted from `float64` to `float32` (rounded to nearest); this is the
current reputation itself whenever that is the value of some `float32`. -/
theorem C8_GetStats_frame_amended (s : VectorServer) :
    (GetStats s).1.reputation = s.reputation ∧
    (GetStats s).1.correctSums = s.correctSums ∧
    (GetStats s).1.incorrectSums = s.incorrectSums ∧
    (GetStats s).1.crashes = s.crashes ∧
    (GetStats s).1.nodeID = s.nodeID ∧
    (GetStats s).1.failProb = s.failProb ∧
    (GetStats s).1.crashProb = s.crashProb ∧
    (GetStats s).2.NodeId = s.nodeID ∧
    (GetStats s).2.CorrectSums = s.correctSums ∧
    (GetStats s).2.IncorrectSums = s.incorrectSums ∧
    (GetStats s).2.Crashes = s.crashes ∧
    (GetStats s).2.Reputation = FP.convert 8 23 s.reputation ∧
    (∀ x : Float32, x.isNaN = false → s.reputation = FP.convert 11 52 x →
      (GetStats s).2.Reputation = x) := by
  refine ⟨rfl, rfl, rfl, rfl, rfl, rfl, rfl, rfl, rfl, rfl, rfl, rfl, fun x hx h => ?_⟩
  show FP.convert 8 23 s.reputation = x
  rw [h]
  exact narrow_widen x hx

/-- C8 (amended), at a fresh node with reputation `1000`: the response carries `1000`. -/
theorem C8_GetStats_frame_amended_witness :
    (GetStats (NewVectorServer 1 (FP.ofNat 11 52 0) (FP.ofNat 11 52 0)
      (FP.ofNat 11 52 1000))).2.Reputation = FP.ofNat 8 23 1000 :=
  (C8_GetStats_frame_amended (NewVectorServer 1 (FP.ofNat 11 52 0) (FP.ofNat 11 52 0)
    (FP.ofNat 11 52 1000))).2.2.2.2.2.2.2.2.2.2.2.2 (FP.ofNat 8 23 1000) (by decide) (by decide)

/-- C8 fails as stated: with reputation `16777217` the response carries `16777216`, which
converted back to `float64` (an exact conversion) is not the node's reputation. -/
theorem C8_counterexample :
    (GetStats (NewVectorServer 1 (FP.ofNat 11 52 0) (FP.ofNat 11 52 0)
      (FP.ofNat 11 52 16777217))).2.Reputation = FP.ofNat 8 23 16777216 ∧
    FP.convert 11 52 (GetStats (NewVectorServer 1 (FP.ofNat 11 52 0) (FP.ofNat 11 52 0)
      (FP.ofNat 11 52 16777217))).2.Reputation ≠
      (GetStats (NewVectorServer 1 (FP.ofNat 11 52 0) (FP.ofNat 11 52 0)
        (FP.ofNat 11 52 16777217))).1.reputation := by
  decide

/-! ## Further lemmas on addition -/

namespace FP

variable {eb mb : Nat}

theorem eq_of_isInf (x y : FP eb mb) (hx : x.isInf = true) (hy : y.isInf = true)
    (hs : x.sign = y.sign) : x = y := by
  obtain ⟨x1, x2⟩ := (isInf_iff x).1 hx
  obtain ⟨y1, y2⟩ := (isInf_iff y).1 hy
  apply eq_of_sign_mag x y hs
  unfold mag
  rw [x1, x2, y1, y2]

/-- Addition is commutative. -/
theorem add_swap (x y : FP eb mb) : add x y = add y x := by
  unfold add
  rw [Bool.or_comm y.isNaN x.isNaN]
  by_cases hn : (x.isNaN || y.isNaN) = true
  · rw [if_pos hn, if_pos hn]
  · rw [if_neg hn, if_neg hn]
    cases hx : x.isInf <;> cases hy : y.isInf
    · simp only [Bool.false_eq_true, if_false]
      rw [Int.add_comm y.toInt x.toInt, Bool.and_comm y.sign x.sign]
    · simp only [Bool.false_eq_true, if_false, if_true, Bool.false_and]
    · simp only [Bool.false_eq_true, if_false, if_true, Bool.false_and]
    · simp only [if_true, Bool.true_and]
      cases hxs : x.sign <;> cases hys : y.sign
      · simp only [bne_self_eq_false, Bool.false_eq_true, if_false]
        exact eq_of_isInf x y hx hy (by rw [hxs, hys])
      · rfl
      · rfl
      · simp only [bne_self_eq_false, Bool.false_eq_true, if_false]
        exact eq_of_isInf x y hx hy (by rw [hxs, hys])

/-- Adding `-0` returns the other operand, unless that is a NaN. -/
theorem add_negZero (heb : 2 ≤ eb) (hcap : mb + 2 ^ eb ≤ 2 ^ 16) (x : FP eb mb)
    (hn : x.isNaN = false) : add x (zero eb mb true) = x := by
  have heb1 : 1 ≤ eb := by omega
  unfold add
  rw [hn, zero_isNaN, Bool.or_false, if_neg (by decide)]
  by_cases h2 : x.isInf = true
  · rw [if_pos h2, zero_isInf heb1, Bool.false_and, if_neg (by decide)]
  · have h2f : x.isInf = false := by simpa using h2
    rw [if_neg h2, zero_isInf heb1, if_neg (by decide), zero_toInt, Int.add_zero]
    by_cases h4 : x.toInt = 0
    · rw [if_pos h4]
      have hm := (toInt_eq_zero_iff x).1 h4
      have hs : (x.sign && (zero eb mb true).sign) = x.sign := by
        show (x.sign && true) = x.sign
        rw [Bool.and_true]
      rw [hs]
      exact (eq_of_sign_mag x (zero eb mb x.sign) rfl (by rw [hm, zero_mag])).symm
    · rw [if_neg h4, toInt_natAbs, toInt_neg_iff x (fun h => h4 ((toInt_eq_zero_iff x).2 h))]
      exact ofRatio_mag heb hcap x (finite_of_not x hn h2f)

/-- An addition whose exact result the format represents does not round: the sum of two
finite values has that exact value, and is finite. -/
theorem add_exact (heb : 2 ≤ eb) (hcap : mb + 2 ^ eb ≤ 2 ^ 16) (x y : FP eb mb)
    (hx : x.ex.val < 2 ^ eb - 1) (hy : y.ex.val < 2 ^ eb - 1)
    (hz : Exact eb mb (x.toInt + y.toInt)) :
    (add x y).toInt = x.toInt + y.toInt ∧ (add x y).ex.val < 2 ^ eb - 1 := by
  have h2 := two_le_two_pow (by omega : 1 ≤ eb)
  obtain ⟨f, hf, hfz⟩ := hz
  unfold add
  rw [isNaN_false_of_finite x hx, isNaN_false_of_finite y hy, isInf_false_of_finite x hx,
    isInf_false_of_finite y hy]
  simp only [Bool.or_self, Bool.false_eq_true, if_false]
  by_cases h0 : x.toInt + y.toInt = 0
  · rw [if_pos h0, zero_toInt, h0, zero_ex]
    exact ⟨rfl, by omega⟩
  · rw [if_neg h0]
    have hm : f.mag ≠ 0 := fun h => h0 (by rw [← hfz]; exact (toInt_eq_zero_iff f).2 h)
    have e : ofRatio eb mb (decide (x.toInt + y.toInt < 0)) (x.toInt + y.toInt).natAbs 1 = f := by
      rw [← hfz, toInt_natAbs, toInt_neg_iff f hm]
      exact ofRatio_mag heb hcap f hf
    rw [e]
    exact ⟨hfz, hf⟩

end FP

/-! ## Rounding: the magnitude of the result -/

namespace FP

variable {eb mb : Nat}

theorem roundNE_fst_bounds (mb n d : Nat) :
    n / (d * 2 ^ (roundNE mb n d).2) ≤ (roundNE mb n d).1 ∧
      (roundNE mb n d).1 ≤ n / (d * 2 ^ (roundNE mb n d).2) + 1 := by
  rw [roundNE_fst, roundNE_snd]
  split <;> omega

theorem roundNE_quot_lt (mb n d : Nat) (hd : 0 < d) (hcap : n / d < 2 ^ (2 ^ 16)) :
    n / (d * 2 ^ (roundNE mb n d).2) < 2 ^ (mb + 1) := by
  rw [roundNE_snd]
  have h1 := ilog2_lt hcap
  have h2 : 2 ^ (ilog2 (n / d) + 1) ≤ 2 ^ (mb + 1 + (ilog2 (n / d) - mb)) :=
    Nat.pow_le_pow_right (by decide) (by omega)
  have h3 : n / d < 2 ^ (mb + 1 + (ilog2 (n / d) - mb)) := lt_of_lt_of_le h1 h2
  have h4 : n < 2 ^ (mb + 1 + (ilog2 (n / d) - mb)) * d := (Nat.div_lt_iff_lt_mul hd).1 h3
  apply (Nat.div_lt_iff_lt_mul (Nat.mul_pos hd (Nat.two_pow_pos _))).2
  calc n < 2 ^ (mb + 1 + (ilog2 (n / d) - mb)) * d := h4
    _ = 2 ^ (mb + 1) * (d * 2 ^ (ilog2 (n / d) - mb)) := by rw [pow_add]; ring

/-- Without overflow, the magnitude of a rounded result is the rounded significand times
its power of two. -/
theorem ofRatio_mag_eq (sign : Bool) (n d : Nat) (hd : 0 < d)
    (hcap : n / d < 2 ^ (2 ^ 16)) (hfin : (roundNE mb n d).2 + 2 < 2 ^ eb - 1) :
    (ofRatio eb mb sign n d).mag = (roundNE mb n d).1 * 2 ^ (roundNE mb n d).2 ∧
      (ofRatio eb mb sign n d).ex.val < 2 ^ eb - 1 ∧
      (ofRatio eb mb sign n d).sign = sign := by
  have h1 := roundNE_fst_bounds mb n d
  have h2 := roundNE_quot_lt mb n d hd hcap
  have h3 := roundNE_snd_pos mb n d hd
  unfold ofRatio
  simp only
  generalize (roundNE mb n d).1 = q at *
  generalize (roundNE mb n d).2 = s at *
  generalize n / (d * 2 ^ s) = q0 at *
  by_cases hq : q < 2 ^ mb
  · rw [if_pos hq]
    have hs0 : s = 0 := by
      by_contra hc
      have := h3 (Nat.pos_of_ne_zero hc); omega
    refine ⟨?_, ?_, rfl⟩
    · unfold mag
      rw [pack_ex _ _ _ (by omega), if_pos rfl, pack_man _ _ _ hq, hs0, pow_zero, Nat.mul_one]
    · rw [pack_ex _ _ _ (by omega)]; omega
  · rw [if_neg hq]
    by_cases hq2 : q < 2 ^ (mb + 1)
    · simp only [if_pos hq2]
      rw [if_pos (by omega)]
      have hm : q - 2 ^ mb < 2 ^ mb := by rw [pow_succ] at hq2; omega
      refine ⟨?_, ?_, rfl⟩
      · unfold mag
        rw [pack_ex _ _ _ (by omega), if_neg (by omega), pack_man _ _ _ hm,
          Nat.shiftLeft_eq, Nat.add_sub_cancel]
        have : 2 ^ mb + (q - 2 ^ mb) = q := by omega
        rw [this]
      · rw [pack_ex _ _ _ (by omega)]; omega
    · simp only [if_neg hq2]
      rw [if_pos (by omega)]
      have hqe : q = 2 ^ (mb + 1) := by omega
      refine ⟨?_, ?_, rfl⟩
      · unfold mag
        rw [pack_ex _ _ _ (by omega), if_neg (by omega), pack_man _ _ _ (Nat.two_pow_pos mb),
          Nat.shiftLeft_eq, Nat.add_zero, hqe]
        have e : s + 2 - 1 = s + 1 := by omega
        rw [e, pow_succ, pow_succ]; ring
      · rw [pack_ex _ _ _ (by omega)]; omega

/-- Rounding never falls below a representable bound: if `B ≤ n / d` and `B` is a
multiple of `2 ^ S` below `2 ^ (mb + 1 + S)`, then `B ≤ q * 2 ^ s`. -/
theorem roundNE_ge (mb n d B S : Nat) (hd : 0 < d) (hn : B * d ≤ n) (hdiv : 2 ^ S ∣ B)
    (hB : B < 2 ^ (mb + 1 + S)) :
    B ≤ (roundNE mb n d).1 * 2 ^ (roundNE mb n d).2 := by
  have h1 := (roundNE_fst_bounds mb n d).1
  have h3 := roundNE_snd_pos mb n d hd
  generalize (roundNE mb n d).1 = q at *
  generalize (roundNE mb n d).2 = s at *
  by_cases hs : s ≤ S
  · obtain ⟨c, hc⟩ := hdiv
    have hBs := pow_split S s c B hs hc
    have hq : 2 ^ (S - s) * c ≤ n / (d * 2 ^ s) := by
      apply (Nat.le_div_iff_mul_le (Nat.mul_pos hd (Nat.two_pow_pos _))).2
      calc 2 ^ (S - s) * c * (d * 2 ^ s) = 2 ^ (S - s) * c * 2 ^ s * d := by ring
        _ = B * d := by rw [← hBs]
        _ ≤ n := hn
    calc B = 2 ^ (S - s) * c * 2 ^ s := hBs
      _ ≤ q * 2 ^ s := Nat.mul_le_mul_right _ (le_trans hq h1)
  · have hq := h3 (by omega)
    have h4 : 2 ^ (mb + 1 + S) ≤ 2 ^ (mb + s) := Nat.pow_le_pow_right (by decide) (by omega)
    calc B ≤ 2 ^ (mb + s) := by omega
      _ = 2 ^ mb * 2 ^ s := pow_add 2 mb s
      _ ≤ q * 2 ^ s := Nat.mul_le_mul_right _ hq

theorem ilog2Aux_ge_acc (b acc n : Nat) : acc ≤ ilog2Aux b acc n := by
  induction b generalizing acc with
  | zero => exact Nat.le_refl _
  | succ b ih =>
    unfold ilog2Aux
    split
    · exact ih acc
    · exact le_trans (Nat.le_add_right _ _) (ih _)

theorem ilog2Aux_ge (b : Nat) : ∀ acc n k : Nat, 2 ^ k ≤ n → k < acc + 2 ^ b →
    k ≤ ilog2Aux b acc n := by
  induction b with
  | zero =>
    intro acc n k _ hk
    have := ilog2Aux_ge_acc 0 acc n
    rw [pow_zero] at hk
    omega
  | succ b ih =>
    intro acc n k h hk
    unfold ilog2Aux
    rw [Nat.one_shiftLeft, Nat.shiftRight_eq_div_pow]
    by_cases hlt : n < 2 ^ (acc + 2 ^ b)
    · rw [if_pos (Nat.div_eq_of_lt hlt)]
      apply ih acc n k h
      by_contra hc
      have : 2 ^ (acc + 2 ^ b) ≤ 2 ^ k := Nat.pow_le_pow_right (by decide) (by omega)
      omega
    · have hne : ¬ n / 2 ^ (acc + 2 ^ b) = 0 := by
        intro h0
        have := (Nat.div_eq_zero_iff (Nat.two_pow_pos _)).1 h0
        omega
      rw [if_neg hne]
      by_cases hk2 : k < acc + 2 ^ b
      · have := ilog2Aux_ge_acc b (acc + 2 ^ b) n
        omega
      · apply ih _ n k h
        rw [pow_succ] at hk
        omega

/-- The logarithm is at least every exponent below the cap whose power is below `n`. -/
theorem ilog2_ge {n k : Nat} (h : 2 ^ k ≤ n) (hk : k < 2 ^ 16) : k ≤ ilog2 n :=
  ilog2Aux_ge 16 0 n k h (by rw [Nat.zero_add]; exact hk)

/-- A rounded result is not below a representable lower bound of the exact value. -/
theorem ofRatio_mag_ge (hcap : mb + 2 ^ eb ≤ 2 ^ 16) (sign : Bool) (n d B S : Nat)
    (hd : 0 < d) (hlo : B * d ≤ n) (hdiv : 2 ^ S ∣ B) (hB : B < 2 ^ (mb + 1 + S))
    (hS : S + 2 < 2 ^ eb - 1) :
    B ≤ (ofRatio eb mb sign n d).mag := by
  by_cases hs : (roundNE mb n d).2 ≤ S
  · have hq : n / d < 2 ^ (2 ^ 16) := by
      by_contra hc
      have h1 : 2 ^ (mb + 1 + S) ≤ 2 ^ (2 ^ 16) :=
        Nat.pow_le_pow_right (by decide) (by omega)
      have h2 : 2 ^ (mb + 1 + S) ≤ n / d := le_trans h1 (Nat.le_of_not_lt hc)
      have h3 := ilog2_ge h2 (by omega)
      rw [roundNE_snd] at hs
      omega
    have hfin : (roundNE mb n d).2 + 2 < 2 ^ eb - 1 := by omega
    rw [(@ofRatio_mag_eq eb mb sign n d hd hq hfin).1]
    exact roundNE_ge mb n d B S hd hlo hdiv hB
  · have hq := roundNE_snd_pos mb n d hd (by omega)
    have hpow : 2 ^ (mb + 1 + S) ≤ 2 ^ (mb + (roundNE mb n d).2) :=
      Nat.pow_le_pow_right (by decide) (by omega)
    have key : ∀ x : FP eb mb, (roundNE mb n d).2 + 1 ≤ x.ex.val → B ≤ x.mag := by
      intro x hx
      have h1 := mag_lower x (by omega)
      have h2 : 2 ^ (mb + (roundNE mb n d).2) ≤ 2 ^ (mb + (x.ex.val - 1)) :=
        Nat.pow_le_pow_right (by decide) (by omega)
      omega
    have key2 : ∀ x : FP eb mb, S + 2 ≤ x.ex.val → B ≤ x.mag := by
      intro x hx
      have h1 := mag_lower x (by omega)
      have h2 : 2 ^ (mb + 1 + S) ≤ 2 ^ (mb + (x.ex.val - 1)) :=
        Nat.pow_le_pow_right (by decide) (by omega)
      omega
    have h2e := Nat.two_pow_pos eb
    unfold ofRatio
    simp only
    rw [if_neg (by omega)]
    by_cases hq2 : (roundNE mb n d).1 < 2 ^ (mb + 1)
    · simp only [if_pos hq2]
      by_cases he : (roundNE mb n d).2 + 1 < 2 ^ eb - 1
      · rw [if_pos he]
        apply key
        rw [pack_ex _ _ _ (by omega)]
      · rw [if_neg he]
        apply key2
        unfold inf
        rw [pack_ex _ _ _ (by omega)]
        omega
    · simp only [if_neg hq2]
      by_cases he : (roundNE mb n d).2 + 2 < 2 ^ eb - 1
      · rw [if_pos he]
        apply key
        rw [pack_ex _ _ _ (by omega)]
        omega
      · rw [if_neg he]
        apply key2
        unfold inf
        rw [pack_ex _ _ _ (by omega)]
        omega

/-- Rounding moves an integer value by less than the spacing of its binade. -/
theorem ofRatio_mag_near (hcap : mb + 2 ^ eb ≤ 2 ^ 16) (sign : Bool) (n S : Nat)
    (hn : n < 2 ^ (mb + 1 + S)) (hS : S + 2 < 2 ^ eb - 1) :
    (ofRatio eb mb sign n 1).mag ≤ n + 2 ^ S ∧ n ≤ (ofRatio eb mb sign n 1).mag + 2 ^ S ∧
      (ofRatio eb mb sign n 1).ex.val < 2 ^ eb - 1 ∧ (ofRatio eb mb sign n 1).sign = sign := by
  have hs := roundNE_shift_le mb n 1 n S (by rw [Nat.mul_one]) hn
  rw [← roundNE_snd] at hs
  have hq : n / 1 < 2 ^ (2 ^ 16) := by
    rw [Nat.div_one]
    have h2 : 2 ^ (mb + 1 + S) ≤ 2 ^ (2 ^ 16) := Nat.pow_le_pow_right (by decide) (by omega)
    exact lt_of_lt_of_le hn h2
  have hfin : (roundNE mb n 1).2 + 2 < 2 ^ eb - 1 := by omega
  obtain ⟨e1, e2, e3⟩ := @ofRatio_mag_eq eb mb sign n 1 (by decide) hq hfin
  have hb := roundNE_fst_bounds mb n 1
  have hp : 2 ^ (roundNE mb n 1).2 ≤ 2 ^ S := Nat.pow_le_pow_right (by decide) hs
  have hdm := Nat.div_add_mod n (1 * 2 ^ (roundNE mb n 1).2)
  have hr := Nat.mod_lt n (Nat.mul_pos (by decide : 0 < 1) (Nat.two_pow_pos (roundNE mb n 1).2))
  rw [e1]
  generalize (roundNE mb n 1).1 = q at *
  generalize (roundNE mb n 1).2 = s at *
  rw [Nat.one_mul] at hb hdm hr
  generalize n / 2 ^ s = q0 at *
  generalize n % 2 ^ s = r at *
  have h5 : q * 2 ^ s ≤ (q0 + 1) * 2 ^ s := Nat.mul_le_mul_right _ hb.2
  have h6 : q0 * 2 ^ s ≤ q * 2 ^ s := Nat.mul_le_mul_right _ hb.1
  have h7 : (q0 + 1) * 2 ^ s = q0 * 2 ^ s + 2 ^ s := by ring
  have h8 : 2 ^ s * q0 = q0 * 2 ^ s := Nat.mul_comm _ _
  refine ⟨by omega, by omega, e2, e3⟩

end FP

/-! ## The absolute difference and the tolerance test -/

/-- The two statements `diff := a - b; if diff < 0 { diff = -diff }` compute the absolute
value of the `float32` difference: a NaN stays a NaN, and a number becomes the
non-negative number of the same magnitude. -/
theorem absDiff_spec (a b : Float32) :
    ((FP.sub a b).isNaN = true → (absDiff a b).isNaN = true) ∧
    ((FP.sub a b).isNaN = false →
      (absDiff a b).isNaN = false ∧ (absDiff a b).toInt = ((FP.sub a b).mag : Int)) := by
  have hz : zero32.isNaN = false := by decide
  have hz0 : zero32.toInt = 0 := FP.zero_toInt false
  unfold absDiff
  generalize FP.sub a b = d
  constructor
  · intro hn
    have : FP.lt d zero32 = false := by unfold FP.lt; rw [hn]; rfl
    rw [this]; exact hn
  · intro hn
    have hlt : FP.lt d zero32 = decide (d.toInt < 0) := by
      unfold FP.lt; rw [hn, hz, hz0]; rfl
    rw [hlt]
    have hb := FP.toInt_bounds d
    by_cases h : d.toInt < 0
    · rw [decide_eq_true h, if_pos rfl, FP.neg_isNaN, FP.neg_toInt]
      refine ⟨hn, ?_⟩
      have := FP.toInt_natAbs d
      omega
    · rw [decide_eq_false h, if_neg (by decide)]
      refine ⟨hn, ?_⟩
      have := FP.toInt_natAbs d
      omega

theorem tolerance_facts :
    tolerance.isNaN = false ∧ tolerance.sign = false ∧
      toleranceUp.mag = tolerance.mag + 2 ^ 116 ∧ 2 ^ 149 ≤ 1000 * tolerance.mag ∧
      2 ^ 116 ∣ tolerance.mag ∧ tolerance.mag + 2 ^ 116 < 2 ^ (23 + 1 + 116) := by
  refine ⟨by decide, by decide, by decide, by decide, ?_, by decide⟩
  exact ⟨8589935, by decide⟩

/-- The test `diff > tolerance` of `compareVectors` holds exactly when the `float32`
difference is a number whose magnitude exceeds the tolerance. -/
theorem exceeds_iff (a b : Float32) :
    FP.lt tolerance (absDiff a b) = true ↔ DiffExceeds a b := by
  obtain ⟨h1, h2⟩ := absDiff_spec a b
  have ht := tolerance_facts.1
  have hti : tolerance.toInt = tolerance.mag := FP.toInt_of_pos _ tolerance_facts.2.1
  unfold DiffExceeds
  cases hn : (FP.sub a b).isNaN
  · obtain ⟨h3, h4⟩ := h2 hn
    unfold FP.lt
    rw [ht, h3, hti, h4]
    simp only [Bool.not_false, Bool.true_and, decide_eq_true_eq, true_and]
    exact Int.ofNat_lt
  · have h3 := h1 hn
    unfold FP.lt
    rw [h3]
    simp

theorem not_exceeds_iff (a b : Float32) :
    FP.lt tolerance (absDiff a b) = false ↔ (DiffWithin a b ∨ DiffIsNaN a b) := by
  rw [← Bool.not_eq_true, exceeds_iff]
  unfold DiffExceeds DiffWithin DiffIsNaN
  cases hn : (FP.sub a b).isNaN
  · simp only [true_and, Bool.false_eq_true, or_false, not_lt]
  · simp

/-- The difference of two finite values, before rounding, is their exact difference. -/
theorem sub_of_finite (a b : Float32) (ha : Finite32 a) (hb : Finite32 b) :
    FP.sub a b =
      if a.toInt - b.toInt = 0 then FP.zero 8 23 (a.sign && !b.sign)
      else FP.ofRatio 8 23 (decide (a.toInt - b.toInt < 0)) (exactDiff a b) 1 := by
  have hnb : (FP.neg b).ex.val < 2 ^ 8 - 1 := hb
  unfold FP.sub FP.add exactDiff
  rw [FP.isNaN_false_of_finite a ha, FP.isNaN_false_of_finite _ hnb,
    FP.isInf_false_of_finite a ha, FP.isInf_false_of_finite _ hnb, FP.neg_toInt]
  simp only [Bool.or_self, Bool.false_eq_true, if_false]
  rw [← Int.sub_eq_add_neg]
  rfl

/-- An exact difference of at most `0.001` passes the test. -/
theorem diffWithin_of_exact (a b : Float32) (ha : Finite32 a) (hb : Finite32 b)
    (h : 1000 * exactDiff a b ≤ 2 ^ 149) : DiffWithin a b := by
  obtain ⟨_, _, _, t4, t5, t6⟩ := tolerance_facts
  have hle : exactDiff a b ≤ tolerance.mag := by omega
  rw [DiffWithin, sub_of_finite a b ha hb]
  by_cases h0 : a.toInt - b.toInt = 0
  · rw [if_pos h0, FP.zero_isNaN, FP.zero_mag]
    exact ⟨rfl, Nat.zero_le _⟩
  · rw [if_neg h0]
    refine ⟨FP.ofRatio_not_nan (by decide) _ _ _, ?_⟩
    exact (@FP.ofRatio_mag_le 8 23 _ (exactDiff a b) 1 tolerance.mag 116 (by decide)
      (by rw [Nat.mul_one]; exact hle) t5 (by omega) (by decide)).1

/-- An exact difference of at least the `float32` next above the tolerance fails it. -/
theorem diffExceeds_of_exact (a b : Float32) (ha : Finite32 a) (hb : Finite32 b)
    (h : toleranceUp.mag ≤ exactDiff a b) : DiffExceeds a b := by
  obtain ⟨_, _, t3, _, t5, t6⟩ := tolerance_facts
  rw [t3] at h
  have h0 : a.toInt - b.toInt ≠ 0 := by
    intro h0
    unfold exactDiff at h
    rw [h0, Int.natAbs_zero] at h
    have := Nat.two_pow_pos 116
    omega
  rw [DiffExceeds, sub_of_finite a b ha hb, if_neg h0]
  refine ⟨FP.ofRatio_not_nan (by decide) _ _ _, ?_⟩
  have := @FP.ofRatio_mag_ge 8 23 (by decide) (decide (a.toInt - b.toInt < 0))
    (exactDiff a b) 1 (tolerance.mag + 2 ^ 116) 116 (by decide)
    (by rw [Nat.mul_one]; exact h) (Nat.dvd_add t5 (Nat.dvd_refl _)) t6 (by decide)
  have hp := Nat.two_pow_pos 116
  omega

/-- C3 (amended): `compareVectors` returns true exactly when the two vectors have the same
length and at every position the `float32` difference `ref[i] - cand[i]` is NaN or is a
number of magnitude at most `float32(0.001)`.  It returns false whenever the lengths
differ, false when some difference is a number exceeding the tolerance (in either
direction), in particular a difference of `0.0011`, and true for vectors of equal length
whose differences are all zero, two empty vectors included.  On exact values of finite
entries: it returns true when every exact difference is at most `0.001`, and false when
some exact difference reaches the `float32` next above the tolerance. -/
theorem C3_compareVectors_amended (ref cand : List Float32) :
    (compareVectors ref cand = true ↔
      ref.length = cand.length ∧
      ∀ i, i < ref.length →
        (DiffWithin (ref.getD i zero32) (cand.getD i zero32) ∨
          DiffIsNaN (ref.getD i zero32) (cand.getD i zero32))) ∧
    (ref.length ≠ cand.length → compareVectors ref cand = false) ∧
    (∀ i, i < ref.length → DiffExceeds (ref.getD i zero32) (cand.getD i zero32) →
      compareVectors ref cand = false) ∧
    (∀ i, i < ref.length → (FP.sub (ref.getD i zero32) (cand.getD i zero32)).isNaN = false →
      (FP.sub (ref.getD i zero32) (cand.getD i zero32)).mag = (FP.ofFrac 8 23 11 10000).mag →
      compareVectors ref cand = false) ∧
    (ref.length = cand.length →
      (∀ i, i < ref.length → (FP.sub (ref.getD i zero32) (cand.getD i zero32)).mag = 0) →
      compareVectors ref cand = true) ∧
    (ref.length = cand.length →
      (∀ i, i < ref.length → Finite32 (ref.getD i zero32) ∧ Finite32 (cand.getD i zero32) ∧
        1000 * exactDiff (ref.getD i zero32) (cand.getD i zero32) ≤ 2 ^ 149) →
      compareVectors ref cand = true) ∧
    (∀ i, i < ref.length → Finite32 (ref.getD i zero32) → Finite32 (cand.getD i zero32) →
      toleranceUp.mag ≤ exactDiff (ref.getD i zero32) (cand.getD i zero32) →
      compareVectors ref cand = false) ∧
    compareVectors [] [] = true := by
  have hiff : compareVectors ref cand = true ↔
      ref.length = cand.length ∧
      ∀ i, i < ref.length →
        (DiffWithin (ref.getD i zero32) (cand.getD i zero32) ∨
          DiffIsNaN (ref.getD i zero32) (cand.getD i zero32)) := by
    rw [compareVectors_eq_true]
    constructor
    · rintro ⟨h1, h2⟩
      exact ⟨h1, fun i hi => (not_exceeds_iff _ _).1 (h2 i hi)⟩
    · rintro ⟨h1, h2⟩
      exact ⟨h1, fun i hi => (not_exceeds_iff _ _).2 (h2 i hi)⟩
  have hex : ∀ i, i < ref.length → DiffExceeds (ref.getD i zero32) (cand.getD i zero32) →
      compareVectors ref cand = false := by
    intro i hi hd
    cases hc : compareVectors ref cand
    · rfl
    · have h := ((compareVectors_eq_true ref cand).1 hc).2 i hi
      rw [(exceeds_iff _ _).2 hd] at h
      exact Bool.noConfusion h
  refine ⟨hiff, ?_, hex, ?_, ?_, ?_, ?_, by decide⟩
  · intro h
    cases hc : compareVectors ref cand
    · rfl
    · exact absurd (hiff.1 hc).1 h
  · intro i hi hn hm
    refine hex i hi ⟨hn, ?_⟩
    rw [hm]
    decide
  · intro h1 h2
    refine hiff.2 ⟨h1, fun i hi => Or.inl ⟨?_, ?_⟩⟩
    · have hm := h2 i hi
      have hex0 := ((FP.mag_eq_zero_iff _).1 hm).1
      rw [Bool.eq_false_iff, Ne, FP.isNaN_iff, hex0]
      intro h; exact absurd h.1 (by decide)
    · rw [h2 i hi]; exact Nat.zero_le _
  · intro h1 h2
    exact hiff.2 ⟨h1, fun i hi =>
      Or.inl (diffWithin_of_exact _ _ (h2 i hi).1 (h2 i hi).2.1 (h2 i hi).2.2)⟩
  · intro i hi ha hb h
    exact hex i hi (diffExceeds_of_exact _ _ ha hb h)

/-- C3 (amended), on concrete vectors: a candidate `95` above or below the reference fails
(both branches of the absolute value); at the threshold, a difference equal to the
tolerance passes, as does an exact difference of `1/1024`, and the next `float32` above
the tolerance fails; `[5,7,9.01]` against `[5,7,9]`
fails, and a candidate of another length fails. -/
theorem C3_compareVectors_amended_witness :
    compareVectors [FP.ofNat 8 23 5] [FP.ofNat 8 23 100] = false ∧
    compareVectors [FP.ofNat 8 23 100] [FP.ofNat 8 23 5] = false ∧
    compareVectors [tolerance] [zero32] = true ∧
    compareVectors [zero32] [tolerance] = true ∧
    compareVectors [FP.ofFrac 8 23 1 1024] [zero32] = true ∧
    compareVectors [toleranceUp] [zero32] = false ∧
    compareVectors [zero32] [toleranceUp] = false ∧
    compareVectors (natVector [5, 7, 9]).Values
      [FP.ofNat 8 23 5, FP.ofNat 8 23 7, FP.ofFrac 8 23 901 100] = false ∧
    compareVectors (natVector [5, 7, 9]).Values (natVector [5, 7]).Values = false :=
  ⟨(C3_compareVectors_amended [FP.ofNat 8 23 5] [FP.ofNat 8 23 100]).2.2.1 0 (by decide)
      ⟨by decide, by decide⟩,
    (C3_compareVectors_amended [FP.ofNat 8 23 100] [FP.ofNat 8 23 5]).2.2.1 0 (by decide)
      ⟨by decide, by decide⟩,
    (C3_compareVectors_amended [tolerance] [zero32]).1.2
      ⟨rfl, fun i hi => by
        have hi0 : i = 0 := by simpa using hi
        subst hi0
        exact Or.inl ⟨by decide, by decide⟩⟩,
    (C3_compareVectors_amended [zero32] [tolerance]).1.2
      ⟨rfl, fun i hi => by
        have hi0 : i = 0 := by simpa using hi
        subst hi0
        exact Or.inl ⟨by decide, by decide⟩⟩,
    (C3_compareVectors_amended [FP.ofFrac 8 23 1 1024] [zero32]).2.2.2.2.2.1 rfl
      (fun i hi => by
        have hi0 : i = 0 := by simpa using hi
        subst hi0
        exact ⟨by decide, by decide, by decide⟩),
    (C3_compareVectors_amended [toleranceUp] [zero32]).2.2.2.2.2.2.1 0 (by decide)
      (by decide) (by decide) (by decide),
    (C3_compareVectors_amended [zero32] [toleranceUp]).2.2.1 0 (by decide)
      ⟨by decide, by decide⟩,
    (C3_compareVectors_amended (natVector [5, 7, 9]).Values
      [FP.ofNat 8 23 5, FP.ofNat 8 23 7, FP.ofFrac 8 23 901 100]).2.2.1 2 (by decide)
      ⟨by decide, by decide⟩,
    (C3_compareVectors_amended (natVector [5, 7, 9]).Values (natVector [5, 7]).Values).2.1
      (by decide)⟩

/-- C3 fails as stated: for the reference `[1]` and the candidate `[NaN]` the lengths agree
and the difference is not at most the tolerance (it is NaN, not a number), yet
`compareVectors` returns true, because no comparison with a NaN holds. -/
theorem C3_counterexample :
    compareVectors [FP.ofNat 8 23 1] [FP.nan 8 23] = true ∧
    [FP.ofNat 8 23 1].length = [FP.nan 8 23].length ∧
    ¬ DiffWithin ([FP.ofNat 8 23 1].getD 0 zero32) ([FP.nan 8 23].getD 0 zero32) ∧
    ¬ (∀ i, i < [FP.ofNat 8 23 1].length →
        DiffWithin ([FP.ofNat 8 23 1].getD i zero32) ([FP.nan 8 23].getD i zero32)) := by
  have h : ¬ DiffWithin ([FP.ofNat 8 23 1].getD 0 zero32) ([FP.nan 8 23].getD 0 zero32) := by
    intro h
    exact absurd h.1 (by decide)
  exact ⟨by decide, rfl, h, fun hall => h (hall 0 (by decide))⟩

/-! ## Exact running sums -/

/-- A running sum that never rounds has the exact sum as its value. -/
theorem foldl_add_exact (xs : List Float32) (acc : Float32) (ht : Tidy acc)
    (hf : Finite32 acc) (hr : ExactRun acc.toInt xs) :
    Tidy (xs.foldl FP.add acc) ∧ Finite32 (xs.foldl FP.add acc) ∧
      (xs.foldl FP.add acc).toInt = acc.toInt + exactSum xs := by
  induction xs generalizing acc with
  | nil =>
    refine ⟨ht, hf, ?_⟩
    show acc.toInt = acc.toInt + 0
    rw [Int.add_zero]
  | cons x xs ih =>
    obtain ⟨hx, he, hrest⟩ := hr
    obtain ⟨e1, e2⟩ := FP.add_exact (by decide) (by decide) acc x hf hx he
    rw [← e1] at hrest
    obtain ⟨a, b, c⟩ := ih (FP.add acc x) (tidy_add acc x ht) e2 hrest
    refine ⟨a, b, ?_⟩
    show (xs.foldl FP.add (FP.add acc x)).toInt = acc.toInt + exactSum (x :: xs)
    rw [c, e1]
    unfold exactSum
    rw [List.map_cons, List.sum_cons, Int.add_assoc]

/-- Two accumulator values that are numbers of the same exact value are the same. -/
theorem tidy_eq_of_toInt (x y : Float32) (hx : Tidy x) (hy : Tidy y)
    (h : x.toInt = y.toInt) : x = y := by
  have hm : x.mag = y.mag := by
    rw [← FP.toInt_natAbs x, ← FP.toInt_natAbs y, h]
  by_cases h0 : x.mag = 0
  · have sx : x.sign = false := by
      cases hs : x.sign
      · rfl
      · exact absurd (FP.eq_of_sign_mag x (FP.zero 8 23 true) hs
          (by rw [h0, FP.zero_mag])) hx.1
    have sy : y.sign = false := by
      cases hs : y.sign
      · rfl
      · exact absurd (FP.eq_of_sign_mag y (FP.zero 8 23 true) hs
          (by rw [← hm, h0, FP.zero_mag])) hy.1
    exact FP.eq_of_sign_mag x y (by rw [sx, sy]) hm
  · have sx := FP.toInt_neg_iff x h0
    have sy := FP.toInt_neg_iff y (by rw [← hm]; exact h0)
    rw [h] at sx
    exact FP.eq_of_sign_mag x y (by rw [← sx, ← sy]) hm

theorem exactSum_perm (xs ys : List Float32) (h : xs.Perm ys) : exactSum ys = exactSum xs := by
  unfold exactSum
  exact ((h.map _).sum_eq).symm

theorem column_perm (B B2 : List Vector) (h : B.Perm B2) (i : Nat) :
    (column B i).Perm (column B2 i) := h.map _

theorem finite32_zero32 : Finite32 zero32 := by decide

/-- The entry of the aggregate at a position where the running sum never rounds. -/
theorem calculateCorrectSum_exact (first : Vector) (rest : List Vector) (i : Nat)
    (hi : i < first.Values.length) (hr : ExactRun 0 (column (first :: rest) i)) :
    Tidy ((calculateCorrectSum (first :: rest)).getD i zero32) ∧
    Finite32 ((calculateCorrectSum (first :: rest)).getD i zero32) ∧
    ((calculateCorrectSum (first :: rest)).getD i zero32).toInt =
      exactSum (column (first :: rest) i) := by
  rw [calculateCorrectSum_getD first rest i hi, foldl_colAcc_eq i _ _ tidy_zero32]
  have hz : zero32.toInt = 0 := FP.zero_toInt false
  have h := foldl_add_exact (column (first :: rest) i) zero32 tidy_zero32 finite32_zero32
    (by rw [hz]; exact hr)
  rw [hz, Int.zero_add] at h
  have e : (first :: rest).foldl (fun acc v => FP.add acc (v.Values.getD i zero32)) zero32 =
      (column (first :: rest) i).foldl FP.add zero32 := by
    unfold column; rw [List.foldl_map]
  rw [e]
  exact h

theorem ofNat32_toInt (a : Nat) (h : a < 2 ^ 24) :
    (FP.ofNat 8 23 a).toInt = ((a * 2 ^ 149 : Nat) : Int) := by
  obtain ⟨s, m, _⟩ := ofNat32_facts a h
  rw [FP.toInt_of_pos _ s, m]

/-- A column of small natural numbers is summed without rounding. -/
theorem exactRun_nat (K : List (List Nat)) (n i acc : Nat) (hi : i < n)
    (hlen : ∀ ks ∈ K, ks.length = n) (hsum : acc + colTotal K i < 2 ^ 24) :
    ExactRun ((acc * 2 ^ 149 : Nat) : Int) (column (K.map natVector) i) := by
  induction K generalizing acc with
  | nil => exact True.intro
  | cons ks K ih =>
    rw [colTotal_cons] at hsum
    have hk : ks.length = n := hlen ks (List.mem_cons_self _ _)
    have hv : (natVector ks).Values.getD i zero32 = FP.ofNat 8 23 (ks.getD i 0) :=
      natVector_getD ks i (by omega)
    have hx := ofNat32_facts (ks.getD i 0) (by omega)
    have hs := ofNat32_facts (acc + ks.getD i 0) (by omega)
    have e : ((acc * 2 ^ 149 : Nat) : Int) + (FP.ofNat 8 23 (ks.getD i 0)).toInt =
        (((acc + ks.getD i 0) * 2 ^ 149 : Nat) : Int) := by
      rw [ofNat32_toInt _ (by omega)]; push_cast; ring
    show Finite32 ((natVector ks).Values.getD i zero32) ∧
      FP.Exact 8 23 (((acc * 2 ^ 149 : Nat) : Int) + ((natVector ks).Values.getD i zero32).toInt) ∧
      ExactRun (((acc * 2 ^ 149 : Nat) : Int) + ((natVector ks).Values.getD i zero32).toInt)
        (column (K.map natVector) i)
    rw [hv, e]
    refine ⟨hx.2.2, ⟨FP.ofNat 8 23 (acc + ks.getD i 0), hs.2.2, ofNat32_toInt _ (by omega)⟩, ?_⟩
    exact ih (acc + ks.getD i 0) (fun u hu => hlen u (List.mem_cons_of_mem _ hu)) (by omega)

/-- C1 (amended): `calculateCorrectSum` returns the empty vector when the batch is empty
or its first vector is empty; otherwise a vector whose length is the first vector's length
and whose value at every position `i` below that length is the `float32` running sum of
the vectors' values at `i`, added in batch order from `0` with every addition rounded to
nearest, a vector too short for `i` contributing `0`.  This is the exact sum whenever the
values at `i` are numbers and no partial sum rounds; `[1,2,3]`, `[4,5,6]` give
`[5,7,9]`. -/
theorem C1_calculateCorrectSum_amended (vectors : List Vector) :
    ((vectors = [] ∨ ∃ first rest, vectors = first :: rest ∧ first.Values = []) →
        calculateCorrectSum vectors = []) ∧
    (∀ first rest, vectors = first :: rest → first.Values ≠ [] →
        (calculateCorrectSum vectors).length = first.Values.length ∧
        ∀ i, i < first.Values.length →
          (calculateCorrectSum vectors)[i]? = some (colSum vectors i) ∧
          (ExactRun 0 (column vectors i) →
            Finite32 (colSum vectors i) ∧
            (colSum vectors i).toInt = exactSum (column vectors i))) ∧
    calculateCorrectSum [natVector [1, 2, 3], natVector [4, 5, 6]] =
      (natVector [5, 7, 9]).Values := by
  refine ⟨?_, ?_, by decide⟩
  · rintro (h | ⟨first, rest, h, h0⟩)
    · rw [h]; rfl
    · rw [h]; unfold calculateCorrectSum; simp [h0]
  · intro first rest h hne
    subst h
    refine ⟨calculateCorrectSum_length first rest, fun i hi => ?_⟩
    have hlen : i < (calculateCorrectSum (first :: rest)).length := by
      rw [calculateCorrectSum_length]; exact hi
    have hg := calculateCorrectSum_getD first rest i hi
    rw [foldl_colAcc_eq i _ _ tidy_zero32] at hg
    have hg2 : (calculateCorrectSum (first :: rest)).getD i zero32 =
        colSum (first :: rest) i := hg
    constructor
    · rw [List.getD_eq_getElem?_getD, List.getElem?_eq_getElem hlen] at hg
      rw [List.getElem?_eq_getElem hlen]
      exact congrArg some hg
    · intro hr
      have := calculateCorrectSum_exact first rest i hi hr
      rw [hg2] at this
      exact this.2

/-- C1 (amended), at the batch `[1,2,3]`, `[4,5,6]`: length 3, the running sums at each
position, and at position 0 the running sum is the exact sum. -/
theorem C1_calculateCorrectSum_amended_witness :
    natVector [1, 2, 3] ≠ natVector [] ∧
    (calculateCorrectSum [natVector [1, 2, 3], natVector [4, 5, 6]]).length = 3 ∧
    (calculateCorrectSum [natVector [1, 2, 3], natVector [4, 5, 6]])[0]? =
      some (colSum [natVector [1, 2, 3], natVector [4, 5, 6]] 0) ∧
    (colSum [natVector [1, 2, 3], natVector [4, 5, 6]] 0).toInt =
      exactSum (column [natVector [1, 2, 3], natVector [4, 5, 6]] 0) :=
  ⟨by decide,
    ((C1_calculateCorrectSum_amended [natVector [1, 2, 3], natVector [4, 5, 6]]).2.1
      (natVector [1, 2, 3]) [natVector [4, 5, 6]] rfl (by decide)).1,
    (((C1_calculateCorrectSum_amended [natVector [1, 2, 3], natVector [4, 5, 6]]).2.1
      (natVector [1, 2, 3]) [natVector [4, 5, 6]] rfl (by decide)).2 0 (by decide)).1,
    ((((C1_calculateCorrectSum_amended [natVector [1, 2, 3], natVector [4, 5, 6]]).2.1
      (natVector [1, 2, 3]) [natVector [4, 5, 6]] rfl (by decide)).2 0 (by decide)).2
      (exactRun_nat [[1, 2, 3], [4, 5, 6]] 3 0 0 (by decide) (by decide) (by decide))).2⟩

/-- C1 fails as stated: the value is a rounded running sum, not the sum.  For the batch
`[16777216]`, `[1]`, `[1]` the result is `[16777216]`, while the values add up to
`16777218`; for the batch `[50]`, `[2 ^ -25]`, with values in `[0, 100)`, the result is
`[50]`. -/
theorem C1_counterexample :
    calculateCorrectSum [natVector [16777216], natVector [1], natVector [1]] =
      [FP.ofNat 8 23 16777216] ∧
    (FP.ofNat 8 23 16777216).toInt ≠
      exactSum (column [natVector [16777216], natVector [1], natVector [1]] 0) ∧
    calculateCorrectSum
      [{ Values := [FP.ofNat 8 23 50] }, { Values := [FP.ofFrac 8 23 1 33554432] }] =
      [FP.ofNat 8 23 50] ∧
    (FP.ofNat 8 23 50).toInt ≠
      exactSum (column
        [{ Values := [FP.ofNat 8 23 50] }, { Values := [FP.ofFrac 8 23 1 33554432] }] 0) := by
  have a1 : (FP.ofNat 8 23 16777216).toInt = ((16777216 * 2 ^ 149 : Nat) : Int) := by
    rw [FP.toInt_of_pos _ (by decide)]
    have : (FP.ofNat 8 23 16777216).mag = 16777216 * 2 ^ 149 := by decide
    rw [this]
  have a2 : (FP.ofNat 8 23 1).toInt = ((2 ^ 149 : Nat) : Int) := by
    rw [FP.toInt_of_pos _ (by decide)]
    have : (FP.ofNat 8 23 1).mag = 2 ^ 149 := by decide
    rw [this]
  have a3 : (FP.ofNat 8 23 50).toInt = ((50 * 2 ^ 149 : Nat) : Int) := by
    rw [FP.toInt_of_pos _ (by decide)]
    have : (FP.ofNat 8 23 50).mag = 50 * 2 ^ 149 := by decide
    rw [this]
  have a4 : (FP.ofFrac 8 23 1 33554432).toInt = ((2 ^ 124 : Nat) : Int) := by
    rw [FP.toInt_of_pos _ (by decide)]
    have : (FP.ofFrac 8 23 1 33554432).mag = 2 ^ 124 := by decide
    rw [this]
  refine ⟨by decide, ?_, by decide, ?_⟩
  · have e : exactSum (column [natVector [16777216], natVector [1], natVector [1]] 0) =
        (FP.ofNat 8 23 16777216).toInt +
          ((FP.ofNat 8 23 1).toInt + ((FP.ofNat 8 23 1).toInt + 0)) := rfl
    rw [e, a1, a2]
    omega
  · have e : exactSum (column
        [{ Values := [FP.ofNat 8 23 50] }, { Values := [FP.ofFrac 8 23 1 33554432] }] 0) =
        (FP.ofNat 8 23 50).toInt + ((FP.ofFrac 8 23 1 33554432).toInt + 0) := rfl
    rw [e, a3, a4]
    omega

/-! ## Reordering a batch -/

theorem add_nan_left {eb mb : Nat} (x y : FP eb mb) (h : x.isNaN = true) :
    FP.add x y = FP.nan eb mb := by
  unfold FP.add; rw [h]; rfl

theorem add_nan_right {eb mb : Nat} (x y : FP eb mb) (h : y.isNaN = true) :
    FP.add x y = FP.nan eb mb := by
  rw [FP.add_swap]; exact add_nan_left y x h

/-- The first addition of the loop, `0 + x`: a NaN becomes the canonical NaN, `-0` becomes
`+0`, and every other value is unchanged. -/
theorem zero32_add (x : Float32) :
    (x.isNaN = true → FP.add zero32 x = FP.nan 8 23) ∧
    (x = FP.zero 8 23 true → FP.add zero32 x = zero32) ∧
    (x.isNaN = false → x ≠ FP.zero 8 23 true → FP.add zero32 x = x) := by
  refine ⟨fun h => add_nan_right _ _ h, fun h => by rw [h]; decide, fun h1 h2 => ?_⟩
  rw [FP.add_swap]
  exact FP.add_posZero (by decide) (by decide) x h2 (fun h => by rw [h1] at h; cases h)

/-- The first two values of a column can be added in either order. -/
theorem first_two_swap (x y : Float32) :
    FP.add (FP.add zero32 x) y = FP.add (FP.add zero32 y) x := by
  have hnan : (FP.nan 8 23).isNaN = true := by decide
  by_cases hx : x.isNaN = true
  · rw [(zero32_add x).1 hx, add_nan_left _ y hnan, add_nan_right _ x hx]
  · have hx' : x.isNaN = false := by simpa using hx
    by_cases hy : y.isNaN = true
    · rw [(zero32_add y).1 hy, add_nan_left _ x hnan, add_nan_right _ y hy]
    · have hy' : y.isNaN = false := by simpa using hy
      by_cases zx : x = FP.zero 8 23 true
      · by_cases zy : y = FP.zero 8 23 true
        · rw [zx, zy]
        · rw [(zero32_add y).2.2 hy' zy, (zero32_add x).2.1 zx, zx,
            FP.add_negZero (by decide) (by decide) y hy', FP.add_swap]
          exact FP.add_posZero (by decide) (by decide) y zy
            (fun h => by rw [hy'] at h; cases h)
      · rw [(zero32_add x).2.2 hx' zx]
        by_cases zy : y = FP.zero 8 23 true
        · rw [(zero32_add y).2.1 zy, zy, FP.add_negZero (by decide) (by decide) x hx',
            FP.add_swap]
          exact (FP.add_posZero (by decide) (by decide) x zx
            (fun h => by rw [hx'] at h; cases h)).symm
        · rw [(zero32_add y).2.2 hy' zy]
          exact FP.add_swap x y

/-- Swapping the first two vectors of a batch, when they have the same length, does not
change the aggregate, whatever the values. -/
theorem calculateCorrectSum_swap (a b : Vector) (rest : List Vector)
    (h : a.Values.length = b.Values.length) :
    calculateCorrectSum (b :: a :: rest) = calculateCorrectSum (a :: b :: rest) := by
  apply List.ext_getElem?
  intro i
  by_cases hi : i < a.Values.length
  · have hb : i < b.Values.length := by omega
    have l1 : i < (calculateCorrectSum (b :: a :: rest)).length := by
      rw [calculateCorrectSum_length]; exact hb
    have l2 : i < (calculateCorrectSum (a :: b :: rest)).length := by
      rw [calculateCorrectSum_length]; exact hi
    have g1 := calculateCorrectSum_getD b (a :: rest) i hb
    have g2 := calculateCorrectSum_getD a (b :: rest) i hi
    have c1 : ∀ acc, colAcc i acc a = FP.add acc (a.Values.getD i zero32) := by
      intro acc; unfold colAcc; rw [if_pos hi]
    have c2 : ∀ acc, colAcc i acc b = FP.add acc (b.Values.getD i zero32) := by
      intro acc; unfold colAcc; rw [if_pos hb]
    rw [List.foldl_cons, List.foldl_cons, c2, c1] at g1
    rw [List.foldl_cons, List.foldl_cons, c1, c2, first_two_swap, ← g1] at g2
    rw [List.getD_eq_getElem?_getD, List.getD_eq_getElem?_getD, List.getElem?_eq_getElem l1,
      List.getElem?_eq_getElem l2] at g2
    rw [List.getElem?_eq_getElem l1, List.getElem?_eq_getElem l2]
    exact (congrArg some g2).symm
  · rw [List.getElem?_eq_none (by rw [calculateCorrectSum_length]; omega),
      List.getElem?_eq_none (by rw [calculateCorrectSum_length]; omega)]

/-- Reordering a batch of equally long vectors does not change the aggregate when the
running sums in both orders never round. -/
theorem calculateCorrectSum_perm_exact (B B2 : List Vector) (n : Nat) (hperm : B.Perm B2)
    (hlen : ∀ v ∈ B, v.Values.length = n)
    (hr : ∀ i, i < n → ExactRun 0 (column B i) ∧ ExactRun 0 (column B2 i)) :
    calculateCorrectSum B2 = calculateCorrectSum B := by
  have hlen2 : ∀ v ∈ B2, v.Values.length = n := fun v h => hlen v (hperm.mem_iff.2 h)
  cases B with
  | nil => rw [List.nil_perm.1 hperm]
  | cons f1 r1 =>
    cases B2 with
    | nil => exact absurd (List.perm_nil.1 hperm) (List.cons_ne_nil _ _)
    | cons f2 r2 =>
      have h1 : f1.Values.length = n := hlen f1 (List.mem_cons_self _ _)
      have h2 : f2.Values.length = n := hlen2 f2 (List.mem_cons_self _ _)
      apply List.ext_getElem?
      intro i
      by_cases hi : i < n
      · have l1 : i < (calculateCorrectSum (f1 :: r1)).length := by
          rw [calculateCorrectSum_length, h1]; exact hi
        have l2 : i < (calculateCorrectSum (f2 :: r2)).length := by
          rw [calculateCorrectSum_length, h2]; exact hi
        obtain ⟨t1, _, e1⟩ := calculateCorrectSum_exact f1 r1 i (by omega) (hr i hi).1
        obtain ⟨t2, _, e2⟩ := calculateCorrectSum_exact f2 r2 i (by omega) (hr i hi).2
        have he := tidy_eq_of_toInt _ _ t2 t1
          (by rw [e2, e1]; exact exactSum_perm _ _ (column_perm _ _ hperm i))
        rw [List.getD_eq_getElem?_getD, List.getD_eq_getElem?_getD,
          List.getElem?_eq_getElem l1, List.getElem?_eq_getElem l2] at he
        rw [List.getElem?_eq_getElem l1, List.getElem?_eq_getElem l2]
        exact congrArg some he
      · rw [List.getElem?_eq_none (by rw [calculateCorrectSum_length]; omega),
          List.getElem?_eq_none (by rw [calculateCorrectSum_length]; omega)]

/-- Reordering a batch of equally long vectors of small natural numbers does not change
the aggregate. -/
theorem calculateCorrectSum_perm_nat (K K2 : List (List Nat)) (n : Nat) (hperm : K.Perm K2)
    (hlen : ∀ ks ∈ K, ks.length = n) (hsum : ∀ i, i < n → colTotal K i < 2 ^ 24) :
    calculateCorrectSum (K2.map natVector) = calculateCorrectSum (K.map natVector) := by
  have hlen2 : ∀ ks ∈ K2, ks.length = n := fun ks h => hlen ks (hperm.mem_iff.2 h)
  by_cases hK : K = []
  · subst hK
    rw [List.nil_perm.1 hperm]
  · have hK2 : K2 ≠ [] := fun h => hK (by subst h; exact List.perm_nil.1 hperm)
    rw [calculateCorrectSum_nat K n hK hlen hsum,
      calculateCorrectSum_nat K2 n hK2 hlen2
        (fun i hi => by rw [colTotal_perm K K2 hperm]; exact hsum i hi)]
    apply List.map_congr_left
    intro i _
    rw [colTotal_perm K K2 hperm]

/-- C2 (amended): reordering a batch leaves `calculateCorrectSum` unchanged in these
cases.  Swapping the first two vectors, when they have the same length, never changes it,
for arbitrary `float32` values (so every reordering of a batch of two equally long
vectors is covered).  For a batch whose vectors all have the same length, every
reordering has the same aggregate whenever at every position the values are numbers and
the running sums of both orders never round; this holds in particular when the values
are natural numbers with every column total below `2 ^ 24`. -/
theorem C2_reorder_amended :
    (∀ (a b : Vector) (rest : List Vector), a.Values.length = b.Values.length →
      calculateCorrectSum (b :: a :: rest) = calculateCorrectSum (a :: b :: rest)) ∧
    (∀ (B B2 : List Vector) (n : Nat), B.Perm B2 → (∀ v ∈ B, v.Values.length = n) →
      (∀ i, i < n → ExactRun 0 (column B i) ∧ ExactRun 0 (column B2 i)) →
      calculateCorrectSum B2 = calculateCorrectSum B) ∧
    (∀ (K K2 : List (List Nat)) (n : Nat), K.Perm K2 → (∀ ks ∈ K, ks.length = n) →
      (∀ i, i < n → colTotal K i < 2 ^ 24) →
      (∀ i, i < n → ExactRun 0 (column (K.map natVector) i) ∧
        ExactRun 0 (column (K2.map natVector) i)) ∧
      calculateCorrectSum (K2.map natVector) = calculateCorrectSum (K.map natVector)) := by
  refine ⟨calculateCorrectSum_swap, calculateCorrectSum_perm_exact, ?_⟩
  intro K K2 n hperm hlen hsum
  refine ⟨fun i hi => ⟨?_, ?_⟩, calculateCorrectSum_perm_nat K K2 n hperm hlen hsum⟩
  · have := exactRun_nat K n i 0 hi hlen (by rw [Nat.zero_add]; exact hsum i hi)
    rw [Nat.zero_mul] at this
    exact this
  · have := exactRun_nat K2 n i 0 hi (fun ks h => hlen ks (hperm.mem_iff.2 h))
      (by rw [Nat.zero_add, colTotal_perm K K2 hperm]; exact hsum i hi)
    rw [Nat.zero_mul] at this
    exact this

/-- C2 (amended), on concrete batches: the swap of `[0.1, NaN]` and `[-0, +Inf]`, of
`[0.1, 0.2]` and `[0.3, 100]` before a third vector of another length, and the swap of
`[1,2,3]` and `[4,5,6]`. -/
theorem C2_reorder_amended_witness :
    calculateCorrectSum
        [{ Values := [FP.zero 8 23 true, FP.inf 8 23 false] },
          { Values := [FP.ofFrac 8 23 1 10, FP.nan 8 23] }] =
      calculateCorrectSum
        [{ Values := [FP.ofFrac 8 23 1 10, FP.nan 8 23] },
          { Values := [FP.zero 8 23 true, FP.inf 8 23 false] }] ∧
    calculateCorrectSum
        [{ Values := [FP.ofFrac 8 23 3 10, FP.ofNat 8 23 100] },
          { Values := [FP.ofFrac 8 23 1 10, FP.ofFrac 8 23 2 10] },
          { Values := [FP.ofFrac 8 23 7 10] }] =
      calculateCorrectSum
        [{ Values := [FP.ofFrac 8 23 1 10, FP.ofFrac 8 23 2 10] },
          { Values := [FP.ofFrac 8 23 3 10, FP.ofNat 8 23 100] },
          { Values := [FP.ofFrac 8 23 7 10] }] ∧
    calculateCorrectSum ([[4, 5, 6], [1, 2, 3]].map natVector) =
      calculateCorrectSum ([[1, 2, 3], [4, 5, 6]].map natVector) :=
  ⟨C2_reorder_amended.1 { Values := [FP.ofFrac 8 23 1 10, FP.nan 8 23] }
      { Values := [FP.zero 8 23 true, FP.inf 8 23 false] } [] rfl,
    C2_reorder_amended.1 { Values := [FP.ofFrac 8 23 1 10, FP.ofFrac 8 23 2 10] }
      { Values := [FP.ofFrac 8 23 3 10, FP.ofNat 8 23 100] }
      [{ Values := [FP.ofFrac 8 23 7 10] }] rfl,
    (C2_reorder_amended.2.2 [[1, 2, 3], [4, 5, 6]] [[4, 5, 6], [1, 2, 3]] 3
      (List.Perm.swap _ _ _) (by decide) (by decide)).2⟩

/-- C2 fails as stated.  The length of the result is the length of the first vector, so
swapping `[1]` and `[1,2]` changes the aggregate; and `float32` addition rounds, so moving
`16777216` from the front of the batch `[16777216]`, `[1]`, `[1]` to its end changes the
aggregate from `[16777216]` to `[16777218]`; the same happens with values between 0 and
100: moving `64` from the front of `[64]`, `[2^-18]`, `[2^-18]` to its end changes the
aggregate. -/
theorem C2_counterexample :
    List.Perm [natVector [1], natVector [1, 2]] [natVector [1, 2], natVector [1]] ∧
    calculateCorrectSum [natVector [1], natVector [1, 2]] = (natVector [2]).Values ∧
    calculateCorrectSum [natVector [1, 2], natVector [1]] = (natVector [2, 2]).Values ∧
    calculateCorrectSum [natVector [1, 2], natVector [1]] ≠
      calculateCorrectSum [natVector [1], natVector [1, 2]] ∧
    List.Perm [natVector [16777216], natVector [1], natVector [1]]
      [natVector [1], natVector [1], natVector [16777216]] ∧
    calculateCorrectSum [natVector [16777216], natVector [1], natVector [1]] =
      (natVector [16777216]).Values ∧
    calculateCorrectSum [natVector [1], natVector [1], natVector [16777216]] =
      (natVector [16777218]).Values ∧
    calculateCorrectSum [natVector [1], natVector [1], natVector [16777216]] ≠
      calculateCorrectSum [natVector [16777216], natVector [1], natVector [1]] ∧
    @List.Perm Vector
      [{ Values := [FP.ofNat 8 23 64] }, { Values := [FP.ofFrac 8 23 1 262144] },
        { Values := [FP.ofFrac 8 23 1 262144] }]
      [{ Values := [FP.ofFrac 8 23 1 262144] }, { Values := [FP.ofFrac 8 23 1 262144] },
        { Values := [FP.ofNat 8 23 64] }] ∧
    calculateCorrectSum
        [{ Values := [FP.ofNat 8 23 64] }, { Values := [FP.ofFrac 8 23 1 262144] },
          { Values := [FP.ofFrac 8 23 1 262144] }] = [FP.ofNat 8 23 64] ∧
    calculateCorrectSum
        [{ Values := [FP.ofFrac 8 23 1 262144] }, { Values := [FP.ofFrac 8 23 1 262144] },
          { Values := [FP.ofNat 8 23 64] }] = [FP.ofFrac 8 23 8388609 131072] := by
  refine ⟨List.Perm.swap _ _ _, by decide, by decide, by decide, ?_, by decide, by decide,
    by decide, ?_, by decide, by decide⟩
  · exact @List.perm_append_comm _ [natVector [16777216]] [natVector [1], natVector [1]]
  · exact @List.perm_append_comm Vector [{ Values := [FP.ofNat 8 23 64] }]
      [{ Values := [FP.ofFrac 8 23 1 262144] }, { Values := [FP.ofFrac 8 23 1 262144] }]

/-! ## The reputation update -/

namespace FP

variable {eb mb : Nat}

theorem scaled_facts (heb : 2 ≤ eb) (hmb : mb + 1 ≤ 2 ^ (eb - 1)) (a : Nat)
    (h : a < 2 ^ (mb + 1)) :
    2 ^ (ilog2 (a * 2 ^ unitExp eb mb) - mb) ∣ a * 2 ^ unitExp eb mb ∧
      a * 2 ^ unitExp eb mb < 2 ^ (mb + (2 ^ eb - 2)) := by
  have hB : a * 2 ^ unitExp eb mb < 2 ^ (mb + 1 + unitExp eb mb) := by
    rw [pow_add]
    exact Nat.mul_lt_mul_of_pos_right h (Nat.two_pow_pos _)
  have hs : ilog2 (a * 2 ^ unitExp eb mb) - mb ≤ unitExp eb mb := by
    by_cases h0 : a * 2 ^ unitExp eb mb = 0
    · rw [h0, ilog2_zero]; omega
    · have h1 := ilog2_le h0
      have : ilog2 (a * 2 ^ unitExp eb mb) < mb + 1 + unitExp eb mb := by
        by_contra hc
        have h2 : 2 ^ (mb + 1 + unitExp eb mb) ≤ 2 ^ ilog2 (a * 2 ^ unitExp eb mb) :=
          Nat.pow_le_pow_right (by decide) (not_lt.1 hc)
        exact absurd (lt_of_le_of_lt (le_trans h2 h1) hB) (lt_irrefl _)
      omega
  refine ⟨Dvd.dvd.mul_left (Nat.pow_dvd_pow 2 hs) a, lt_of_lt_of_le hB
    (Nat.pow_le_pow_right (by decide) ?_)⟩
  have e : eb = (eb - 1) + 1 := by omega
  have h2 : 2 ^ eb = 2 * 2 ^ (eb - 1) := by
    conv_lhs => rw [e]
    exact pow_succ' 2 (eb - 1)
  have h3 : 2 ^ 1 ≤ 2 ^ (eb - 1) := Nat.pow_le_pow_right (by decide) (by omega)
  clear hB hs h
  unfold unitExp
  omega

theorem neg_ex (x : FP eb mb) : (neg x).ex = x.ex := rfl

/-- A natural number below `2 ^ (mb + 1)` converts exactly. -/
theorem ofNat_facts (heb : 2 ≤ eb) (hcap : mb + 2 ^ eb ≤ 2 ^ 16) (hmb : mb + 1 ≤ 2 ^ (eb - 1))
    (a : Nat) (h : a < 2 ^ (mb + 1)) :
    (ofNat eb mb a).sign = false ∧ (ofNat eb mb a).mag = a * 2 ^ unitExp eb mb ∧
      (ofNat eb mb a).ex.val < 2 ^ eb - 1 := by
  have e : ofNat eb mb a = ofRatio eb mb false (a * 2 ^ unitExp eb mb * 1) 1 := by
    unfold ofNat
    rw [Nat.shiftLeft_eq, Nat.mul_one]
  obtain ⟨hdiv, hB2⟩ := scaled_facts heb hmb a h
  rw [e]
  exact ofRatio_exact heb hcap false (a * 2 ^ unitExp eb mb) 1 (by decide) hdiv hB2

/-- An integer of magnitude below `2 ^ (mb + 1)` is the value of a finite bit pattern. -/
theorem exact_of_int (heb : 2 ≤ eb) (hcap : mb + 2 ^ eb ≤ 2 ^ 16)
    (hmb : mb + 1 ≤ 2 ^ (eb - 1)) (z : Int) (hz : z.natAbs < 2 ^ (mb + 1)) :
    Exact eb mb (z * ((2 ^ unitExp eb mb : Nat) : Int)) := by
  obtain ⟨hdiv, hB2⟩ := scaled_facts heb hmb z.natAbs hz
  obtain ⟨fs, fm, ff⟩ := ofRatio_exact heb hcap (decide (z < 0))
    (z.natAbs * 2 ^ unitExp eb mb) 1 (by decide) hdiv hB2
  refine ⟨_, ff, ?_⟩
  by_cases hneg : z < 0
  · rw [toInt_of_neg _ (by rw [fs]; exact decide_eq_true hneg), fm]
    have : (z.natAbs : Int) = -z := by omega
    rw [Nat.cast_mul, this]
    ring
  · rw [toInt_of_pos _ (by rw [fs]; exact decide_eq_false hneg), fm]
    have : (z.natAbs : Int) = z := by omega
    rw [Nat.cast_mul, this]

end FP

theorem unit64_eq : unit64 = 2 ^ FP.unitExp 11 52 := by
  unfold unit64
  rw [Nat.shiftLeft_eq, Nat.one_mul]

theorem unit64_pos : 0 < unit64 := by
  rw [unit64_eq]; exact Nat.two_pow_pos _

/-- A natural number below `2 ^ 53` converts to `float64` exactly. -/
theorem ofNat64_toInt (a : Nat) (h : a < 2 ^ 53) :
    (FP.ofNat 11 52 a).toInt = (a : Int) * (unit64 : Int) ∧ Finite64 (FP.ofNat 11 52 a) := by
  obtain ⟨fs, fm, ff⟩ := @FP.ofNat_facts 11 52 (by decide) (by decide) (by decide) a h
  refine ⟨?_, ff⟩
  rw [FP.toInt_of_pos _ fs, fm, unit64_eq, Nat.cast_mul]

/-- A `float64` whose value is an integer of magnitude below `2 ^ 53` is finite. -/
theorem finite64_of_int (x : Float64) (r : Int) (hr : x.toInt = r * (unit64 : Int))
    (hb : r.natAbs < 2 ^ 53) : Finite64 x := by
  by_contra hc
  have hex : x.ex.val = 2 ^ 11 - 1 := by
    have := x.ex.isLt
    have h1 : ¬ x.ex.val < 2 ^ 11 - 1 := hc
    omega
  have hU : FP.unitExp 11 52 = 1074 := by decide
  have hlow := FP.mag_lower x (by rw [hex]; decide)
  have hm : x.mag = r.natAbs * unit64 := by
    rw [← FP.toInt_natAbs, hr, Int.natAbs_mul, Int.natAbs_ofNat]
  have hlt : x.mag < 2 ^ (53 + FP.unitExp 11 52) := by
    rw [hm, unit64_eq, pow_add]
    exact Nat.mul_lt_mul_of_pos_right hb (Nat.two_pow_pos _)
  have hle : 2 ^ (53 + FP.unitExp 11 52) ≤ 2 ^ (52 + (x.ex.val - 1)) :=
    Nat.pow_le_pow_right (by decide) (by rw [hU, hex]; decide)
  exact absurd (lt_of_lt_of_le hlt (le_trans hle hlow)) (lt_irrefl _)

/-- The value of the reputation after `reputation += a`, for an amount `a ≤ 300`. -/
theorem reputation_add_value (x : Float64) (a : Nat) (ha : a ≤ 300) :
    (Finite64 x → FP.Exact 11 52 (x.toInt + (a : Int) * (unit64 : Int)) →
      Finite64 (FP.add x (FP.ofNat 11 52 a)) ∧
      (FP.add x (FP.ofNat 11 52 a)).toInt = x.toInt + (a : Int) * (unit64 : Int)) ∧
    (∀ r : Int, x.toInt = r * (unit64 : Int) → r.natAbs + 300 < 2 ^ 53 →
      Finite64 (FP.add x (FP.ofNat 11 52 a)) ∧
      (FP.add x (FP.ofNat 11 52 a)).toInt = (r + (a : Int)) * (unit64 : Int)) := by
  obtain ⟨ya, yf⟩ := ofNat64_toInt a (by omega)
  have gen : Finite64 x → FP.Exact 11 52 (x.toInt + (a : Int) * (unit64 : Int)) →
      Finite64 (FP.add x (FP.ofNat 11 52 a)) ∧
      (FP.add x (FP.ofNat 11 52 a)).toInt = x.toInt + (a : Int) * (unit64 : Int) := by
    intro hx hz
    rw [← ya] at hz
    obtain ⟨h1, h2⟩ := FP.add_exact (by decide) (by decide) x (FP.ofNat 11 52 a) hx yf hz
    rw [ya] at h1
    exact ⟨h2, h1⟩
  refine ⟨gen, fun r hr hb => ?_⟩
  have hx := finite64_of_int x r hr (by omega)
  have hz : FP.Exact 11 52 (x.toInt + (a : Int) * (unit64 : Int)) := by
    have := @FP.exact_of_int 11 52 (by decide) (by decide) (by decide) (r + (a : Int))
      (by omega)
    rw [← unit64_eq] at this
    rw [hr, ← add_mul]
    exact this
  obtain ⟨h1, h2⟩ := gen hx hz
  refine ⟨h1, ?_⟩
  rw [h2, hr, add_mul]

/-- The value of the reputation after `reputation -= a`, for an amount `a ≤ 300`. -/
theorem reputation_sub_value (x : Float64) (a : Nat) (ha : a ≤ 300) :
    (Finite64 x → FP.Exact 11 52 (x.toInt - (a : Int) * (unit64 : Int)) →
      Finite64 (FP.sub x (FP.ofNat 11 52 a)) ∧
      (FP.sub x (FP.ofNat 11 52 a)).toInt = x.toInt - (a : Int) * (unit64 : Int)) ∧
    (∀ r : Int, x.toInt = r * (unit64 : Int) → r.natAbs + 300 < 2 ^ 53 →
      Finite64 (FP.sub x (FP.ofNat 11 52 a)) ∧
      (FP.sub x (FP.ofNat 11 52 a)).toInt = (r - (a : Int)) * (unit64 : Int)) := by
  obtain ⟨ya, yf⟩ := ofNat64_toInt a (by omega)
  have yn : (FP.neg (FP.ofNat 11 52 a)).toInt = -((a : Int) * (unit64 : Int)) := by
    rw [FP.neg_toInt, ya]
  have ynf : Finite64 (FP.neg (FP.ofNat 11 52 a)) := by
    show (FP.neg (FP.ofNat 11 52 a)).ex.val < 2 ^ 11 - 1
    rw [FP.neg_ex]
    exact yf
  have gen : Finite64 x → FP.Exact 11 52 (x.toInt - (a : Int) * (unit64 : Int)) →
      Finite64 (FP.sub x (FP.ofNat 11 52 a)) ∧
      (FP.sub x (FP.ofNat 11 52 a)).toInt = x.toInt - (a : Int) * (unit64 : Int) := by
    intro hx hz
    rw [sub_eq_add_neg, ← yn] at hz
    obtain ⟨h1, h2⟩ := FP.add_exact (by decide) (by decide) x (FP.neg (FP.ofNat 11 52 a)) hx
      ynf hz
    rw [yn, ← sub_eq_add_neg] at h1
    exact ⟨h2, h1⟩
  refine ⟨gen, fun r hr hb => ?_⟩
  have hx := finite64_of_int x r hr (by omega)
  have hz : FP.Exact 11 52 (x.toInt - (a : Int) * (unit64 : Int)) := by
    have := @FP.exact_of_int 11 52 (by decide) (by decide) (by decide) (r - (a : Int))
      (by omega)
    rw [← unit64_eq] at this
    rw [hr, ← sub_mul]
    exact this
  obtain ⟨h1, h2⟩ := gen hx hz
  refine ⟨h1, ?_⟩
  rw [h2, hr, sub_mul]

/-- C5 (amended): the reputation update of each branch, as `float64` operations and in
value.  If `correctSums` changed, the new reputation is the `float64` sum of the old one
and an integer amount in `[100, 180]`; if `incorrectSums` changed, the `float64`
difference of the old one and an integer amount in `[150, 250]`; if `crashes` changed,
the `float64` difference of the old one and `300`.  The new reputation has exactly the
value of the old one plus (minus) the amount whenever the old reputation is a number and
that exact result is the value of a finite `float64`; this is so in particular whenever
the old reputation is an integer `r` with `|r| + 300 < 2 ^ 53`.  Values are in units of
the least subnormal, `1.0` being `unit64`. -/
theorem C5_reputation_update_amended (s : VectorServer) (d : Draws) (req : VectorRequest) :
    ((SumVectors s d req).1.correctSums ≠ s.correctSums →
      100 ≤ 100 + Intn d.reward 81 ∧ 100 + Intn d.reward 81 ≤ 180 ∧
      (SumVectors s d req).1.reputation =
        FP.add s.reputation (FP.ofNat 11 52 (100 + Intn d.reward 81)) ∧
      (Finite64 s.reputation →
        FP.Exact 11 52
          (s.reputation.toInt + ((100 + Intn d.reward 81 : Nat) : Int) * (unit64 : Int)) →
        Finite64 (SumVectors s d req).1.reputation ∧
        (SumVectors s d req).1.reputation.toInt =
          s.reputation.toInt + ((100 + Intn d.reward 81 : Nat) : Int) * (unit64 : Int)) ∧
      (∀ r : Int, s.reputation.toInt = r * (unit64 : Int) → r.natAbs + 300 < 2 ^ 53 →
        Finite64 (SumVectors s d req).1.reputation ∧
        (SumVectors s d req).1.reputation.toInt =
          (r + ((100 + Intn d.reward 81 : Nat) : Int)) * (unit64 : Int))) ∧
    ((SumVectors s d req).1.incorrectSums ≠ s.incorrectSums →
      150 ≤ 150 + Intn d.penalty 101 ∧ 150 + Intn d.penalty 101 ≤ 250 ∧
      (SumVectors s d req).1.reputation =
        FP.sub s.reputation (FP.ofNat 11 52 (150 + Intn d.penalty 101)) ∧
      (Finite64 s.reputation →
        FP.Exact 11 52
          (s.reputation.toInt - ((150 + Intn d.penalty 101 : Nat) : Int) * (unit64 : Int)) →
        Finite64 (SumVectors s d req).1.reputation ∧
        (SumVectors s d req).1.reputation.toInt =
          s.reputation.toInt - ((150 + Intn d.penalty 101 : Nat) : Int) * (unit64 : Int)) ∧
      (∀ r : Int, s.reputation.toInt = r * (unit64 : Int) → r.natAbs + 300 < 2 ^ 53 →
        Finite64 (SumVectors s d req).1.reputation ∧
        (SumVectors s d req).1.reputation.toInt =
          (r - ((150 + Intn d.penalty 101 : Nat) : Int)) * (unit64 : Int))) ∧
    ((SumVectors s d req).1.crashes ≠ s.crashes →
      (SumVectors s d req).1.reputation = FP.sub s.reputation (FP.ofNat 11 52 300) ∧
      (Finite64 s.reputation →
        FP.Exact 11 52 (s.reputation.toInt - ((300 : Nat) : Int) * (unit64 : Int)) →
        Finite64 (SumVectors s d req).1.reputation ∧
        (SumVectors s d req).1.reputation.toInt =
          s.reputation.toInt - ((300 : Nat) : Int) * (unit64 : Int)) ∧
      (∀ r : Int, s.reputation.toInt = r * (unit64 : Int) → r.natAbs + 300 < 2 ^ 53 →
        Finite64 (SumVectors s d req).1.reputation ∧
        (SumVectors s d req).1.reputation.toInt =
          (r - ((300 : Nat) : Int)) * (unit64 : Int))) := by
  have hrew := Intn_lt d.reward 81 (by decide)
  have hpen := Intn_lt d.penalty 101 (by decide)
  cases h1 : FP.lt d.crash s.crashProb
  · cases h2 : FP.lt d.fail s.failProb
    · rw [SumVectors_correct s d req h1 h2]
      refine ⟨fun _ => ⟨by omega, by omega, rfl, ?_⟩, fun h => absurd rfl h,
        fun h => absurd rfl h⟩
      exact reputation_add_value s.reputation (100 + Intn d.reward 81) (by omega)
    · rw [SumVectors_incorrect s d req h1 h2]
      refine ⟨fun h => absurd rfl h, fun _ => ⟨by omega, by omega, rfl, ?_⟩,
        fun h => absurd rfl h⟩
      exact reputation_sub_value s.reputation (150 + Intn d.penalty 101) (by omega)
  · rw [SumVectors_crash s d req h1]
    refine ⟨fun h => absurd rfl h, fun h => absurd rfl h, fun _ => ⟨rfl, ?_⟩⟩
    exact reputation_sub_value s.reputation 300 (by omega)

/-- C5 (amended), at fresh nodes with reputation `1000`: a correct answer with reward
draw `0` gives `1100`, an incorrect answer with penalty draw `0` gives `850`, a crash
gives `700`; and a crash at reputation `200` gives `-100`. -/
theorem C5_reputation_update_amended_witness :
    (SumVectors (NewVectorServer 1 (FP.ofNat 11 52 0) (FP.ofNat 11 52 0) (FP.ofNat 11 52 1000))
        zeroDraws { Vectors := [] }).1.reputation.toInt = 1100 * (unit64 : Int) ∧
    (SumVectors failingNode zeroDraws { Vectors := [] }).1.reputation.toInt =
      850 * (unit64 : Int) ∧
    (SumVectors crashingNode zeroDraws { Vectors := [] }).1.reputation.toInt =
      700 * (unit64 : Int) ∧
    (SumVectors (NewVectorServer 1 (FP.ofNat 11 52 0) one64 (FP.ofNat 11 52 200))
        zeroDraws { Vectors := [] }).1.reputation.toInt = -100 * (unit64 : Int) :=
  ⟨(((C5_reputation_update_amended
        (NewVectorServer 1 (FP.ofNat 11 52 0) (FP.ofNat 11 52 0) (FP.ofNat 11 52 1000))
        zeroDraws { Vectors := [] }).1 (by decide)).2.2.2.2 1000
      (ofNat64_toInt 1000 (by decide)).1 (by decide)).2,
    (((C5_reputation_update_amended failingNode zeroDraws { Vectors := [] }).2.1
      (by decide)).2.2.2.2 1000 (ofNat64_toInt 1000 (by decide)).1 (by decide)).2,
    (((C5_reputation_update_amended crashingNode zeroDraws { Vectors := [] }).2.2
      (by decide)).2.2 1000 (ofNat64_toInt 1000 (by decide)).1 (by decide)).2,
    (((C5_reputation_update_amended
        (NewVectorServer 1 (FP.ofNat 11 52 0) one64 (FP.ofNat 11 52 200))
        zeroDraws { Vectors := [] }).2.2 (by decide)).2.2 200
      (ofNat64_toInt 200 (by decide)).1 (by decide)).2⟩

/-- C5 fails as stated: at reputation `2 ^ 60` a correct answer increments `correctSums`
and leaves the reputation as it was (the `float64` sum with `100` rounds back), so the
new reputation is not the old one plus an amount of at least `100`. -/
theorem C5_counterexample :
    (SumVectors (NewVectorServer 1 (FP.ofNat 11 52 0) (FP.ofNat 11 52 0)
        (FP.ofNat 11 52 1152921504606846976)) zeroDraws { Vectors := [] }).1.correctSums =
      (NewVectorServer 1 (FP.ofNat 11 52 0) (FP.ofNat 11 52 0)
        (FP.ofNat 11 52 1152921504606846976)).correctSums + 1 ∧
    Finite64 (FP.ofNat 11 52 1152921504606846976) ∧
    (SumVectors (NewVectorServer 1 (FP.ofNat 11 52 0) (FP.ofNat 11 52 0)
        (FP.ofNat 11 52 1152921504606846976)) zeroDraws { Vectors := [] }).1.reputation =
      FP.ofNat 11 52 1152921504606846976 ∧
    ∀ a : Int, 100 ≤ a →
      (SumVectors (NewVectorServer 1 (FP.ofNat 11 52 0) (FP.ofNat 11 52 0)
        (FP.ofNat 11 52 1152921504606846976)) zeroDraws { Vectors := [] }).1.reputation.toInt ≠
      (FP.ofNat 11 52 1152921504606846976).toInt + a * (unit64 : Int) := by
  have hrep : (SumVectors (NewVectorServer 1 (FP.ofNat 11 52 0) (FP.ofNat 11 52 0)
      (FP.ofNat 11 52 1152921504606846976)) zeroDraws { Vectors := [] }).1.reputation =
      FP.ofNat 11 52 1152921504606846976 := by decide
  refine ⟨by decide, by decide, hrep, fun a ha h => ?_⟩
  rw [hrep] at h
  have hu : (0 : Int) < (unit64 : Int) := by exact_mod_cast unit64_pos
  have : 0 < a * (unit64 : Int) := Int.mul_pos (by omega) hu
  omega

/-! ## Detection of a perturbed answer -/

theorem le_toInt {eb mb : Nat} (a b : FP eb mb) (h : FP.le a b = true) :
    a.isNaN = false ∧ b.isNaN = false ∧ a.toInt ≤ b.toInt := by
  unfold FP.le at h
  simp only [Bool.and_eq_true, Bool.not_eq_true', decide_eq_true_eq] at h
  exact ⟨h.1.1, h.1.2, h.2⟩

theorem unit_toInt (x : Float32) (h : InUnit32 x) : x.toInt = (x.mag : Int) := by
  obtain ⟨_, _, _, hs⟩ := mag_lt_of_unit x h
  cases hsx : x.sign
  · exact FP.toInt_of_pos x hsx
  · rw [FP.toInt_of_neg x hsx, hs hsx]; rfl

theorem mul_ten_eq (x : Float32) (hn : x.isNaN = false) (hi : x.isInf = false) :
    FP.mul x (FP.ofNat 8 23 10) =
      FP.ofRatio 8 23 x.sign (x.mag * (10 * 2 ^ 149)) (2 ^ 149) := by
  have t1 : (FP.ofNat 8 23 10).isNaN = false := by decide
  have t2 : (FP.ofNat 8 23 10).isInf = false := by decide
  have t3 : (FP.ofNat 8 23 10).mag = 10 * 2 ^ 149 := by decide
  have t4 : (FP.ofNat 8 23 10).sign = false := by decide
  have t5 : 1 <<< FP.unitExp 8 23 = 2 ^ 149 := by decide
  unfold FP.mul
  rw [hn, hi, t1, t2, t3, t4, t5]
  simp

/-- For a draw away from the centre the offset `rand.Float32() * 10 - 5` is a number of
magnitude between `2 ^ -9` and `5`. -/
theorem noiseOffset_far (x : Float32) (h : InUnit32 x) (hf : OffCentre x) :
    Finite32 (noiseOffset x) ∧ 2 ^ 140 ≤ (noiseOffset x).mag ∧
      (noiseOffset x).mag ≤ 5 * 2 ^ 149 := by
  obtain ⟨hn, hi, hm, hs⟩ := mag_lt_of_unit x h
  obtain ⟨pn, pi, p0, p1⟩ := mul_ten_bounds x h
  have hxi := unit_toInt x h
  have pfin : Finite32 (FP.mul x (FP.ofNat 8 23 10)) := FP.finite_of_not _ pn pi
  have e := mul_ten_eq x hn hi
  have f5fin : Finite32 (FP.ofNat 8 23 5) := by decide
  have f5 : (FP.ofNat 8 23 5).toInt = ((5 * 2 ^ 149 : Nat) : Int) := by
    rw [FP.toInt_of_pos _ (by decide)]
    have : (FP.ofNat 8 23 5).mag = 5 * 2 ^ 149 := by decide
    rw [this]
  have hz : 2 ^ 140 ≤ exactDiff (FP.mul x (FP.ofNat 8 23 10)) (FP.ofNat 8 23 5) ∧
      exactDiff (FP.mul x (FP.ofNat 8 23 10)) (FP.ofNat 8 23 5) ≤ 5 * 2 ^ 149 := by
    unfold exactDiff
    rw [f5]
    rcases hf with hlo | hhi
    · obtain ⟨_, _, hle⟩ := le_toInt _ _ hlo
      rw [hxi, FP.toInt_of_pos _ (by decide)] at hle
      have hc : 10 * (FP.ofFrac 8 23 4998 10000).mag ≤ 2559 * 2 ^ 140 := by decide
      have hle2 : x.mag ≤ (FP.ofFrac 8 23 4998 10000).mag := by exact_mod_cast hle
      have h10 : x.mag * 10 ≤ 2559 * 2 ^ 140 := by omega
      have hb := @FP.ofRatio_mag_le 8 23 x.sign (x.mag * (10 * 2 ^ 149)) (2 ^ 149)
        (2559 * 2 ^ 140) 128 (by decide)
        (by
          have : x.mag * (10 * 2 ^ 149) = x.mag * 10 * 2 ^ 149 := by
            rw [Nat.mul_assoc]
          rw [this]
          exact Nat.mul_le_mul_right _ h10)
        (by decide) (by decide) (by decide)
      rw [← e] at hb
      have hbd := FP.toInt_bounds (FP.mul x (FP.ofNat 8 23 10))
      have h1 : ((FP.mul x (FP.ofNat 8 23 10)).mag : Int) ≤ ((2559 * 2 ^ 140 : Nat) : Int) := by
        exact_mod_cast hb.1
      constructor <;> omega
    · obtain ⟨_, _, hle⟩ := le_toInt _ _ hhi
      rw [hxi, FP.toInt_of_pos _ (by decide)] at hle
      have hc : 2561 * 2 ^ 140 ≤ 10 * (FP.ofFrac 8 23 5002 10000).mag := by decide
      have hc0 : 0 < (FP.ofFrac 8 23 5002 10000).mag := by decide
      have hle2 : (FP.ofFrac 8 23 5002 10000).mag ≤ x.mag := by exact_mod_cast hle
      have h10 : 2561 * 2 ^ 140 ≤ x.mag * 10 := by omega
      have hsx : x.sign = false := by
        cases hsx : x.sign
        · rfl
        · have := hs hsx; omega
      have hlo := @FP.ofRatio_mag_ge 8 23 (by decide) x.sign (x.mag * (10 * 2 ^ 149))
        (2 ^ 149) (2561 * 2 ^ 140) 128 (by decide)
        (by
          have : x.mag * (10 * 2 ^ 149) = x.mag * 10 * 2 ^ 149 := by
            rw [Nat.mul_assoc]
          rw [this]
          exact Nat.mul_le_mul_right _ h10)
        (by decide) (by decide) (by decide)
      have hb := @FP.ofRatio_mag_le 8 23 x.sign (x.mag * (10 * 2 ^ 149))
        (2 ^ 149) (10 * 2 ^ 149) 129 (by decide)
        (by rw [Nat.mul_comm]; exact Nat.mul_le_mul_left _ (Nat.le_of_lt hm))
        (by decide) (by decide) (by decide)
      rw [← e] at hlo hb
      have hps : (FP.mul x (FP.ofNat 8 23 10)).sign = false := by rw [hb.2.2, hsx]
      have hpt := FP.toInt_of_pos _ hps
      have h1 : ((2561 * 2 ^ 140 : Nat) : Int) ≤ ((FP.mul x (FP.ofNat 8 23 10)).mag : Int) := by
        exact_mod_cast hlo
      constructor <;> omega
  have h0 : (FP.mul x (FP.ofNat 8 23 10)).toInt - (FP.ofNat 8 23 5).toInt ≠ 0 := by
    intro h0
    have := hz.1
    unfold exactDiff at this
    rw [h0, Int.natAbs_zero] at this
    exact absurd this (by decide)
  unfold noiseOffset
  rw [sub_of_finite _ _ pfin f5fin, if_neg h0]
  have hle := @FP.ofRatio_mag_le 8 23
    (decide ((FP.mul x (FP.ofNat 8 23 10)).toInt - (FP.ofNat 8 23 5).toInt < 0))
    (exactDiff (FP.mul x (FP.ofNat 8 23 10)) (FP.ofNat 8 23 5)) 1 (5 * 2 ^ 149) 128
    (by decide) (by rw [Nat.mul_one]; exact hz.2) (by decide) (by decide) (by decide)
  have hge := @FP.ofRatio_mag_ge 8 23 (by decide)
    (decide ((FP.mul x (FP.ofNat 8 23 10)).toInt - (FP.ofNat 8 23 5).toInt < 0))
    (exactDiff (FP.mul x (FP.ofNat 8 23 10)) (FP.ofNat 8 23 5)) 1 (2 ^ 140) 140
    (by decide) (by rw [Nat.mul_one]; exact hz.1) (Nat.dvd_refl _) (by decide) (by decide)
  exact ⟨hle.2.1, hge, hle.1⟩

theorem finite32_zero (s : Bool) : Finite32 (FP.zero 8 23 s) := by
  cases s <;> decide

/-- Adding an offset of magnitude between `2 ^ -9` and `5` to a number of magnitude at
most `506` moves it by more than the tolerance. -/
theorem diffExceeds_add (x o : Float32) (hx : Finite32 x) (hxm : x.mag ≤ 506 * 2 ^ 149)
    (ho : Finite32 o) (holo : 2 ^ 140 ≤ o.mag) (ohi : o.mag ≤ 5 * 2 ^ 149) :
    DiffExceeds x (FP.add x o) := by
  have htu : toleranceUp.mag ≤ 63 * 2 ^ 134 := by decide
  have hxa := FP.toInt_natAbs x
  have hoa := FP.toInt_natAbs o
  have hadd : FP.add x o =
      if x.toInt + o.toInt = 0 then FP.zero 8 23 (x.sign && o.sign)
      else FP.ofRatio 8 23 (decide (x.toInt + o.toInt < 0)) (x.toInt + o.toInt).natAbs 1 := by
    unfold FP.add
    rw [FP.isNaN_false_of_finite x hx, FP.isNaN_false_of_finite o ho,
      FP.isInf_false_of_finite x hx, FP.isInf_false_of_finite o ho]
    simp only [Bool.or_self, Bool.false_eq_true, if_false]
  by_cases h0 : x.toInt + o.toInt = 0
  · rw [hadd, if_pos h0]
    apply diffExceeds_of_exact x _ hx (finite32_zero _)
    unfold exactDiff
    rw [FP.zero_toInt]
    omega
  · rw [hadd, if_neg h0]
    have hn : (x.toInt + o.toInt).natAbs < 2 ^ (23 + 1 + 134) := by
      have : (2 : Nat) ^ (23 + 1 + 134) = 512 * 2 ^ 149 := by norm_num
      rw [this]
      omega
    obtain ⟨n1, n2, n3, n4⟩ := @FP.ofRatio_mag_near 8 23 (by decide)
      (decide (x.toInt + o.toInt < 0)) (x.toInt + o.toInt).natAbs 134 hn (by decide)
    apply diffExceeds_of_exact x _ hx n3
    unfold exactDiff
    generalize FP.ofRatio 8 23 (decide (x.toInt + o.toInt < 0)) (x.toInt + o.toInt).natAbs 1 = y
      at n1 n2 n3 n4 ⊢
    by_cases hneg : x.toInt + o.toInt < 0
    · rw [decide_eq_true hneg] at n4
      have hy := FP.toInt_of_neg y n4
      omega
    · rw [decide_eq_false hneg] at n4
      have hy := FP.toInt_of_pos y n4
      omega

theorem inHundred_facts (x : Float32) (h : InHundred x) :
    Finite32 x ∧ 0 ≤ x.toInt ∧ x.toInt ≤ ((3276800 * 2 ^ 134 : Nat) : Int) := by
  obtain ⟨_, hn, h0⟩ := le_toInt _ _ h.1
  obtain ⟨_, _, h1⟩ := le_toInt _ _ h.2
  have e0 : (FP.ofNat 8 23 0).toInt = 0 := by
    rw [FP.toInt_of_pos _ (by decide)]
    have : (FP.ofNat 8 23 0).mag = 0 := by decide
    rw [this]; rfl
  have e1 : (FP.ofNat 8 23 100).toInt = ((3276800 * 2 ^ 134 : Nat) : Int) := by
    rw [FP.toInt_of_pos _ (by decide)]
    have : (FP.ofNat 8 23 100).mag = 3276800 * 2 ^ 134 := by decide
    rw [this]
  rw [e0] at h0
  rw [e1] at h1
  refine ⟨?_, h0, h1⟩
  by_contra hc
  have hex : x.ex.val = 2 ^ 8 - 1 := by
    have := x.ex.isLt
    have h2 : ¬ x.ex.val < 2 ^ 8 - 1 := hc
    omega
  have hlow := FP.mag_lower x (by rw [hex]; decide)
  rw [hex] at hlow
  have hm := FP.toInt_natAbs x
  have h3 : (3276800 * 2 ^ 134 : Nat) < 2 ^ 158 := by decide
  have h4 : (2 : Nat) ^ 158 ≤ 2 ^ (23 + (2 ^ 8 - 1 - 1)) :=
    Nat.pow_le_pow_right (by decide) (by decide)
  omega

/-- The values `rand.Float32() * 100` that `generateRandomVectors` produces lie in
`[0, 100]`. -/
theorem generated_inHundred (x : Float32) (h : InUnit32 x) :
    InHundred (FP.mul x (FP.ofNat 8 23 100)) := by
  obtain ⟨hn, hi, hm, hs⟩ := mag_lt_of_unit x h
  have t1 : (FP.ofNat 8 23 100).isNaN = false := by decide
  have t2 : (FP.ofNat 8 23 100).isInf = false := by decide
  have t3 : (FP.ofNat 8 23 100).mag = 100 * 2 ^ 149 := by decide
  have t4 : (FP.ofNat 8 23 100).sign = false := by decide
  have t5 : 1 <<< FP.unitExp 8 23 = 2 ^ 149 := by decide
  have t6 : (FP.ofNat 8 23 0).isNaN = false := by decide
  have e0 : (FP.ofNat 8 23 0).toInt = 0 := by
    rw [FP.toInt_of_pos _ (by decide)]
    have : (FP.ofNat 8 23 0).mag = 0 := by decide
    rw [this]; rfl
  have e1 : (FP.ofNat 8 23 100).toInt = ((100 * 2 ^ 149 : Nat) : Int) := by
    rw [FP.toInt_of_pos _ t4, t3]
  have e : FP.mul x (FP.ofNat 8 23 100) =
      FP.ofRatio 8 23 x.sign (x.mag * (100 * 2 ^ 149)) (2 ^ 149) := by
    unfold FP.mul
    rw [hn, hi, t1, t2, t3, t4, t5]
    simp
  have hb := @FP.ofRatio_mag_le 8 23 x.sign (x.mag * (100 * 2 ^ 149))
    (2 ^ 149) (100 * 2 ^ 149) 132 (by decide)
    (by rw [Nat.mul_comm]; exact Nat.mul_le_mul_left _ (Nat.le_of_lt hm))
    (by decide) (by decide) (by decide)
  have hnan := @FP.ofRatio_not_nan 8 23 (by decide) x.sign (x.mag * (100 * 2 ^ 149)) (2 ^ 149)
  rw [← e] at hb hnan
  have hrange : 0 ≤ (FP.mul x (FP.ofNat 8 23 100)).toInt ∧
      (FP.mul x (FP.ofNat 8 23 100)).toInt ≤ ((100 * 2 ^ 149 : Nat) : Int) := by
    have hle : ((FP.mul x (FP.ofNat 8 23 100)).mag : Int) ≤ ((100 * 2 ^ 149 : Nat) : Int) := by
      exact_mod_cast hb.1
    cases hsx : x.sign
    · rw [FP.toInt_of_pos _ (by rw [hb.2.2, hsx])]
      exact ⟨Int.natCast_nonneg _, hle⟩
    · have hz := hs hsx
      have hb0 := @FP.ofRatio_mag_le 8 23 x.sign (x.mag * (100 * 2 ^ 149))
        (2 ^ 149) 0 0 (by decide) (by rw [hz]; simp) (by decide) (by decide) (by decide)
      rw [← e] at hb0
      have hm0 : (FP.mul x (FP.ofNat 8 23 100)).mag = 0 := by
        have := hb0.1; omega
      rw [(FP.toInt_eq_zero_iff _).2 hm0]
      exact ⟨le_refl _, Int.natCast_nonneg _⟩
  constructor
  · unfold FP.le
    rw [t6, hnan, e0]
    simpa using hrange.1
  · unfold FP.le
    rw [t1, hnan, e1]
    simpa using hrange.2

/-- Adding two non-negative numbers keeps the sum within the sum of their bounds. -/
theorem add_range (a b : Float32) (A B : Nat) (ha : Finite32 a) (hb : Finite32 b)
    (a0 : 0 ≤ a.toInt) (a1 : a.toInt ≤ ((A * 2 ^ 134 : Nat) : Int))
    (b0 : 0 ≤ b.toInt) (b1 : b.toInt ≤ ((B * 2 ^ 134 : Nat) : Int)) (hAB : A + B < 2 ^ 24) :
    Finite32 (FP.add a b) ∧ 0 ≤ (FP.add a b).toInt ∧
      (FP.add a b).toInt ≤ (((A + B) * 2 ^ 134 : Nat) : Int) := by
  unfold FP.add
  rw [FP.isNaN_false_of_finite a ha, FP.isNaN_false_of_finite b hb,
    FP.isInf_false_of_finite a ha, FP.isInf_false_of_finite b hb]
  simp only [Bool.or_self, Bool.false_eq_true, if_false]
  by_cases h0 : a.toInt + b.toInt = 0
  · rw [if_pos h0, FP.zero_toInt]
    exact ⟨finite32_zero _, le_refl _, Int.natCast_nonneg _⟩
  · rw [if_neg h0]
    have hneg : ¬ a.toInt + b.toInt < 0 := by omega
    rw [decide_eq_false hneg]
    have hle : (a.toInt + b.toInt).natAbs ≤ (A + B) * 2 ^ 134 := by
      have : ((a.toInt + b.toInt).natAbs : Int) ≤ (((A + B) * 2 ^ 134 : Nat) : Int) := by
        rw [Nat.add_mul]
        omega
      exact_mod_cast this
    have hB : (A + B) * 2 ^ 134 < 2 ^ (23 + 1 + 134) := by
      rw [pow_add]
      exact Nat.mul_lt_mul_of_pos_right hAB (Nat.two_pow_pos _)
    obtain ⟨m1, m2, m3⟩ := @FP.ofRatio_mag_le 8 23 false (a.toInt + b.toInt).natAbs 1
      ((A + B) * 2 ^ 134) 134 (by decide) (by rw [Nat.mul_one]; exact hle)
      (Dvd.intro_left _ rfl) hB (by decide)
    rw [FP.toInt_of_pos _ m3]
    exact ⟨m2, Int.natCast_nonneg _, by exact_mod_cast m1⟩

/-- The running sum of at most `5 - m` further vectors with values in `[0, 100]`, from an
accumulator in `[0, 100 m]`. -/
theorem foldl_add_range (i : Nat) (vectors : List Vector) (acc : Float32) (m : Nat)
    (hlen : m + vectors.length ≤ 5) (hv : ∀ v ∈ vectors, ∀ x ∈ v.Values, InHundred x)
    (hf : Finite32 acc) (h0 : 0 ≤ acc.toInt)
    (h1 : acc.toInt ≤ ((m * 3276800 * 2 ^ 134 : Nat) : Int)) :
    Finite32 (vectors.foldl (fun acc v => FP.add acc (v.Values.getD i zero32)) acc) ∧
    0 ≤ (vectors.foldl (fun acc v => FP.add acc (v.Values.getD i zero32)) acc).toInt ∧
    (vectors.foldl (fun acc v => FP.add acc (v.Values.getD i zero32)) acc).toInt ≤
      ((5 * 3276800 * 2 ^ 134 : Nat) : Int) := by
  induction vectors generalizing acc m with
  | nil =>
    refine ⟨hf, h0, le_trans h1 ?_⟩
    have hm : m ≤ 5 := by simpa using hlen
    have : m * 3276800 * 2 ^ 134 ≤ 5 * 3276800 * 2 ^ 134 :=
      Nat.mul_le_mul_right _ (Nat.mul_le_mul_right _ hm)
    exact_mod_cast this
  | cons v vs ih =>
    have hlen2 : m + 1 + vs.length ≤ 5 := by
      rw [List.length_cons] at hlen; omega
    have hx : InHundred (v.Values.getD i zero32) := by
      by_cases hi : i < v.Values.length
      · rw [List.getD_eq_getElem _ _ hi]
        exact hv v (List.mem_cons_self _ _) _ (List.getElem_mem _)
      · rw [List.getD_eq_default _ _ (Nat.le_of_not_lt hi)]
        decide
    obtain ⟨xf, x0, x1⟩ := inHundred_facts _ hx
    obtain ⟨s1, s2, s3⟩ := add_range acc (v.Values.getD i zero32) (m * 3276800) 3276800 hf xf
      h0 h1 x0 x1 (by omega)
    rw [List.foldl_cons]
    apply ih (FP.add acc (v.Values.getD i zero32)) (m + 1) hlen2
      (fun u hu => hv u (List.mem_cons_of_mem _ hu)) s1 s2
    have : (m + 1) * 3276800 = m * 3276800 + 3276800 := by ring
    rw [this]
    exact s3

/-- Every entry of the aggregate of at most five vectors with values in `[0, 100]` is a
number in `[0, 500]`. -/
theorem calculateCorrectSum_range (first : Vector) (rest : List Vector) (i : Nat)
    (hi : i < first.Values.length) (hlen : rest.length + 1 ≤ 5)
    (hv : ∀ v ∈ first :: rest, ∀ x ∈ v.Values, InHundred x) :
    Finite32 ((calculateCorrectSum (first :: rest)).getD i zero32) ∧
    ((calculateCorrectSum (first :: rest)).getD i zero32).mag ≤ 506 * 2 ^ 149 := by
  rw [calculateCorrectSum_getD first rest i hi, foldl_colAcc_eq i _ _ tidy_zero32]
  have hz : zero32.toInt = 0 := FP.zero_toInt false
  obtain ⟨r1, r2, r3⟩ := foldl_add_range i (first :: rest) zero32 0
    (by rw [List.length_cons]; omega) hv finite32_zero32 (by rw [hz])
    (by rw [hz]; exact Int.natCast_nonneg _)
  refine ⟨r1, ?_⟩
  have hm := FP.toInt_natAbs
    ((first :: rest).foldl (fun acc v => FP.add acc (v.Values.getD i zero32)) zero32)
  have hc : (5 * 3276800 * 2 ^ 134 : Nat) ≤ 506 * 2 ^ 149 := by decide
  omega

/-- C7 (amended): on the incorrect branch the node returns the reference aggregate
perturbed at the drawn index, and the coordinator's check of it against the reference
fails exactly when the aggregate is non-empty and, at the drawn index, the `float32`
difference between the true value and the perturbed value is a number whose magnitude
exceeds `float32(0.001)`.  The check does fail whenever the aggregate is non-empty, its
entry at the drawn index is a number of magnitude at most `506`, and the draw of
`rand.Float32()` lies in `[0, 1)` and is at most `0.4998` or at least `0.5002`; this
covers every non-empty batch of at most five vectors with values in `[0, 100]`.  (With
an empty aggregate, or a draw at `0.5`, the answer passes as correct.) -/
theorem C7_verification_of_incorrect_amended (s : VectorServer) (d : Draws)
    (req : VectorRequest)
    (h1 : FP.lt d.crash s.crashProb = false) (h2 : FP.lt d.fail s.failProb = true) :
    (SumVectors s d req).2 =
      Except.ok { Result := { Values := perturb d (calculateCorrectSum req.Vectors) },
                  NodeId := s.nodeID } ∧
    (compareVectors (calculateCorrectSum req.Vectors)
        (perturb d (calculateCorrectSum req.Vectors)) = false ↔
      0 < (calculateCorrectSum req.Vectors).length ∧
      DiffExceeds
        ((calculateCorrectSum req.Vectors).getD
          (Intn d.index (calculateCorrectSum req.Vectors).length) zero32)
        (FP.add ((calculateCorrectSum req.Vectors).getD
          (Intn d.index (calculateCorrectSum req.Vectors).length) zero32)
          (noiseOffset d.noise))) ∧
    (0 < (calculateCorrectSum req.Vectors).length →
      Finite32 ((calculateCorrectSum req.Vectors).getD
        (Intn d.index (calculateCorrectSum req.Vectors).length) zero32) →
      ((calculateCorrectSum req.Vectors).getD
        (Intn d.index (calculateCorrectSum req.Vectors).length) zero32).mag ≤ 506 * 2 ^ 149 →
      InUnit32 d.noise → OffCentre d.noise →
      compareVectors (calculateCorrectSum req.Vectors)
        (perturb d (calculateCorrectSum req.Vectors)) = false) ∧
    (∀ (first : Vector) (rest : List Vector), req.Vectors = first :: rest →
      0 < first.Values.length → rest.length + 1 ≤ 5 →
      (∀ v ∈ req.Vectors, ∀ x ∈ v.Values, InHundred x) →
      InUnit32 d.noise → OffCentre d.noise →
      compareVectors (calculateCorrectSum req.Vectors)
        (perturb d (calculateCorrectSum req.Vectors)) = false) := by
  have key : ∀ agg : List Float32,
      compareVectors agg (perturb d agg) = false ↔
        0 < agg.length ∧
        DiffExceeds (agg.getD (Intn d.index agg.length) zero32)
          (FP.add (agg.getD (Intn d.index agg.length) zero32) (noiseOffset d.noise)) := by
    intro agg
    rw [← exceeds_iff, ← Bool.not_eq_true, compareVectors_eq_true]
    by_cases hpos : 0 < agg.length
    · have hk := Intn_lt d.index agg.length hpos
      have hget : ∀ i, (perturb d agg).getD i zero32 =
          if i = Intn d.index agg.length then
            FP.add (agg.getD (Intn d.index agg.length) zero32) (noiseOffset d.noise)
          else agg.getD i zero32 := by
        intro i
        by_cases hi : i = Intn d.index agg.length
        · rw [if_pos hi, hi, List.getD_eq_getElem?_getD, perturb_getElem?_eq d agg hpos]; rfl
        · rw [if_neg hi, List.getD_eq_getElem?_getD, perturb_getElem?_ne d agg hpos i hi,
            List.getD_eq_getElem?_getD]
      constructor
      · intro hne
        refine ⟨hpos, ?_⟩
        by_contra hc
        apply hne
        refine ⟨(perturb_length d agg).symm, fun i hi => ?_⟩
        rw [hget i]
        by_cases hik : i = Intn d.index agg.length
        · rw [if_pos hik, hik]
          simpa using hc
        · rw [if_neg hik]; exact absDiff_self _
      · rintro ⟨_, hgt⟩ ⟨_, hall⟩
        have := hall _ hk
        rw [hget, if_pos rfl, hgt] at this
        exact Bool.noConfusion this
    · have hnil : agg = [] := List.length_eq_zero.1 (by omega)
      subst hnil
      constructor
      · intro hne
        exfalso; apply hne
        exact ⟨rfl, fun i hi => absurd hi (Nat.not_lt_zero _)⟩
      · rintro ⟨h, _⟩; exact absurd h (Nat.lt_irrefl _)
  have detect : ∀ agg : List Float32, 0 < agg.length →
      Finite32 (agg.getD (Intn d.index agg.length) zero32) →
      (agg.getD (Intn d.index agg.length) zero32).mag ≤ 506 * 2 ^ 149 →
      InUnit32 d.noise → OffCentre d.noise →
      compareVectors agg (perturb d agg) = false := by
    intro agg hpos hfin hmag hunit hoff
    obtain ⟨o1, o2, o3⟩ := noiseOffset_far d.noise hunit hoff
    exact (key agg).2 ⟨hpos, diffExceeds_add _ _ hfin hmag o1 o2 o3⟩
  refine ⟨?_, key _, detect _, ?_⟩
  · rw [SumVectors_incorrect s d req h1 h2, serverSum_eq]
  · intro first rest hreq hfirst hlen hv hunit hoff
    rw [hreq] at hv ⊢
    have hl := calculateCorrectSum_length first rest
    have hpos : 0 < (calculateCorrectSum (first :: rest)).length := by rw [hl]; exact hfirst
    have hk := Intn_lt d.index _ hpos
    obtain ⟨r1, r2⟩ := calculateCorrectSum_range first rest
      (Intn d.index (calculateCorrectSum (first :: rest)).length) (by rw [← hl]; exact hk)
      hlen hv
    exact detect _ hpos r1 r2 hunit hoff

/-- C7 (amended), at the node that always answers incorrectly: with the batch `[1,2,3]`,
`[4,5,6]` and `rand.Float32() = 0` (offset `-5`) the check fails; and with the batch
`[0.1, 99.5]`, `[100, 1/3]`, drawn index `1` and `rand.Float32() = 0.75` (offset `2.5`)
the check fails. -/
theorem C7_verification_of_incorrect_amended_witness :
    compareVectors (calculateCorrectSum [natVector [1, 2, 3], natVector [4, 5, 6]])
      (perturb zeroDraws (calculateCorrectSum [natVector [1, 2, 3], natVector [4, 5, 6]])) =
        false ∧
    compareVectors
      (calculateCorrectSum
        [{ Values := [FP.ofFrac 8 23 1 10, FP.ofFrac 8 23 995 10] },
          { Values := [FP.ofNat 8 23 100, FP.ofFrac 8 23 1 3] }])
      (perturb { zeroDraws with index := 1, noise := FP.ofFrac 8 23 3 4 }
        (calculateCorrectSum
          [{ Values := [FP.ofFrac 8 23 1 10, FP.ofFrac 8 23 995 10] },
            { Values := [FP.ofNat 8 23 100, FP.ofFrac 8 23 1 3] }])) = false :=
  ⟨(C7_verification_of_incorrect_amended failingNode zeroDraws
      { Vectors := [natVector [1, 2, 3], natVector [4, 5, 6]] } (by decide) (by decide)).2.2.1
      (by decide) (by decide) (by decide) ⟨by decide, by decide⟩ (Or.inl (by decide)),
    (C7_verification_of_incorrect_amended failingNode
      { zeroDraws with index := 1, noise := FP.ofFrac 8 23 3 4 }
      { Vectors := [{ Values := [FP.ofFrac 8 23 1 10, FP.ofFrac 8 23 995 10] },
          { Values := [FP.ofNat 8 23 100, FP.ofFrac 8 23 1 3] }] }
      (by decide) (by decide)).2.2.2
      { Values := [FP.ofFrac 8 23 1 10, FP.ofFrac 8 23 995 10] }
      [{ Values := [FP.ofNat 8 23 100, FP.ofFrac 8 23 1 3] }] rfl (by decide) (by decide)
      (by decide) ⟨by decide, by decide⟩ (Or.inr (by decide))⟩

/-- C7 fails as stated: on the incorrect branch (`incorrectSums` incremented) the answer
to the empty batch is the empty vector, and the answer to the batch `[1]` with
`rand.Float32() = 0.5` is `[1]`; both pass the coordinator's check against the reference. -/
theorem C7_counterexample :
    (SumVectors failingNode zeroDraws { Vectors := [] }).1.incorrectSums =
      failingNode.incorrectSums + 1 ∧
    (SumVectors failingNode zeroDraws { Vectors := [] }).2 =
      Except.ok { Result := { Values := [] }, NodeId := 1 } ∧
    compareVectors (calculateCorrectSum []) [] = true ∧
    (SumVectors failingNode halfDraws { Vectors := [natVector [1]] }).1.incorrectSums =
      failingNode.incorrectSums + 1 ∧
    (SumVectors failingNode halfDraws { Vectors := [natVector [1]] }).2 =
      Except.ok { Result := { Values := (natVector [1]).Values }, NodeId := 1 } ∧
    compareVectors (calculateCorrectSum [natVector [1]]) (natVector [1]).Values = true := by
  refine ⟨by decide, ?_, by decide, by decide, ?_, by decide⟩
  · rw [SumVectors_incorrect failingNode zeroDraws _ (by decide) (by decide)]
    rfl
  · rw [SumVectors_incorrect failingNode halfDraws _ (by decide) (by decide)]
    have : perturb halfDraws (serverSum { Vectors := [natVector [1]] }) =
        (natVector [1]).Values := by decide
    rw [this]
    rfl

end VecSum
